import Mathlib

/-! The next-fit allocator of `mm.c`.

A shallow embedding of `simple_init`, `simple_malloc` and `simple_free`.

* Addresses and machine words are natural numbers; every arithmetic step that
  the C code performs on `uintptr_t` / `size_t` is reduced modulo `2 ^ 64`.
* `NULL` is the address `0`.
* The managed memory is a map from (8-byte aligned) header addresses to the
  64-bit word stored in the `next` field of the header at that address.  A
  header is exactly one such word (`sizeof(BlockHeader) = 8`), its payload
  `user_block` starts 8 bytes after it.
* The two globals `first` and `current` are fields of the allocator state.
* `memory_start` and `memory_end` are declared outside `mm.c`; they are
  parameters `ms` and `me` of the model.
* Loops take a fuel argument and return `none` when the fuel runs out.
-/

namespace MM

/-! ## Data model -/

/-- Allocator state: the header words in memory and the two globals. -/
structure Allocator where
  mem : Nat → Nat
  first : Nat
  current : Nat

/-- The C assignment `p->next = v` on the raw link word. -/
def store (m : Nat → Nat) (p v : Nat) : Nat → Nat :=
  fun a => if a = p then v else m a

/-- The constant `sizeof(BlockHeader)`. -/
def HEADER : Nat := 8

/-- The constant `MIN_SIZE`. -/
def MIN_SIZE : Nat := 8

/-- Macro `GET_NEXT(p)`: the link word with the flag bit masked out. -/
def GET_NEXT (m : Nat → Nat) (p : Nat) : Nat :=
  m p &&& (2 ^ 64 - 2)

/-- Macro `SET_NEXT(p,n)`: replace the link, keep the flag bit. -/
def SET_NEXT (m : Nat → Nat) (p n : Nat) : Nat → Nat :=
  let flag := m p &&& 1
  let ptr := n &&& (2 ^ 64 - 2)
  store m p (ptr ||| flag)

/-- Macro `GET_FREE(p)`: bit 0 of the link word. -/
def GET_FREE (m : Nat → Nat) (p : Nat) : Nat :=
  m p &&& 1

/-- Macro `SET_FREE(p,f)`. -/
def SET_FREE (m : Nat → Nat) (p : Nat) (f : Bool) : Nat → Nat :=
  if f then store m p (GET_NEXT m p ||| 1) else store m p (GET_NEXT m p)

/-- Macro `SIZE(p)`: `GET_NEXT(p) - (p + sizeof(BlockHeader))` in 64-bit arithmetic. -/
def SIZE (m : Nat → Nat) (p : Nat) : Nat :=
  (GET_NEXT m p + 2 ^ 64 - (p + HEADER) % 2 ^ 64) % 2 ^ 64

/-- Address of `p->user_block`. -/
def user_block (p : Nat) : Nat :=
  (p + HEADER) % 2 ^ 64

/-- The value `aligned_memory_start` of `simple_init`. -/
def aligned_memory_start (ms : Nat) : Nat :=
  ((ms + 7) % 2 ^ 64) &&& (2 ^ 64 - 8)

/-- The value `aligned_memory_end` of `simple_init`. -/
def aligned_memory_end (me : Nat) : Nat :=
  me &&& (2 ^ 64 - 8)

/-- The room test of `simple_init` (line 56), in 64-bit arithmetic. -/
def roomCheck (ms me : Nat) : Prop :=
  (aligned_memory_start ms + 2 * HEADER + MIN_SIZE) % 2 ^ 64 ≤ aligned_memory_end me

instance (ms me : Nat) : Decidable (roomCheck ms me) := by
  unfold roomCheck; infer_instance

/-- The address `last` of the dummy end header placed by `simple_init`. -/
def lastHeader (me : Nat) : Nat :=
  (aligned_memory_end me + 2 ^ 64 - HEADER) % 2 ^ 64

/-! ## Operations -/

/-- Function `simple_init`. -/
def simple_init (ms me : Nat) (s : Allocator) : Allocator :=
  if s.first = 0 then
    if roomCheck ms me then
      let first := aligned_memory_start ms
      let last := lastHeader me
      let m1 := store s.mem first last
      let m2 := SET_FREE m1 first true
      let m3 := store m2 last first
      let m4 := SET_FREE m3 last false
      { mem := m4, first := first, current := first }
    else
      { s with current := s.first }
  else s

/-- The rounded request `aligned_size` of `simple_malloc` (lines 92-95). -/
def alignedSize (size : Nat) : Nat :=
  let a := ((size + 7) % 2 ^ 64) &&& (2 ^ 64 - 8)
  if a < MIN_SIZE then MIN_SIZE else a

/-- The forward-coalescing `while` loop inside `simple_malloc` (lines 104-109). -/
def coalesceLoop : Nat → (Nat → Nat) → Nat → Option (Nat → Nat)
  | 0, _, _ => none
  | fuel + 1, m, current =>
    if GET_FREE m (GET_NEXT m current) ≠ 0 ∧ GET_NEXT m current ≠ current then
      let following := GET_NEXT m current
      coalesceLoop fuel (SET_NEXT m current (GET_NEXT m following)) current
    else some m

/-- The `do ... while (current != search_start)` loop of `simple_malloc`
(lines 99-139).  The result is the returned address (`0` for the `NULL` of
line 142), the memory and the value of `current`. -/
def searchLoop (aligned_size search_start : Nat) :
    Nat → (Nat → Nat) → Nat → Option (Nat × (Nat → Nat) × Nat)
  | 0, _, _ => none
  | fuel + 1, m, current =>
    if GET_FREE m current ≠ 0 then
      match coalesceLoop fuel m current with
      | none => none
      | some m1 =>
        if SIZE m1 current ≥ aligned_size then
          let ret := current
          if SIZE m1 current - aligned_size < HEADER + MIN_SIZE then
            let m2 := SET_FREE m1 current false
            some (user_block ret, m2, GET_NEXT m2 ret)
          else
            let new_free := (current + HEADER + aligned_size) % 2 ^ 64
            let m2 := store m1 new_free (GET_NEXT m1 current)
            let m3 := SET_FREE m2 new_free true
            let m4 := SET_NEXT m3 current new_free
            let m5 := SET_FREE m4 current false
            some (user_block ret, m5, new_free)
        else
          let c := GET_NEXT m1 current
          if c ≠ search_start then searchLoop aligned_size search_start fuel m1 c
          else some (0, m1, c)
    else
      let c := GET_NEXT m current
      if c ≠ search_start then searchLoop aligned_size search_start fuel m c
      else some (0, m, c)

/-- Function `simple_malloc`: the returned address (`0` is `NULL`) and the new state. -/
def simple_malloc (ms me fuel : Nat) (s : Allocator) (size : Nat) :
    Option (Nat × Allocator) :=
  let s1 := if s.first = 0 then simple_init ms me s else s
  if s1.first = 0 then some (0, s1)
  else
    match searchLoop (alignedSize size) s1.current fuel s1.mem s1.current with
    | none => none
    | some (r, m, c) => some (r, { mem := m, first := s1.first, current := c })

/-- The lookup loop of `simple_free` (lines 161-167): the header whose payload
address is `ptr`, or `0` when the ring has none. -/
def findLoop (m : Nat → Nat) (first ptr : Nat) : Nat → Nat → Option Nat
  | 0, _ => none
  | fuel + 1, head =>
    if user_block head = ptr then some head
    else
      let h := GET_NEXT m head
      if h ≠ first then findLoop m first ptr fuel h else some 0

/-- The forward-coalescing loop of `simple_free` (lines 183-187). -/
def freeForward : Nat → (Nat → Nat) → Nat → Option (Nat → Nat)
  | 0, _, _ => none
  | fuel + 1, m, block =>
    if GET_FREE m (GET_NEXT m block) ≠ 0 then
      let following := GET_NEXT m block
      if following = block then some m
      else freeForward fuel (SET_NEXT m block (GET_NEXT m following)) block
    else some m

/-- The predecessor scan of `simple_free` (lines 190-195). -/
def findPrev (m : Nat → Nat) (first block : Nat) : Nat → Nat → Option Nat
  | 0, _ => none
  | fuel + 1, prev =>
    if GET_NEXT m prev ≠ block then
      let prev1 := GET_NEXT m prev
      if prev1 = first ∧ GET_NEXT m prev1 ≠ block then some prev1
      else findPrev m first block fuel prev1
    else some prev

/-- Function `simple_free`. -/
def simple_free (fuel : Nat) (s : Allocator) (ptr : Nat) : Option Allocator :=
  if ptr = 0 ∨ s.first = 0 then some s
  else
    match findLoop s.mem s.first ptr fuel s.first with
    | none => none
    | some block =>
      if block = 0 then some s
      else if GET_FREE s.mem block ≠ 0 then some s
      else
        let m1 := SET_FREE s.mem block true
        match freeForward fuel m1 block with
        | none => none
        | some m2 =>
          match findPrev m2 s.first block fuel s.first with
          | none => none
          | some prev =>
            if prev ≠ block ∧ GET_FREE m2 prev ≠ 0 then
              let m3 := SET_NEXT m2 prev (GET_NEXT m2 block)
              some { mem := m3, first := s.first, current := prev }
            else
              some { mem := m2, first := s.first, current := block }

/-- The state before any call: both globals are `NULL`, memory is arbitrary. -/
def boot (m : Nat → Nat) : Allocator :=
  { mem := m, first := 0, current := 0 }

/-- States reached by a valid run, together with `R`, the list of all addresses
returned by `simple_malloc` so far (`NULL` results included), and `V`, the
addresses returned and not released since (the live payload addresses). -/
inductive Reach (ms me : Nat) : Allocator → List Nat → List Nat → Prop
  | boot (m : Nat → Nat) : Reach ms me (boot m) [] []
  | init {s : Allocator} {R V : List Nat} :
      Reach ms me s R V → Reach ms me (simple_init ms me s) R V
  | malloc {s s1 : Allocator} {R V : List Nat} {fuel size p : Nat} :
      Reach ms me s R V → size < 2 ^ 64 →
      simple_malloc ms me fuel s size = some (p, s1) →
      Reach ms me s1 (p :: R) (if p = 0 then V else p :: V)
  | free {s s1 : Allocator} {R V : List Nat} {fuel p : Nat} :
      Reach ms me s R V → p ∈ R →
      simple_free fuel s p = some s1 → Reach ms me s1 R (V.filter (fun x => x ≠ p))

/-! ## Abstraction of the header ring -/

/-- The link word of a header whose successor is `a` and whose free flag is `f`. -/
def word (a : Nat) (f : Bool) : Nat := a + f.toNat

/-- A relation `P` holds between each element of the list and its successor,
the successor of the final element being `t`. -/
def Adj {α : Type} (P : α → α → Prop) : List α → α → Prop
  | [], _ => True
  | b :: rest, t => P b (rest.headD t) ∧ Adj P rest t

/-- The header at `b.1` stores the link to `n.1` and the flag `b.2`. -/
def LinkP (m : Nat → Nat) (b n : Nat × Bool) : Prop :=
  m b.1 = word n.1 b.2

/-- Header `b.1` is aligned and its payload, of at least `MIN_SIZE` bytes, ends
at the aligned address `n.1`. -/
def GeoP (b n : Nat × Bool) : Prop :=
  b.1 % 8 = 0 ∧ b.1 + 16 ≤ n.1 ∧ n.1 % 8 = 0 ∧ n.1 < 2 ^ 64

/-- Not both of two neighbouring blocks are free. -/
def NoAdjP (b n : Nat × Bool) : Prop :=
  b.2 = true → n.2 = false

/-- The header reached from `p` after `k` successor steps. -/
def nth (m : Nat → Nat) : Nat → Nat → Nat
  | 0, p => p
  | k + 1, p => nth m k (GET_NEXT m p)

/-- The headers met on the first `k` steps of a walk from `p`. -/
def walk (m : Nat → Nat) : Nat → Nat → List Nat
  | 0, _ => []
  | k + 1, p => p :: walk m k (GET_NEXT m p)

/-- The test of `simple_malloc` on a header: free and large enough (lines 101, 112). -/
def Fits (m : Nat → Nat) (a x : Nat) : Prop :=
  GET_FREE m x ≠ 0 ∧ a ≤ SIZE m x

instance (m : Nat → Nat) (a x : Nat) : Decidable (Fits m a x) := by
  unfold Fits; infer_instance

/-- The header addresses of the ring in successor order from `first`: the
blocks of `B`, then the dummy header `L`. -/
def ringOf (B : List (Nat × Bool)) (L : Nat) : List Nat :=
  B.map Prod.fst ++ [L]

/-- Memory `m` holds the ring described by `B`: the blocks `B` (header address
and free flag, in address order) start at `A`, tile the space up to the dummy
header `L`, and `L` links back to `A` and is in use. -/
structure WF (A L : Nat) (m : Nat → Nat) (B : List (Nat × Bool)) : Prop where
  hd : (B.headD (L, false)).1 = A
  links : Adj (LinkP m) B (L, false)
  geo : Adj GeoP B (L, false)
  sent : m L = word A false
  hA : A % 8 = 0 ∧ 0 < A
  hL : L % 8 = 0 ∧ A + 16 ≤ L ∧ L + 8 < 2 ^ 64

/-- The representation invariant of an initialised allocator whose first
header is at `A` and whose dummy end header is at `L`. -/
structure Inv (A L : Nat) (s : Allocator) (B : List (Nat × Bool)) : Prop where
  wf : WF A L s.mem B
  noadj : Adj NoAdjP B (L, false)
  first_eq : s.first = A
  cur : s.current ∈ ringOf B L

/-- A payload address that `simple_malloc` can hand out in a ring from `A` to `L`. -/
def ValidPtr (A L p : Nat) : Prop :=
  p % 8 = 0 ∧ A + 8 ≤ p ∧ p + 8 ≤ L

/-- Successor link between two header addresses. -/
def NextP (m : Nat → Nat) (x n : Nat) : Prop :=
  GET_NEXT m x = n

/-- What the search needs to know about a header it passes: it does not fit the
request, and if it is free its successor is in use. -/
def Passes (m : Nat → Nat) (a x : Nat) : Prop :=
  ¬ Fits m a x ∧ (GET_FREE m x ≠ 0 → GET_FREE m (GET_NEXT m x) = 0)

/-- The blocks after a released block once a free successor has been absorbed
(forward coalescing, lines 183-187). -/
def dropFree : List (Nat × Bool) → List (Nat × Bool)
  | (_, true) :: Y => Y
  | Y => Y

/-- The state after `simple_malloc` has taken `a` bytes from the free block at
`b` whose successor is `nx`: the block is taken whole when the rest is below
`sizeof(BlockHeader) + MIN_SIZE`, and split otherwise. -/
def takeState (s : Allocator) (b nx a : Nat) : Allocator :=
  if nx - (b + 8) - a < 16 then
    { mem := store s.mem b (word nx false), first := s.first, current := nx }
  else
    { mem := store (store s.mem (b + 8 + a) (word nx true)) b (word (b + 8 + a) false),
      first := s.first, current := b + 8 + a }

/-- The block list after `simple_malloc` has taken `a` bytes from the free
block at `b` between the blocks `X` and `Y`. -/
def takeBlocks (X Y : List (Nat × Bool)) (b nx a : Nat) : List (Nat × Bool) :=
  if nx - (b + 8) - a < 16 then X ++ (b, false) :: Y
  else X ++ (b, false) :: (b + 8 + a, true) :: Y

/-- The live payload addresses `V` are exactly the payloads of the in-use blocks of `B`. -/
def Live (B : List (Nat × Bool)) (V : List Nat) : Prop :=
  ∀ p, p ∈ V ↔ ∃ b, (b, false) ∈ B ∧ p = b + 8

/-- The invariant of valid runs: every returned address is `NULL` or a block
payload inside the region, and the allocator is either uninitialised with
nothing live, or its memory holds a well-formed ring whose in-use blocks are
the live allocations. -/
def RInv (A L : Nat) (s : Allocator) (R V : List Nat) : Prop :=
  (∀ p ∈ R, p = 0 ∨ ValidPtr A L p) ∧
    ((s.first = 0 ∧ V = []) ∨ ∃ B, Inv A L s B ∧ Live B V)

/-- A memory whose words are all zero, used for concrete runs. -/
def zeroMem : Nat → Nat := fun _ => 0

/-- The state returned by a call, for concrete runs (the start state if the fuel ran out). -/
def stateOf (s : Allocator) (r : Option (Nat × Allocator)) : Allocator :=
  (r.getD (0, s)).2

/-- Rounding up to the next multiple of 8 as the specification words it
(`align8`), on unbounded naturals; `alignedSize` is what the code computes. -/
def align8 (n : Nat) : Nat := (n + 7) / 8 * 8

/-- A concrete run on the region `[8, 72)`: two requests of 8 bytes, then the
release of the first. -/
def runA : Allocator :=
  let s1 := stateOf (boot zeroMem) (simple_malloc 8 72 10 (boot zeroMem) 8)
  let s2 := stateOf s1 (simple_malloc 8 72 10 s1 8)
  (simple_free 10 s2 16).getD s2

/-- The bootstrapped allocator on the region `[8, 48)`. -/
def runB : Allocator := simple_init 8 48 (boot zeroMem)

/-- The run of the specification's coalescing scenario on the region `[8, 48)`:
two requests of 8 bytes, returned at `16` and `32`. -/
def runC : Allocator :=
  let s1 := stateOf (boot zeroMem) (simple_malloc 8 48 10 (boot zeroMem) 8)
  stateOf s1 (simple_malloc 8 48 10 s1 8)

/-- The scenario continued: both addresses released, first `16`, then `32`. -/
def runD : Allocator :=
  let s3 := (simple_free 10 runC 16).getD runC
  (simple_free 10 s3 32).getD s3

/-! ## The command driver of `main.c` -/

/-- Modelled from the spec: `write_int` of `io.h`, which is not among the
sources, writes the decimal digits of its argument. -/
def write_int (n : Nat) : String := toString n

/-- The command loop of `main` (lines 44-82).  The input is the list of
characters that `read_char` delivers before `EOF`; `alloc bytes` tells whether
the C library grants a `realloc` request.  The result is the final `size` and
`collection`, or `none` when `realloc` fails (line 57).  The `int` counters are
not reduced modulo `2 ^ 32`: they stay below the input length. -/
def commandLoop (alloc : Nat → Bool) :
    List Char → Nat → Nat → Nat → (Nat → Nat) → Option (Nat × (Nat → Nat))
  | [], _, _, size, collection => some (size, collection)
  | cmd :: rest, counter, capacity, size, collection =>
    if cmd = 'a' then
      if size = capacity then
        if alloc (capacity * 2 * 4) then
          commandLoop alloc rest (counter + 1) (capacity * 2) (size + 1)
            (store collection size counter)
        else none
      else
        commandLoop alloc rest (counter + 1) capacity (size + 1) (store collection size counter)
    else if cmd = 'b' then
      commandLoop alloc rest (counter + 1) capacity size collection
    else if cmd = 'c' then
      commandLoop alloc rest (counter + 1) capacity (if size > 0 then size - 1 else size)
        collection
    else some (size, collection)

/-- The printing loop of `main` (lines 85-92), from index `i` for `k` more elements. -/
def printLoop (collection : Nat → Nat) (size : Nat) : Nat → Nat → String
  | 0, _ => ""
  | k + 1, i =>
    write_int (collection i) ++ (if i < size - 1 then "," else "") ++
      printLoop collection size k (i + 1)

/-- Function `main`: the text written and the exit status. -/
def main (alloc : Nat → Bool) (input : List Char) : String × Int :=
  if alloc (8 * 4) then
    match commandLoop alloc input 0 8 0 (fun _ => 0) with
    | none => ("Memory allocation failed\n", -1)
    | some (size, collection) => (printLoop collection size size 0 ++ ";" ++ "\n", 0)
  else ("Memory allocation failed\n", -1)

/-- The state on which the search of `simple_malloc` runs: the state itself, or
the bootstrapped state when the call bootstraps (lines 86-89). -/
def searched (ms me : Nat) (s : Allocator) : Allocator :=
  if s.first = 0 then simple_init ms me s else s

/-- Header `x` is an in-use block of the ring of `s`: it is met on the walk from
`first`, it is not the dummy end header `L`, and its free flag is clear. -/
def InUse (L : Nat) (s : Allocator) (x : Nat) : Prop :=
  (∃ k, nth s.mem k s.first = x) ∧ x ≠ L ∧ GET_FREE s.mem x = 0

/-- Header `x` is a free block of the ring of `s`: it is met on the walk from
`first` and its free flag is set. -/
def FreeBlock (s : Allocator) (x : Nat) : Prop :=
  (∃ k, nth s.mem k s.first = x) ∧ GET_FREE s.mem x ≠ 0

/-- Variant for the refinement claim: the search loop of `simple_malloc` with
the inner `while` loop that splices free successors out of the ring
(lines 104-109) removed; everything else is `searchLoop`. -/
def searchLoopNoCoalesce (aligned_size search_start : Nat) :
    Nat → (Nat → Nat) → Nat → Option (Nat × (Nat → Nat) × Nat)
  | 0, _, _ => none
  | fuel + 1, m, current =>
    if GET_FREE m current ≠ 0 then
      if SIZE m current ≥ aligned_size then
        let ret := current
        if SIZE m current - aligned_size < HEADER + MIN_SIZE then
          let m2 := SET_FREE m current false
          some (user_block ret, m2, GET_NEXT m2 ret)
        else
          let new_free := (current + HEADER + aligned_size) % 2 ^ 64
          let m2 := store m new_free (GET_NEXT m current)
          let m3 := SET_FREE m2 new_free true
          let m4 := SET_NEXT m3 current new_free
          let m5 := SET_FREE m4 current false
          some (user_block ret, m5, new_free)
      else
        let c := GET_NEXT m current
        if c ≠ search_start then searchLoopNoCoalesce aligned_size search_start fuel m c
        else some (0, m, c)
    else
      let c := GET_NEXT m current
      if c ≠ search_start then searchLoopNoCoalesce aligned_size search_start fuel m c
      else some (0, m, c)

/-- Variant for the refinement claim: `simple_malloc` with the coalescing loop removed. -/
def simple_malloc_no_coalesce (ms me fuel : Nat) (s : Allocator) (size : Nat) :
    Option (Nat × Allocator) :=
  let s1 := if s.first = 0 then simple_init ms me s else s
  if s1.first = 0 then some (0, s1)
  else
    match searchLoopNoCoalesce (alignedSize size) s1.current fuel s1.mem s1.current with
    | none => none
    | some (r, m, c) => some (r, { mem := m, first := s1.first, current := c })


/-! ## Machine-word lemmas -/

theorem land_hi_mask (k x : Nat) (hk : k ≤ 64) :
    x &&& (2 ^ 64 - 2 ^ k) = x % 2 ^ 64 / 2 ^ k * 2 ^ k := by
  apply Nat.eq_of_testBit_eq
  intro i
  have h1 : (2 : Nat) ^ 64 - 2 ^ k = 2 ^ k * (2 ^ (64 - k) - 1) := by
    rw [Nat.mul_sub, ← pow_add]; congr 2 <;> omega
  rw [Nat.testBit_land, h1, Nat.mul_comm _ (2 ^ k), Nat.testBit_mul_pow_two,
    Nat.testBit_mul_pow_two, Nat.testBit_two_pow_sub_one, ← Nat.shiftRight_eq_div_pow,
    Nat.testBit_shiftRight, Nat.testBit_mod_two_pow]
  by_cases h3 : k ≤ i
  · have e : k + (i - k) = i := by omega
    by_cases h4 : i < 64
    · have : i - k < 64 - k := by omega
      simp [h3, h4, e, this]
    · have : ¬ (i - k < 64 - k) := by omega
      simp [h3, h4, e, this]
  · simp [h3]

theorem land_mask2 (x : Nat) : x &&& (2 ^ 64 - 2) = x % 2 ^ 64 / 2 * 2 := by
  have h := land_hi_mask 1 x (by omega)
  simpa using h

theorem land_mask8 (x : Nat) : x &&& (2 ^ 64 - 8) = x % 2 ^ 64 / 8 * 8 := by
  have h := land_hi_mask 3 x (by omega)
  simpa using h

theorem lor_one_even (n : Nat) (h : n % 2 = 0) : n ||| 1 = n + 1 := by
  apply Nat.eq_of_testBit_eq
  intro i
  rw [Nat.testBit_lor]
  cases i with
  | zero => simp [Nat.testBit_zero]; omega
  | succ j =>
    rw [Nat.testBit_succ, Nat.testBit_succ, Nat.testBit_succ]
    have : (n + 1) / 2 = n / 2 := by omega
    simp [this]


theorem word_lt {a : Nat} (f : Bool) (h2 : a % 8 = 0) (hlt : a < 2 ^ 64) : word a f < 2 ^ 64 := by
  unfold word; cases f <;> simp <;> omega

theorem GET_NEXT_word {m : Nat → Nat} {p a : Nat} {f : Bool} (h : m p = word a f)
    (h2 : a % 8 = 0) (hlt : a < 2 ^ 64) : GET_NEXT m p = a := by
  unfold GET_NEXT; rw [h, land_mask2]; unfold word; cases f <;> simp <;> omega

theorem GET_FREE_word {m : Nat → Nat} {p a : Nat} {f : Bool} (h : m p = word a f)
    (h2 : a % 8 = 0) : GET_FREE m p = f.toNat := by
  unfold GET_FREE; rw [h, Nat.and_one_is_mod]; unfold word; cases f <;> simp <;> omega

theorem SET_FREE_word {m : Nat → Nat} {p a : Nat} {f : Bool} (g : Bool) (h : m p = word a f)
    (h2 : a % 8 = 0) (hlt : a < 2 ^ 64) : SET_FREE m p g = store m p (word a g) := by
  unfold SET_FREE; rw [GET_NEXT_word h h2 hlt]
  cases g
  · simp [word]
  · simp [word]; rw [lor_one_even a (by omega)]

theorem SET_NEXT_word {m : Nat → Nat} {p a n : Nat} {f : Bool} (h : m p = word a f)
    (h2 : a % 8 = 0) (hn : n % 8 = 0) (hlt : n < 2 ^ 64) :
    SET_NEXT m p n = store m p (word n f) := by
  unfold SET_NEXT
  have e1 : m p &&& 1 = f.toNat := GET_FREE_word h h2
  have e2 : n &&& (2 ^ 64 - 2) = n := by rw [land_mask2]; omega
  simp only [e1, e2]
  cases f
  · simp [word]
  · simp [word]; rw [lor_one_even n (by omega)]

theorem SIZE_word {m : Nat → Nat} {p a : Nat} {f : Bool} (h : m p = word a f)
    (h2 : a % 8 = 0) (hlt : a < 2 ^ 64) (hle : p + 8 ≤ a) : SIZE m p = a - (p + 8) := by
  unfold SIZE HEADER; rw [GET_NEXT_word h h2 hlt]; omega

@[simp] theorem store_same (m : Nat → Nat) (p v : Nat) : store m p v p = v := by
  simp [store]

theorem store_other (m : Nat → Nat) {p q : Nat} (v : Nat) (h : q ≠ p) :
    store m p v q = m q := by
  simp [store, h]

theorem store_store (m : Nat → Nat) (p v w : Nat) :
    store (store m p v) p w = store m p w := by
  funext a; unfold store; split <;> rfl

theorem store_id {m : Nat → Nat} {p v : Nat} (h : m p = v) : store m p v = m := by
  funext a; unfold store; split
  · next e => rw [e, h]
  · rfl

theorem alignedSize_eq (size : Nat) (h : size + 7 < 2 ^ 64) :
    alignedSize size = max ((size + 7) / 8 * 8) 8 := by
  unfold alignedSize MIN_SIZE; simp only [land_mask8]
  split <;> omega

theorem alignedSize_props (size : Nat) :
    alignedSize size % 8 = 0 ∧ 8 ≤ alignedSize size ∧ alignedSize size < 2 ^ 64 := by
  unfold alignedSize MIN_SIZE; simp only [land_mask8]
  split <;> omega

theorem aligned_memory_start_eq (ms : Nat) (h : ms + 7 < 2 ^ 64) :
    aligned_memory_start ms = (ms + 7) / 8 * 8 := by
  unfold aligned_memory_start; rw [land_mask8]; omega

theorem aligned_memory_end_eq (me : Nat) :
    aligned_memory_end me = me % 2 ^ 64 / 8 * 8 := by
  unfold aligned_memory_end; rw [land_mask8]


/-! ## Neighbour relations on lists -/

theorem headD_append {α : Type} (X Y : List α) (t : α) :
    (X ++ Y).headD t = X.headD (Y.headD t) := by
  cases X <;> rfl

theorem Adj_append {α : Type} {P : α → α → Prop} (X Y : List α) (t : α) :
    Adj P (X ++ Y) t ↔ Adj P X (Y.headD t) ∧ Adj P Y t := by
  induction X with
  | nil => simp [Adj]
  | cons b rest ih =>
    show P b ((rest ++ Y).headD t) ∧ Adj P (rest ++ Y) t ↔ _
    rw [ih, headD_append]
    simp only [Adj, and_assoc]

theorem Adj_mono {α : Type} {P Q : α → α → Prop} (h : ∀ b n, P b n → Q b n) :
    ∀ (X : List α) (t : α), Adj P X t → Adj Q X t
  | [], _, _ => trivial
  | _ :: rest, t, hp => ⟨h _ _ hp.1, Adj_mono h rest t hp.2⟩

theorem Adj_mono_mem {α : Type} {P Q : α → α → Prop} :
    ∀ (X : List α) (t : α), (∀ b ∈ X, ∀ n, P b n → Q b n) → Adj P X t → Adj Q X t
  | [], _, _, _ => trivial
  | b :: rest, t, h, hp =>
    ⟨h b (List.mem_cons_self _ _) _ hp.1,
      Adj_mono_mem rest t (fun c hc => h c (List.mem_cons_of_mem _ hc)) hp.2⟩

theorem Adj_and {α : Type} {P Q : α → α → Prop} :
    ∀ (X : List α) (t : α), Adj P X t → Adj Q X t → Adj (fun b n => P b n ∧ Q b n) X t
  | [], _, _, _ => trivial
  | _ :: rest, t, hp, hq => ⟨⟨hp.1, hq.1⟩, Adj_and rest t hp.2 hq.2⟩

theorem Adj_forall {α : Type} {P : α → α → Prop} {R : α → Prop} (h : ∀ b n, P b n → R b) :
    ∀ (X : List α) (t : α), Adj P X t → ∀ b ∈ X, R b
  | [], _, _, b, hb => by cases hb
  | c :: rest, t, hp, b, hb => by
    rcases List.mem_cons.1 hb with e | hm
    · subst e; exact h _ _ hp.1
    · exact Adj_forall h rest t hp.2 b hm

theorem Adj_map {α β : Type} {P : β → β → Prop} (f : α → β) :
    ∀ (X : List α) (t : α), Adj (fun b n => P (f b) (f n)) X t → Adj P (X.map f) (f t)
  | [], _, _ => trivial
  | b :: rest, t, hp => by
    refine ⟨?_, Adj_map f rest t hp.2⟩
    have := hp.1
    cases rest <;> simpa using this

/-- Decomposition of a neighbour relation at an inner element. -/
theorem Adj_split {α : Type} {P : α → α → Prop} (X Y : List α) (b t : α) :
    Adj P (X ++ b :: Y) t ↔ Adj P X b ∧ P b (Y.headD t) ∧ Adj P Y t := by
  rw [Adj_append]; simp [Adj]

/-! ## Geometry of a block list -/

theorem geo_bounds : ∀ (X : List (Nat × Bool)) (t : Nat × Bool), Adj GeoP X t →
    ∀ b ∈ X, (X.headD t).1 ≤ b.1 ∧ b.1 + 16 ≤ t.1
  | [], _, _, b, hb => by cases hb
  | c :: rest, t, hp, b, hb => by
    have hc := hp.1
    unfold GeoP at hc
    rcases List.mem_cons.1 hb with e | hm
    · subst e
      refine ⟨Nat.le_refl _, ?_⟩
      cases rest with
      | nil => exact hc.2.1
      | cons d rest2 =>
        have := (geo_bounds (d :: rest2) t hp.2 d (List.mem_cons_self _ _)).2
        simp at hc; omega
    · have := geo_bounds rest t hp.2 b hm
      refine ⟨?_, this.2⟩
      have h1 : (rest.headD t).1 ≤ b.1 := this.1
      simp only [List.headD_cons]; omega

theorem geo_head_le : ∀ (X : List (Nat × Bool)) (t : Nat × Bool), Adj GeoP X t →
    (X.headD t).1 ≤ t.1
  | [], _, _ => Nat.le_refl _
  | c :: rest, t, hp => by
    have := (geo_bounds (c :: rest) t hp c (List.mem_cons_self _ _)).2
    simp only [List.headD_cons]; omega

/-- In `X ++ b :: Y` every block of `X` lies strictly below `b` and every block
of `Y` strictly above. -/
theorem geo_sep (X Y : List (Nat × Bool)) (b t : Nat × Bool)
    (h : Adj GeoP (X ++ b :: Y) t) :
    (∀ x ∈ X, x.1 + 16 ≤ b.1) ∧ (∀ y ∈ Y, b.1 + 16 ≤ y.1) ∧ b.1 + 16 ≤ t.1 ∧
      b.1 + 16 ≤ (Y.headD t).1 := by
  rw [Adj_split] at h
  obtain ⟨h1, h2, h3⟩ := h
  have hb : b.1 + 16 ≤ (Y.headD t).1 := h2.2.1
  refine ⟨fun x hx => (geo_bounds X b h1 x hx).2, fun y hy => ?_, ?_, hb⟩
  · have := (geo_bounds Y t h3 y hy).1; omega
  · have := geo_head_le Y t h3; omega

/-! ## The ring in memory -/

theorem Adj_getD {α : Type} {P : α → α → Prop} :
    ∀ (X : List α) (t : α), Adj P X t → ∀ i, i < X.length → P (X.getD i t) (X.getD (i + 1) t)
  | [], _, _, i, hi => by simp at hi
  | b :: rest, t, hp, i, hi => by
    cases i with
    | zero =>
      have := hp.1
      cases rest <;> simpa using this
    | succ j =>
      have := Adj_getD rest t hp.2 j (by simpa using hi)
      simpa using this

theorem decode_block {m : Nat → Nat} {b n : Nat × Bool} (hl : LinkP m b n) (hg : GeoP b n) :
    GET_NEXT m b.1 = n.1 ∧ GET_FREE m b.1 = b.2.toNat ∧ SIZE m b.1 = n.1 - (b.1 + 8) := by
  unfold LinkP at hl; unfold GeoP at hg
  exact ⟨GET_NEXT_word hl hg.2.2.1 hg.2.2.2, GET_FREE_word hl hg.2.2.1,
    SIZE_word hl hg.2.2.1 hg.2.2.2 (by omega)⟩

theorem ring_length (B : List (Nat × Bool)) (L : Nat) : (ringOf B L).length = B.length + 1 := by
  simp [ringOf]

theorem ring_path {A L : Nat} {m : Nat → Nat} {B : List (Nat × Bool)} (h : WF A L m B) :
    Adj (NextP m) (ringOf B L) A := by
  unfold ringOf
  rw [Adj_append]
  constructor
  · have h1 := Adj_and B (L, false) h.links h.geo
    have h2 : Adj (fun b n => NextP m (Prod.fst b) (Prod.fst n)) B (L, false) :=
      Adj_mono (fun b n hb => (decode_block hb.1 hb.2).1) B _ h1
    exact Adj_map Prod.fst B (L, false) h2
  · refine ⟨?_, trivial⟩
    show GET_NEXT m L = A
    exact GET_NEXT_word h.sent h.hA.1 (by have := h.hL; omega)

theorem ring_head {A L : Nat} {m : Nat → Nat} {B : List (Nat × Bool)} (h : WF A L m B) :
    (ringOf B L).getD 0 A = A := by
  have := h.hd
  unfold ringOf
  cases B with
  | nil => simp at this; have := h.hL; omega
  | cons b rest => simpa using this

theorem ring_next {A L : Nat} {m : Nat → Nat} {B : List (Nat × Bool)} (h : WF A L m B)
    (i : Nat) (hi : i < B.length + 1) :
    GET_NEXT m ((ringOf B L).getD i A) = (ringOf B L).getD ((i + 1) % (B.length + 1)) A := by
  have h1 := Adj_getD (ringOf B L) A (ring_path h) i (by rw [ring_length]; exact hi)
  unfold NextP at h1
  rw [h1]
  by_cases hlt : i + 1 < B.length + 1
  · rw [Nat.mod_eq_of_lt hlt]
  · have e : i + 1 = B.length + 1 := by omega
    rw [e, Nat.mod_self, ring_head h]
    rw [List.getD_eq_default]
    rw [ring_length]

theorem nth_succ_right (m : Nat → Nat) : ∀ (k p : Nat), nth m (k + 1) p = GET_NEXT m (nth m k p)
  | 0, _ => rfl
  | k + 1, p => by
    show nth m (k + 1) (GET_NEXT m p) = GET_NEXT m (nth m k (GET_NEXT m p))
    exact nth_succ_right m k (GET_NEXT m p)

theorem nth_ring {A L : Nat} {m : Nat → Nat} {B : List (Nat × Bool)} (h : WF A L m B)
    (i : Nat) (hi : i < B.length + 1) :
    ∀ j, nth m j ((ringOf B L).getD i A) = (ringOf B L).getD ((i + j) % (B.length + 1)) A
  | 0 => by simp [nth, Nat.mod_eq_of_lt hi]
  | j + 1 => by
    rw [nth_succ_right, nth_ring h i hi j, ring_next h _ (Nat.mod_lt _ (Nat.succ_pos _))]
    congr 1
    rw [Nat.mod_add_mod]; rfl

theorem ring_sorted : ∀ (B : List (Nat × Bool)) (L : Nat), Adj GeoP B (L, false) →
    (ringOf B L).Pairwise (fun x y => x < y)
  | [], L, _ => by simp [ringOf]
  | b :: rest, L, hp => by
    have ih := ring_sorted rest L hp.2
    unfold ringOf at ih ⊢
    simp only [List.map_cons, List.cons_append, List.pairwise_cons]
    refine ⟨?_, ih⟩
    intro y hy
    rcases List.mem_append.1 hy with h1 | h1
    · obtain ⟨c, hc, rfl⟩ := List.mem_map.1 h1
      have := (geo_sep [] rest b (L, false) hp).2.1 c hc
      omega
    · have e : y = L := by simpa using h1
      have := (geo_sep [] rest b (L, false) hp).2.2.1
      simp at this; omega

theorem ring_nodup {A L : Nat} {m : Nat → Nat} {B : List (Nat × Bool)} (h : WF A L m B) :
    (ringOf B L).Nodup :=
  (ring_sorted B L h.geo).imp (fun h => Nat.ne_of_lt h)

theorem ring_getD_inj {A L : Nat} {m : Nat → Nat} {B : List (Nat × Bool)} (h : WF A L m B)
    {i j : Nat} (hi : i < B.length + 1) (hj : j < B.length + 1)
    (e : (ringOf B L).getD i A = (ringOf B L).getD j A) : i = j := by
  have hi2 : i < (ringOf B L).length := by rw [ring_length]; exact hi
  have hj2 : j < (ringOf B L).length := by rw [ring_length]; exact hj
  rw [List.getD_eq_getElem _ _ hi2, List.getD_eq_getElem _ _ hj2] at e
  exact (List.Nodup.getElem_inj_iff (ring_nodup h)).1 e

theorem ring_mem_getD (A : Nat) {L : Nat} {B : List (Nat × Bool)} {x : Nat}
    (hx : x ∈ ringOf B L) : ∃ i, i < B.length + 1 ∧ (ringOf B L).getD i A = x := by
  obtain ⟨i, hi, e⟩ := List.getElem_of_mem hx
  refine ⟨i, by rw [ring_length] at hi; exact hi, ?_⟩
  rw [List.getD_eq_getElem _ _ hi, e]

theorem ring_getD_mem (A L : Nat) {B : List (Nat × Bool)} {i : Nat}
    (hi : i < B.length + 1) : (ringOf B L).getD i A ∈ ringOf B L := by
  have hi2 : i < (ringOf B L).length := by rw [ring_length]; exact hi
  rw [List.getD_eq_getElem _ _ hi2]
  exact List.getElem_mem _

/-! ## The search loop of `simple_malloc` -/


theorem coalesceLoop_quiet {m : Nat → Nat} {p : Nat} (fuel : Nat)
    (h : GET_FREE m (GET_NEXT m p) = 0) : coalesceLoop (fuel + 1) m p = some m := by
  simp [coalesceLoop, h]

theorem searchLoop_step {m : Nat → Nat} {a start p : Nat} (fuel : Nat) (hf : 1 ≤ fuel)
    (hp : Passes m a p) :
    searchLoop a start (fuel + 1) m p =
      if GET_NEXT m p ≠ start then searchLoop a start fuel m (GET_NEXT m p)
      else some (0, m, GET_NEXT m p) := by
  obtain ⟨hfit, hq⟩ := hp
  obtain ⟨f, rfl⟩ : ∃ f, fuel = f + 1 := ⟨fuel - 1, by omega⟩
  by_cases hfree : GET_FREE m p ≠ 0
  · have hs : ¬ a ≤ SIZE m p := fun h => hfit ⟨hfree, h⟩
    rw [searchLoop]
    simp only [hfree, coalesceLoop_quiet f (hq hfree), ge_iff_le, hs]
    simp
  · rw [searchLoop]
    simp only [hfree]
    simp

theorem searchLoop_advance {m : Nat → Nat} {a start : Nat} (fuel : Nat) (hf : 1 ≤ fuel) :
    ∀ (k p : Nat), (∀ j, j < k → Passes m a (nth m j p)) →
      (∀ j, j < k → nth m (j + 1) p ≠ start) →
      searchLoop a start (fuel + k) m p = searchLoop a start fuel m (nth m k p)
  | 0, _, _, _ => rfl
  | k + 1, p, hp, hs => by
    have h0 : GET_NEXT m p ≠ start := hs 0 (Nat.succ_pos _)
    have hp0 : Passes m a p := hp 0 (Nat.succ_pos _)
    rw [← Nat.add_assoc, searchLoop_step (fuel + k) (by omega) hp0]
    simp only [h0, ne_eq, not_false_eq_true, if_true]
    exact searchLoop_advance fuel hf k (GET_NEXT m p)
      (fun j hj => hp (j + 1) (by omega)) (fun j hj => hs (j + 1) (by omega))

/-- A full unsuccessful turn round a ring of `n` headers. -/
theorem searchLoop_fail {m : Nat → Nat} {a start : Nat} (n fuel : Nat) (hn : 0 < n)
    (hf : n + 1 ≤ fuel) (hp : ∀ j, j < n → Passes m a (nth m j start))
    (hs : ∀ j, 0 < j → j < n → nth m j start ≠ start) (hc : nth m n start = start) :
    searchLoop a start fuel m start = some (0, m, start) := by
  obtain ⟨k, rfl⟩ : ∃ k, n = k + 1 := ⟨n - 1, by omega⟩
  obtain ⟨f, rfl⟩ : ∃ f, fuel = (f + 1 + 1) + k := ⟨fuel - k - 2, by omega⟩
  rw [searchLoop_advance (f + 1 + 1) (by omega) k start (fun j hj => hp j (by omega))
    (fun j hj => hs (j + 1) (by omega) (by omega))]
  rw [searchLoop_step (f + 1) (by omega) (hp k (by omega))]
  rw [← nth_succ_right, hc]
  simp

/-- The search stops at the first header that fits. -/
theorem searchLoop_hit {m : Nat → Nat} {a start : Nat} (k fuel : Nat)
    (hf : k + 2 ≤ fuel) (hp : ∀ j, j < k → Passes m a (nth m j start))
    (hs : ∀ j, 0 < j → j ≤ k → nth m j start ≠ start)
    (hfit : Fits m a (nth m k start))
    (hq : GET_FREE m (GET_NEXT m (nth m k start)) = 0) :
    searchLoop a start fuel m start =
      some (if SIZE m (nth m k start) - a < HEADER + MIN_SIZE then
          (user_block (nth m k start), SET_FREE m (nth m k start) false,
            GET_NEXT (SET_FREE m (nth m k start) false) (nth m k start))
        else
          (user_block (nth m k start),
            SET_FREE (SET_NEXT (SET_FREE (store m ((nth m k start + HEADER + a) % 2 ^ 64)
                (GET_NEXT m (nth m k start))) ((nth m k start + HEADER + a) % 2 ^ 64) true)
              (nth m k start) ((nth m k start + HEADER + a) % 2 ^ 64)) (nth m k start) false,
            (nth m k start + HEADER + a) % 2 ^ 64)) := by
  obtain ⟨f, rfl⟩ : ∃ f, fuel = (f + 1 + 1) + k := ⟨fuel - k - 2, by omega⟩
  rw [searchLoop_advance (f + 1 + 1) (by omega) k start hp
    (fun j hj => hs (j + 1) (by omega) (by omega))]
  rw [searchLoop]
  simp only [hfit.1, ne_eq, not_false_eq_true, if_true, coalesceLoop_quiet f hq, ge_iff_le,
    hfit.2]
  split <;> rfl

/-! ## Reading the ring through the abstraction -/

theorem Adj_target {α : Type} {P : α → α → Prop} {t u : α} (h : ∀ b, P b t → P b u) :
    ∀ (X : List α), Adj P X t → Adj P X u
  | [], _ => trivial
  | [_], hp => ⟨h _ hp.1, trivial⟩
  | b :: c :: rest, hp => ⟨hp.1, Adj_target h (c :: rest) hp.2⟩

theorem links_frame {m : Nat → Nat} {X : List (Nat × Bool)} {t : Nat × Bool} (p v : Nat)
    (h : Adj (LinkP m) X t) (hx : ∀ x ∈ X, x.1 ≠ p) : Adj (LinkP (store m p v)) X t :=
  Adj_mono_mem X t (fun b hb n hl => by
    unfold LinkP at hl ⊢; rw [store_other m v (hx b hb)]; exact hl) h

theorem links_target {m : Nat → Nat} {X : List (Nat × Bool)} {t : Nat × Bool} (u : Nat × Bool)
    (h : Adj (LinkP m) X t) (e : u.1 = t.1) : Adj (LinkP m) X u :=
  Adj_target (fun b hb => by unfold LinkP at hb ⊢; rw [e]; exact hb) X h

theorem geo_target {X : List (Nat × Bool)} {t : Nat × Bool} (u : Nat × Bool)
    (h : Adj GeoP X t) (e : u.1 = t.1) : Adj GeoP X u :=
  Adj_target (fun b hb => by unfold GeoP at hb ⊢; rw [e]; exact hb) X h

theorem sent_decode {A L : Nat} {m : Nat → Nat} {B : List (Nat × Bool)} (h : WF A L m B) :
    GET_NEXT m L = A ∧ GET_FREE m L = 0 := by
  have := h.hL
  exact ⟨GET_NEXT_word h.sent h.hA.1 (by omega), by
    rw [GET_FREE_word h.sent h.hA.1]; rfl⟩

/-- Everything the code can read at a block `b` of the ring. -/
theorem block_at {A L : Nat} {m : Nat → Nat} {B X Y : List (Nat × Bool)} {b : Nat × Bool}
    (h : WF A L m B) (e : B = X ++ b :: Y) :
    m b.1 = word (Y.headD (L, false)).1 b.2 ∧
    GET_NEXT m b.1 = (Y.headD (L, false)).1 ∧ GET_FREE m b.1 = b.2.toNat ∧
    SIZE m b.1 = (Y.headD (L, false)).1 - (b.1 + 8) ∧
    GET_FREE m (Y.headD (L, false)).1 = (Y.headD (L, false)).2.toNat ∧
    b.1 % 8 = 0 ∧ b.1 + 16 ≤ (Y.headD (L, false)).1 ∧ (Y.headD (L, false)).1 % 8 = 0 ∧
    (Y.headD (L, false)).1 ≤ L ∧ A ≤ b.1 := by
  have hl := h.links
  have hg := h.geo
  rw [e, Adj_split] at hl hg
  have hd := decode_block hl.2.1 hg.2.1
  have hgb := hg.2.1
  unfold GeoP at hgb
  refine ⟨hl.2.1, hd.1, hd.2.1, hd.2.2, ?_, hgb.1, hgb.2.1, hgb.2.2.1, geo_head_le Y _ hg.2.2, ?_⟩
  · cases Y with
    | nil => exact (sent_decode h).2
    | cons c Y2 =>
      have hl2 := hl.2.2
      have hg2 := hg.2.2
      exact (decode_block hl2.1 hg2.1).2.1
  · have h1 := h.hd
    rw [e] at h1
    have h2 := h.geo
    rw [e] at h2
    have := (geo_bounds _ _ h2 b (by simp)).1
    omega

theorem mem_ring_cases {B : List (Nat × Bool)} {L x : Nat} (hx : x ∈ ringOf B L) :
    x = L ∨ ∃ X Y f, B = X ++ (x, f) :: Y := by
  unfold ringOf at hx
  rcases List.mem_append.1 hx with h1 | h1
  · obtain ⟨c, hc, rfl⟩ := List.mem_map.1 h1
    obtain ⟨X, Y, e⟩ := List.append_of_mem hc
    exact Or.inr ⟨X, Y, c.2, e⟩
  · exact Or.inl (by simpa using h1)

theorem ring_quiet {A L : Nat} {s : Allocator} {B : List (Nat × Bool)} (h : Inv A L s B)
    {x : Nat} (hx : x ∈ ringOf B (L)) (hf : GET_FREE s.mem x ≠ 0) :
    GET_FREE s.mem (GET_NEXT s.mem x) = 0 := by
  rcases mem_ring_cases hx with e | ⟨X, Y, f, e⟩
  · rw [e, (sent_decode h.wf).2] at hf; exact absurd rfl hf
  · have hb := block_at h.wf e
    have hn := h.noadj
    rw [e, Adj_split] at hn
    have hff : f = true := by
      cases f
      · rw [hb.2.2.1] at hf; exact absurd rfl hf
      · rfl
    rw [hb.2.1, hb.2.2.2.2.1, hn.2.1 hff]; rfl

/-- From the cursor the successor links close a simple cycle through all headers. -/
theorem ring_cycle {A L : Nat} {m : Nat → Nat} {B : List (Nat × Bool)} (h : WF A L m B)
    {c : Nat} (hc : c ∈ ringOf B L) :
    nth m (B.length + 1) c = c ∧ (∀ j, 0 < j → j < B.length + 1 → nth m j c ≠ c) ∧
      (∀ j, nth m j c ∈ ringOf B L) ∧
      (∀ x ∈ ringOf B L, ∃ j, j < B.length + 1 ∧ nth m j c = x) := by
  obtain ⟨i, hi, rfl⟩ := ring_mem_getD A hc
  refine ⟨?_, ?_, ?_, ?_⟩
  · rw [nth_ring h i hi, Nat.add_mod_right, Nat.mod_eq_of_lt hi]
  · intro j hj0 hj e
    rw [nth_ring h i hi] at e
    have := ring_getD_inj h (Nat.mod_lt _ (Nat.succ_pos _)) hi e
    by_cases hlt : i + j < B.length + 1
    · rw [Nat.mod_eq_of_lt hlt] at this; omega
    · have e2 : (i + j) % (B.length + 1) = i + j - (B.length + 1) := by
        rw [Nat.mod_eq_sub_mod (by omega)]
        exact Nat.mod_eq_of_lt (by omega)
      omega
  · intro j
    rw [nth_ring h i hi]
    exact ring_getD_mem A L (Nat.mod_lt _ (Nat.succ_pos _))
  · intro x hx
    obtain ⟨k, hk, rfl⟩ := ring_mem_getD A hx
    by_cases hle : i ≤ k
    · refine ⟨k - i, by omega, ?_⟩
      rw [nth_ring h i hi]
      have : i + (k - i) = k := by omega
      rw [this, Nat.mod_eq_of_lt hk]
    · refine ⟨k + (B.length + 1) - i, by omega, ?_⟩
      rw [nth_ring h i hi]
      have : i + (k + (B.length + 1) - i) = k + (B.length + 1) := by omega
      rw [this, Nat.add_mod_right, Nat.mod_eq_of_lt hk]

/-! ## `simple_malloc` on the abstraction -/

theorem alloc_whole_mem {A L : Nat} {m : Nat → Nat} {B X Y : List (Nat × Bool)} {b : Nat}
    (h : WF A L m B) (e : B = X ++ (b, true) :: Y) :
    SET_FREE m b false = store m b (word (Y.headD (L, false)).1 false) ∧
      GET_NEXT (SET_FREE m b false) b = (Y.headD (L, false)).1 := by
  have hb := block_at h e
  have hL := h.hL
  have hlt : (Y.headD (L, false)).1 < 2 ^ 64 := by omega
  have e1 := SET_FREE_word false hb.1 hb.2.2.2.2.2.2.2.1 hlt
  refine ⟨e1, ?_⟩
  rw [e1]
  exact GET_NEXT_word (store_same _ _ _) hb.2.2.2.2.2.2.2.1 hlt

theorem alloc_split_mem {A L : Nat} {m : Nat → Nat} {B X Y : List (Nat × Bool)} {b a : Nat}
    (h : WF A L m B) (e : B = X ++ (b, true) :: Y) (ha : a % 8 = 0)
    (hfit : a + 16 ≤ (Y.headD (L, false)).1 - (b + 8)) :
    (b + HEADER + a) % 2 ^ 64 = b + 8 + a ∧
    SET_FREE (SET_NEXT (SET_FREE (store m (b + 8 + a) (GET_NEXT m b)) (b + 8 + a) true)
      b (b + 8 + a)) b false =
    store (store m (b + 8 + a) (word (Y.headD (L, false)).1 true)) b (word (b + 8 + a) false) := by
  have hb := block_at h e
  have hL := h.hL
  simp only at hb
  have hlt : (Y.headD (L, false)).1 < 2 ^ 64 := by omega
  have hnf : b + 8 + a < 2 ^ 64 := by omega
  have hnf8 : (b + 8 + a) % 8 = 0 := by omega
  refine ⟨by unfold HEADER; omega, ?_⟩
  rw [hb.2.1]
  have e1 : SET_FREE (store m (b + 8 + a) (Y.headD (L, false)).1) (b + 8 + a) true =
      store m (b + 8 + a) (word (Y.headD (L, false)).1 true) := by
    have h0 : store m (b + 8 + a) (Y.headD (L, false)).1 (b + 8 + a) =
        word (Y.headD (L, false)).1 false := by simp [word]
    rw [SET_FREE_word true h0 hb.2.2.2.2.2.2.2.1 hlt, store_store]
  rw [e1]
  have hne : b ≠ b + 8 + a := by omega
  have h1 : store m (b + 8 + a) (word (Y.headD (L, false)).1 true) b =
      word (Y.headD (L, false)).1 true := by
    rw [store_other _ _ hne]; exact hb.1
  rw [SET_NEXT_word h1 hb.2.2.2.2.2.2.2.1 hnf8 hnf]
  have h2 : store (store m (b + 8 + a) (word (Y.headD (L, false)).1 true)) b
      (word (b + 8 + a) true) b = word (b + 8 + a) true := store_same _ _ _
  rw [SET_FREE_word false h2 hnf8 hnf, store_store]

theorem fits_abs {A L : Nat} {m : Nat → Nat} {B : List (Nat × Bool)} (h : WF A L m B)
    {a x : Nat} (hx : x ∈ ringOf B L) (hf : Fits m a x) :
    ∃ X Y, B = X ++ (x, true) :: Y ∧ a ≤ (Y.headD (L, false)).1 - (x + 8) := by
  rcases mem_ring_cases hx with e | ⟨X, Y, f, e⟩
  · have := hf.1
    rw [e, (sent_decode h).2] at this; exact absurd rfl this
  · have hb := block_at h e
    have hff : f = true := by
      cases f
      · have := hf.1
        rw [hb.2.2.1] at this; exact absurd rfl this
      · rfl
    subst hff
    refine ⟨X, Y, e, ?_⟩
    have := hf.2
    rw [hb.2.2.2.1] at this
    exact this

/-- Outcome of the search loop on a well-formed ring. -/
theorem search_spec {A L : Nat} {s : Allocator} {B : List (Nat × Bool)}
    (h : Inv A L s B) (a : Nat) (ha : a % 8 = 0) :
    (∀ j, j < B.length + 1 → ¬ Fits s.mem a (nth s.mem j s.current)) ∧
      (∀ fuel, B.length + 2 ≤ fuel →
        searchLoop a s.current fuel s.mem s.current = some (0, s.mem, s.current)) ∨
    ∃ k X Y b, k < B.length + 1 ∧ b = nth s.mem k s.current ∧ Fits s.mem a b ∧
      (∀ j, j < k → ¬ Fits s.mem a (nth s.mem j s.current)) ∧
      B = X ++ (b, true) :: Y ∧ a ≤ (Y.headD (L, false)).1 - (b + 8) ∧
      ((Y.headD (L, false)).1 - (b + 8) - a < 16 ∧
        (∀ fuel, B.length + 2 ≤ fuel → searchLoop a s.current fuel s.mem s.current =
          some (b + 8, store s.mem b (word (Y.headD (L, false)).1 false),
            (Y.headD (L, false)).1)) ∨
       16 ≤ (Y.headD (L, false)).1 - (b + 8) - a ∧
        (∀ fuel, B.length + 2 ≤ fuel → searchLoop a s.current fuel s.mem s.current =
          some (b + 8, store (store s.mem (b + 8 + a)
              (word (Y.headD (L, false)).1 true)) b (word (b + 8 + a) false),
            b + 8 + a))) := by
  have hcyc := ring_cycle h.wf h.cur
  have hpass : ∀ j, ¬ Fits s.mem a (nth s.mem j s.current) →
      Passes s.mem a (nth s.mem j s.current) :=
    fun j hj => ⟨hj, fun hf => ring_quiet h (hcyc.2.2.1 j) hf⟩
  by_cases hex : ∃ k, k < B.length + 1 ∧ Fits s.mem a (nth s.mem k s.current)
  · right
    have hk := Nat.find_spec hex
    have hmin : ∀ j, j < Nat.find hex → ¬ Fits s.mem a (nth s.mem j s.current) :=
      fun j hj hf => Nat.find_min hex hj ⟨by omega, hf⟩
    generalize Nat.find hex = k at hk hmin
    obtain ⟨X, Y, e, hsz⟩ := fits_abs h.wf (hcyc.2.2.1 k) hk.2
    have hb := block_at h.wf e
    simp only at hb
    have hq : GET_FREE s.mem (GET_NEXT s.mem (nth s.mem k s.current)) = 0 :=
      ring_quiet h (hcyc.2.2.1 k) hk.2.1
    have hL := h.wf.hL
    have hub : user_block (nth s.mem k s.current) = nth s.mem k s.current + 8 := by
      unfold user_block HEADER; omega
    have hhit : ∀ fuel, B.length + 2 ≤ fuel → _ := fun fuel hf =>
      searchLoop_hit (a := a) k fuel (by omega) (fun j hj => hpass j (hmin j hj))
        (fun j h0 hj => hcyc.2.1 j h0 (by omega)) hk.2 hq
    refine ⟨k, X, Y, _, hk.1, rfl, hk.2, hmin, e, hsz, ?_⟩
    by_cases hsmall : (Y.headD (L, false)).1 - (nth s.mem k s.current + 8) - a < 16
    · left
      refine ⟨hsmall, fun fuel hf => ?_⟩
      rw [hhit fuel hf, hb.2.2.2.1, hub]
      have hw := alloc_whole_mem h.wf e
      simp only [HEADER, MIN_SIZE, hsmall, if_true, hw.1]
      rw [← hw.1, hw.2]
    · right
      refine ⟨by omega, fun fuel hf => ?_⟩
      rw [hhit fuel hf, hb.2.2.2.1, hub]
      have hw := alloc_split_mem h.wf e ha (by omega)
      rw [if_neg (by simpa [HEADER, MIN_SIZE] using hsmall), hw.1, hw.2]
  · left
    have hno : ∀ j, j < B.length + 1 → ¬ Fits s.mem a (nth s.mem j s.current) :=
      fun j hj hf => hex ⟨j, hj, hf⟩
    refine ⟨hno, fun fuel hf => ?_⟩
    exact searchLoop_fail (B.length + 1) fuel (Nat.succ_pos _) (by omega)
      (fun j hj => hpass j (hno j hj)) hcyc.2.1 hcyc.1

/-! ## Rewriting a stretch of the ring -/

/-- Replacing the blocks `c :: M` by `c1 :: M1` (same first header) while the
memory outside the stretch is untouched keeps the ring well formed. -/
theorem WF_replace {A L : Nat} {m m1 : Nat → Nat} {X M M1 Y : List (Nat × Bool)}
    {c c1 : Nat × Bool} (h : WF A L m (X ++ c :: (M ++ Y))) (hc : c1.1 = c.1)
    (hfr : ∀ x, x < c.1 ∨ (Y.headD (L, false)).1 ≤ x → m1 x = m x)
    (hl : Adj (LinkP m1) (c1 :: M1) (Y.headD (L, false)))
    (hg : Adj GeoP (c1 :: M1) (Y.headD (L, false))) :
    WF A L m1 (X ++ c1 :: (M1 ++ Y)) := by
  have hlk := h.links
  have hge := h.geo
  rw [← List.cons_append, Adj_append, Adj_append] at hlk hge
  have hY : ∀ y ∈ Y, (Y.headD (L, false)).1 ≤ y.1 := fun y hy =>
    (geo_bounds Y _ hge.2.2 y hy).1
  have hX : ∀ x ∈ X, x.1 < c.1 := fun x hx => by
    have h0 := hge.1
    rw [headD_append] at h0
    have := (geo_bounds X _ h0 x hx).2
    simp at this; omega
  have hYL : (Y.headD (L, false)).1 ≤ L := geo_head_le Y _ hge.2.2
  refine ⟨?_, ?_, ?_, ?_, h.hA, h.hL⟩
  · have := h.hd
    cases X with
    | nil => simp at this ⊢; omega
    | cons x X2 => simpa using this
  · rw [← List.cons_append, Adj_append, Adj_append]
    refine ⟨?_, hl, ?_⟩
    · rw [headD_append]
      have h0 := hlk.1
      rw [headD_append] at h0
      have h1 : Adj (LinkP m1) X ((c :: M).headD (Y.headD (L, false))) :=
        Adj_mono_mem X _ (fun b hb n hn => by
          unfold LinkP at hn ⊢; rw [hfr _ (Or.inl (hX b hb))]; exact hn) h0
      exact links_target _ h1 (by simpa using hc)
    · exact Adj_mono_mem Y _ (fun b hb n hn => by
        unfold LinkP at hn ⊢; rw [hfr _ (Or.inr (hY b hb))]; exact hn) hlk.2.2
  · rw [← List.cons_append, Adj_append, Adj_append]
    refine ⟨?_, hg, hge.2.2⟩
    rw [headD_append]
    have h0 := hge.1
    rw [headD_append] at h0
    exact geo_target _ h0 (by simpa using hc)
  · rw [hfr _ (Or.inr hYL)]; exact h.sent

theorem noadj_target {X : List (Nat × Bool)} {t : Nat × Bool} (u : Nat × Bool)
    (h : Adj NoAdjP X t) (e : t.2 = false → u.2 = false) : Adj NoAdjP X u :=
  Adj_target (fun b hb => by unfold NoAdjP at hb ⊢; exact fun hf => e (hb hf)) X h

theorem mem_ring_append {X Y : List (Nat × Bool)} {L x : Nat} :
    x ∈ ringOf (X ++ Y) L ↔ x ∈ X.map Prod.fst ∨ x ∈ ringOf Y L := by
  unfold ringOf; simp [or_assoc]

theorem headD_mem_ring (Y : List (Nat × Bool)) (L : Nat) :
    (Y.headD (L, false)).1 ∈ ringOf Y L := by
  cases Y <;> simp [ringOf]


theorem GeoP_flag {b n : Nat × Bool} (c : Nat × Bool) (h : GeoP b n) (e : c.1 = b.1) :
    GeoP c n := by
  unfold GeoP at h ⊢; rw [e]; exact h

theorem links_one {m : Nat → Nat} {b : Nat} {f : Bool} {n : Nat × Bool}
    (h : m b = word n.1 f) : Adj (LinkP m) ((b, f) :: []) n :=
  ⟨h, trivial⟩

/-- Taking a whole free block keeps the invariant (lines 117-119). -/
theorem Inv_whole {A L : Nat} {s : Allocator} {X Y : List (Nat × Bool)} {b : Nat}
    (h : Inv A L s (X ++ (b, true) :: Y)) :
    Inv A L
      { mem := store s.mem b (word (Y.headD (L, false)).1 false),
        first := s.first, current := (Y.headD (L, false)).1 }
      (X ++ (b, false) :: Y) := by
  have hb := block_at h.wf rfl
  have hb7 : b + 16 ≤ (Y.headD (L, false)).1 := hb.2.2.2.2.2.2.1
  have hg := h.wf.geo
  rw [Adj_split] at hg
  have hfr : ∀ x, x < b ∨ (Y.headD (L, false)).1 ≤ x →
      store s.mem b (word (Y.headD (L, false)).1 false) x = s.mem x := by
    intro x hx
    have hne : x ≠ b := by omega
    exact store_other _ _ hne
  have hl1 : Adj (LinkP (store s.mem b (word (Y.headD (L, false)).1 false)))
      ((b, false) :: []) (Y.headD (L, false)) := by
    refine ⟨?_, trivial⟩
    show store s.mem b (word (Y.headD (L, false)).1 false) b = _
    exact store_same _ _ _
  have hg1 : Adj GeoP ((b, false) :: []) (Y.headD (L, false)) :=
    ⟨GeoP_flag (b, false) hg.2.1 rfl, trivial⟩
  have hw : WF _ _ (store s.mem b (word (Y.headD (L, false)).1 false))
      (X ++ (b, false) :: ([] ++ Y)) :=
    @WF_replace _ _ s.mem _ X [] [] Y (b, true) (b, false) h.wf rfl hfr hl1 hg1
  refine ⟨hw, ?_, h.first_eq, ?_⟩
  · have hn := h.noadj
    rw [Adj_split] at hn ⊢
    exact ⟨noadj_target _ hn.1 (fun _ => rfl), fun hf => Bool.noConfusion hf, hn.2.2⟩
  · show _ ∈ ringOf _ _
    rw [mem_ring_append]
    right
    unfold ringOf
    rw [List.map_cons, List.cons_append]
    exact List.mem_cons_of_mem _ (headD_mem_ring Y _)

/-- Splitting a free block keeps the invariant (lines 122-131). -/
theorem Inv_split {A L : Nat} {s : Allocator} {X Y : List (Nat × Bool)} {b a : Nat}
    (h : Inv A L s (X ++ (b, true) :: Y)) (ha : a % 8 = 0) (ha8 : 8 ≤ a)
    (hfit : a + 16 ≤ (Y.headD (L, false)).1 - (b + 8)) :
    Inv A L
      { mem := store (store s.mem (b + 8 + a) (word (Y.headD (L, false)).1 true))
          b (word (b + 8 + a) false),
        first := s.first, current := b + 8 + a }
      (X ++ (b, false) :: (b + 8 + a, true) :: Y) := by
  have hb := block_at h.wf rfl
  have hb6 : b % 8 = 0 := hb.2.2.2.2.2.1
  have hb8 : (Y.headD (L, false)).1 % 8 = 0 := hb.2.2.2.2.2.2.2.1
  have hb9 : (Y.headD (L, false)).1 ≤ L := hb.2.2.2.2.2.2.2.2.1
  have hL := h.wf.hL
  have hfr : ∀ x, x < b ∨ (Y.headD (L, false)).1 ≤ x →
      store (store s.mem (b + 8 + a) (word (Y.headD (L, false)).1 true))
        b (word (b + 8 + a) false) x = s.mem x := by
    intro x hx
    have hne : x ≠ b := by omega
    have hne2 : x ≠ b + 8 + a := by omega
    rw [store_other _ _ hne, store_other _ _ hne2]
  have hl1 : Adj (LinkP (store (store s.mem (b + 8 + a)
      (word (Y.headD (L, false)).1 true)) b (word (b + 8 + a) false)))
      ((b, false) :: [(b + 8 + a, true)]) (Y.headD (L, false)) := by
    refine ⟨?_, ?_, trivial⟩
    · show store _ b _ b = _
      exact store_same _ _ _
    · show store (store s.mem (b + 8 + a) _) b _ (b + 8 + a) = _
      have hne : b + 8 + a ≠ b := by omega
      rw [store_other _ _ hne]
      exact store_same _ _ _
  have hg1 : Adj GeoP ((b, false) :: [(b + 8 + a, true)]) (Y.headD (L, false)) := by
    refine ⟨?_, ?_, trivial⟩
    · show b % 8 = 0 ∧ b + 16 ≤ b + 8 + a ∧ (b + 8 + a) % 8 = 0 ∧ b + 8 + a < 2 ^ 64
      omega
    · show (b + 8 + a) % 8 = 0 ∧ b + 8 + a + 16 ≤ (Y.headD (L, false)).1 ∧
        (Y.headD (L, false)).1 % 8 = 0 ∧ (Y.headD (L, false)).1 < 2 ^ 64
      omega
  have hw : WF _ _ (store (store s.mem (b + 8 + a)
      (word (Y.headD (L, false)).1 true)) b (word (b + 8 + a) false))
      (X ++ (b, false) :: ([(b + 8 + a, true)] ++ Y)) :=
    @WF_replace _ _ s.mem _ X [] [(b + 8 + a, true)] Y (b, true) (b, false) h.wf rfl hfr hl1 hg1
  refine ⟨hw, ?_, h.first_eq, ?_⟩
  · have hn := h.noadj
    rw [Adj_split] at hn
    rw [Adj_split]
    refine ⟨noadj_target _ hn.1 (fun _ => rfl), fun hf => Bool.noConfusion hf, ?_, hn.2.2⟩
    exact fun _ => hn.2.1 rfl
  · show _ ∈ ringOf _ _
    rw [mem_ring_append]
    right
    unfold ringOf
    rw [List.map_cons, List.map_cons, List.cons_append, List.cons_append]
    exact List.mem_cons_of_mem _ (List.mem_cons_self _ _)

/-! ## The loops of `simple_free` -/

theorem findLoop_advance {m : Nat → Nat} {first ptr : Nat} (fuel : Nat) :
    ∀ (k p : Nat), (∀ j, j < k → user_block (nth m j p) ≠ ptr) →
      (∀ j, j < k → nth m (j + 1) p ≠ first) →
      findLoop m first ptr (fuel + k) p = findLoop m first ptr fuel (nth m k p)
  | 0, _, _, _ => rfl
  | k + 1, p, hp, hs => by
    have h0 : GET_NEXT m p ≠ first := hs 0 (Nat.succ_pos _)
    have hp0 : user_block p ≠ ptr := hp 0 (Nat.succ_pos _)
    rw [← Nat.add_assoc, findLoop]
    simp only [hp0, if_false, h0, ne_eq, not_false_eq_true, if_true]
    exact findLoop_advance fuel k (GET_NEXT m p)
      (fun j hj => hp (j + 1) (by omega)) (fun j hj => hs (j + 1) (by omega))

theorem findLoop_found {m : Nat → Nat} {first ptr : Nat} (k fuel : Nat) (hf : k + 1 ≤ fuel)
    (hp : ∀ j, j < k → user_block (nth m j first) ≠ ptr)
    (hs : ∀ j, 0 < j → j ≤ k → nth m j first ≠ first)
    (hk : user_block (nth m k first) = ptr) :
    findLoop m first ptr fuel first = some (nth m k first) := by
  obtain ⟨f, rfl⟩ : ∃ f, fuel = (f + 1) + k := ⟨fuel - k - 1, by omega⟩
  rw [findLoop_advance (f + 1) k first hp (fun j hj => hs (j + 1) (by omega) (by omega))]
  rw [findLoop]
  simp only [hk, if_true]

theorem findLoop_none {m : Nat → Nat} {first ptr : Nat} (n fuel : Nat) (hn : 0 < n)
    (hf : n ≤ fuel) (hp : ∀ j, j < n → user_block (nth m j first) ≠ ptr)
    (hs : ∀ j, 0 < j → j < n → nth m j first ≠ first) (hc : nth m n first = first) :
    findLoop m first ptr fuel first = some 0 := by
  obtain ⟨k, rfl⟩ : ∃ k, n = k + 1 := ⟨n - 1, by omega⟩
  obtain ⟨f, rfl⟩ : ∃ f, fuel = (f + 1) + k := ⟨fuel - k - 1, by omega⟩
  rw [findLoop_advance (f + 1) k first (fun j hj => hp j (by omega))
    (fun j hj => hs (j + 1) (by omega) (by omega))]
  rw [findLoop]
  have h1 : user_block (nth m k first) ≠ ptr := hp k (by omega)
  have h2 : GET_NEXT m (nth m k first) = first := by rw [← nth_succ_right]; exact hc
  simp only [h1, if_false, h2, ne_eq, not_true_eq_false]

theorem findPrev_advance {m : Nat → Nat} {first block : Nat} (fuel : Nat) :
    ∀ (k p : Nat), (∀ j, j < k → GET_NEXT m (nth m j p) ≠ block) →
      (∀ j, j < k → nth m (j + 1) p ≠ first) →
      findPrev m first block (fuel + k) p = findPrev m first block fuel (nth m k p)
  | 0, _, _, _ => rfl
  | k + 1, p, hp, hs => by
    have h0 : GET_NEXT m p ≠ first := hs 0 (Nat.succ_pos _)
    have hp0 : GET_NEXT m p ≠ block := hp 0 (Nat.succ_pos _)
    rw [← Nat.add_assoc, findPrev]
    simp only [hp0, ne_eq, not_false_eq_true, if_true, h0, false_and, if_false]
    exact findPrev_advance fuel k (GET_NEXT m p)
      (fun j hj => hp (j + 1) (by omega)) (fun j hj => hs (j + 1) (by omega))

theorem findPrev_found {m : Nat → Nat} {first block : Nat} (k fuel : Nat) (hf : k + 1 ≤ fuel)
    (hp : ∀ j, j < k → GET_NEXT m (nth m j first) ≠ block)
    (hs : ∀ j, 0 < j → j ≤ k → nth m j first ≠ first)
    (hk : GET_NEXT m (nth m k first) = block) :
    findPrev m first block fuel first = some (nth m k first) := by
  obtain ⟨f, rfl⟩ : ∃ f, fuel = (f + 1) + k := ⟨fuel - k - 1, by omega⟩
  rw [findPrev_advance (f + 1) k first hp (fun j hj => hs (j + 1) (by omega) (by omega))]
  rw [findPrev]
  simp only [hk, ne_eq, not_true_eq_false, if_false]

theorem freeForward_stop {m : Nat → Nat} {b : Nat} (fuel : Nat)
    (h : GET_FREE m (GET_NEXT m b) = 0) : freeForward (fuel + 1) m b = some m := by
  rw [freeForward]; simp only [h, ne_eq, not_true_eq_false, if_false]

theorem freeForward_merge {m : Nat → Nat} {b : Nat} (fuel : Nat)
    (h : GET_FREE m (GET_NEXT m b) ≠ 0) (hne : GET_NEXT m b ≠ b) :
    freeForward (fuel + 1) m b =
      freeForward fuel (SET_NEXT m b (GET_NEXT m (GET_NEXT m b))) b := by
  rw [freeForward]; simp only [h, ne_eq, not_false_eq_true, if_true, hne, if_false]

/-- Positions of the ring counted from the first header. -/
theorem nth_first {A L : Nat} {m : Nat → Nat} {B : List (Nat × Bool)} (h : WF A L m B)
    (j : Nat) (hj : j < B.length + 1) : nth m j A = (ringOf B L).getD j A := by
  have h0 := nth_ring h 0 (Nat.succ_pos _) j
  rw [ring_head h] at h0
  rw [h0, Nat.zero_add, Nat.mod_eq_of_lt hj]

theorem ring_getD_block {L : Nat} (A : Nat) (X Y : List (Nat × Bool)) (b : Nat × Bool) :
    (ringOf (X ++ b :: Y) L).getD X.length A = b.1 := by
  unfold ringOf
  rw [List.map_append, List.append_assoc, List.getD_eq_getElem?_getD,
    List.getElem?_append_right (by simp)]
  simp

theorem ring_getD_last {L : Nat} (A : Nat) (B : List (Nat × Bool)) :
    (ringOf B L).getD B.length A = L := by
  unfold ringOf
  rw [List.getD_eq_getElem?_getD, List.getElem?_append_right (by simp)]
  simp

/-! ## `simple_free` on the abstraction -/

theorem ring_user_block {A L : Nat} {m : Nat → Nat} {B : List (Nat × Bool)} (h : WF A L m B)
    {x : Nat} (hx : x ∈ ringOf B L) : user_block x = x + 8 ∧ A ≤ x ∧ x ≤ L := by
  have hL := h.hL
  have hb : A ≤ x ∧ x ≤ L := by
    rcases mem_ring_cases hx with e | ⟨X, Y, f, e⟩
    · omega
    · have := block_at h e
      have h1 : x + 16 ≤ (Y.headD (L, false)).1 := this.2.2.2.2.2.2.1
      have h2 : (Y.headD (L, false)).1 ≤ L := this.2.2.2.2.2.2.2.2.1
      have h3 : A ≤ x := this.2.2.2.2.2.2.2.2.2
      omega
  refine ⟨?_, hb⟩
  unfold user_block HEADER
  omega

/-- The lookup loop returns the ring header whose payload starts at `ptr`, or `NULL`. -/
theorem findLoop_spec {A L : Nat} {m : Nat → Nat} {B : List (Nat × Bool)} (h : WF A L m B)
    (ptr : Nat) :
    ((∀ x ∈ ringOf B L, x + 8 ≠ ptr) ∧
      ∀ fuel, B.length + 1 ≤ fuel → findLoop m A ptr fuel A = some 0) ∨
    ∃ x ∈ ringOf B L, x + 8 = ptr ∧
      ∀ fuel, B.length + 1 ≤ fuel → findLoop m A ptr fuel A = some x := by
  have hA : A ∈ ringOf B L := by
    have := ring_getD_mem A L (B := B) (i := 0) (Nat.succ_pos _)
    rw [ring_head h] at this; exact this
  have hcyc := ring_cycle h hA
  have hub : ∀ j, user_block (nth m j A) = nth m j A + 8 :=
    fun j => (ring_user_block h (hcyc.2.2.1 j)).1
  by_cases hex : ∃ k, k < B.length + 1 ∧ nth m k A + 8 = ptr
  · right
    have hk := Nat.find_spec hex
    have hmin : ∀ j, j < Nat.find hex → nth m j A + 8 ≠ ptr :=
      fun j hj hf => Nat.find_min hex hj ⟨by omega, hf⟩
    generalize Nat.find hex = k at hk hmin
    refine ⟨nth m k A, hcyc.2.2.1 k, hk.2, fun fuel hf => ?_⟩
    exact findLoop_found k fuel (by omega) (fun j hj => by rw [hub]; exact hmin j hj)
      (fun j h0 hj => hcyc.2.1 j h0 (by omega)) (by rw [hub]; exact hk.2)
  · left
    have hno : ∀ j, j < B.length + 1 → nth m j A + 8 ≠ ptr := fun j hj hf => hex ⟨j, hj, hf⟩
    refine ⟨fun x hx e => ?_, fun fuel hf => ?_⟩
    · obtain ⟨j, hj, rfl⟩ := hcyc.2.2.2 x hx
      exact hno j hj e
    · exact findLoop_none (B.length + 1) fuel (Nat.succ_pos _) hf
        (fun j hj => by rw [hub]; exact hno j hj) hcyc.2.1 hcyc.1

/-- The predecessor scan stops at the header in front of ring position `i`. -/
theorem findPrev_spec {A L : Nat} {m : Nat → Nat} {B : List (Nat × Bool)} (h : WF A L m B)
    (i k : Nat) (hk : k < B.length + 1) (hik : (k + 1) % (B.length + 1) = i) :
    ∀ fuel, B.length + 1 ≤ fuel →
      findPrev m A ((ringOf B L).getD i A) fuel A = some ((ringOf B L).getD k A) := by
  intro fuel hf
  have hi : i < B.length + 1 := by rw [← hik]; exact Nat.mod_lt _ (Nat.succ_pos _)
  have hnext : ∀ j, j < B.length + 1 →
      GET_NEXT m (nth m j A) = (ringOf B L).getD ((j + 1) % (B.length + 1)) A := by
    intro j hj
    rw [nth_first h j hj, ring_next h j hj]
  have hcase : k + 1 = i ∨ (k + 1 = B.length + 1 ∧ i = 0) := by
    by_cases hlt : k + 1 < B.length + 1
    · left; rw [Nat.mod_eq_of_lt hlt] at hik; exact hik
    · right
      have e : k + 1 = B.length + 1 := by omega
      rw [e, Nat.mod_self] at hik
      exact ⟨e, hik.symm⟩
  rw [← nth_first h k hk]
  refine findPrev_found k fuel (by omega) (fun j hj e => ?_) (fun j h0 hj e => ?_) ?_
  · rw [hnext j (by omega), Nat.mod_eq_of_lt (by omega)] at e
    have := ring_getD_inj h (by omega) hi e
    omega
  · rw [nth_first h j (by omega)] at e
    have e2 : (ringOf B L).getD j A = (ringOf B L).getD 0 A := by rw [e, ring_head h]
    have := ring_getD_inj h (by omega) (Nat.succ_pos _) e2
    omega
  · rw [hnext k hk, hik]

theorem dropFree_cases (Y : List (Nat × Bool)) :
    (dropFree Y = Y ∧ (Y.headD (0, false)).2 = false ∧ (Y = [] ∨ ∃ y Y2, Y = (y, false) :: Y2)) ∨
      ∃ y Y2, Y = (y, true) :: Y2 ∧ dropFree Y = Y2 := by
  cases Y with
  | nil => left; exact ⟨rfl, rfl, Or.inl rfl⟩
  | cons c Y2 =>
    obtain ⟨y, f⟩ := c
    cases f
    · left; exact ⟨rfl, rfl, Or.inr ⟨y, Y2, rfl⟩⟩
    · right; exact ⟨y, Y2, rfl, rfl⟩

theorem noadj_tail {X Y : List (Nat × Bool)} {b t : Nat × Bool}
    (h : Adj NoAdjP (X ++ b :: Y) t) : Adj NoAdjP Y t := by
  rw [Adj_split] at h; exact h.2.2

/-- Marking a block free without touching its link (line 180). -/
theorem WF_mark {A L : Nat} {m : Nat → Nat} {X Y : List (Nat × Bool)} {b : Nat} (f g : Bool)
    (h : WF A L m (X ++ (b, f) :: Y)) :
    SET_FREE m b g = store m b (word (Y.headD (L, false)).1 g) ∧
      WF A L (store m b (word (Y.headD (L, false)).1 g)) (X ++ (b, g) :: Y) := by
  have hb := block_at h rfl
  have hb1 : m b = word (Y.headD (L, false)).1 f := hb.1
  have hb7 : b + 16 ≤ (Y.headD (L, false)).1 := hb.2.2.2.2.2.2.1
  have hb8 : (Y.headD (L, false)).1 % 8 = 0 := hb.2.2.2.2.2.2.2.1
  have hb9 : (Y.headD (L, false)).1 ≤ L := hb.2.2.2.2.2.2.2.2.1
  have hL := h.hL
  have hg := h.geo
  rw [Adj_split] at hg
  refine ⟨SET_FREE_word g hb1 hb8 (by omega), ?_⟩
  have hfr : ∀ x, x < b ∨ (Y.headD (L, false)).1 ≤ x →
      store m b (word (Y.headD (L, false)).1 g) x = m x := by
    intro x hx
    have hne : x ≠ b := by omega
    exact store_other _ _ hne
  exact @WF_replace _ _ m _ X [] [] Y (b, f) (b, g) h rfl hfr
    (links_one (store_same _ _ _)) ⟨GeoP_flag (b, g) hg.2.1 rfl, trivial⟩

/-- Forward coalescing in `simple_free` absorbs at most one free successor. -/
theorem forward_spec {A L : Nat} {s : Allocator} {X Y : List (Nat × Bool)} {b : Nat}
    (h : Inv A L s (X ++ (b, false) :: Y)) :
    (∀ fuel, 2 ≤ fuel → freeForward fuel (SET_FREE s.mem b true) b =
      some (store s.mem b (word ((dropFree Y).headD (L, false)).1 true))) ∧
    WF A L (store s.mem b (word ((dropFree Y).headD (L, false)).1 true))
      (X ++ (b, true) :: dropFree Y) ∧
    ((dropFree Y).headD (L, false)).2 = false ∧ Adj NoAdjP (dropFree Y) (L, false) := by
  have hm := WF_mark false true h.wf
  have hL := h.wf.hL
  have hnY : Adj NoAdjP Y (L, false) := noadj_tail h.noadj
  rw [hm.1]
  have hb1 := block_at hm.2 rfl
  have hn1 : GET_NEXT (store s.mem b (word (Y.headD (L, false)).1 true)) b =
      (Y.headD (L, false)).1 := hb1.2.1
  have hf1 : GET_FREE (store s.mem b (word (Y.headD (L, false)).1 true))
      (Y.headD (L, false)).1 = (Y.headD (L, false)).2.toNat := hb1.2.2.2.2.1
  rcases dropFree_cases Y with ⟨e, -, hY⟩ | ⟨y, Y2, eY, e⟩
  · have hflag : (Y.headD (L, false)).2 = false := by
      rcases hY with e1 | ⟨y, Y2, e1⟩ <;> rw [e1] <;> rfl
    rw [e]
    refine ⟨fun fuel hf => ?_, hm.2, hflag, hnY⟩
    obtain ⟨f, rfl⟩ : ∃ f, fuel = f + 1 := ⟨fuel - 1, by omega⟩
    apply freeForward_stop
    rw [hn1, hf1, hflag]; rfl
  · subst eY
    rw [e]
    show (∀ fuel, 2 ≤ fuel → freeForward fuel (store s.mem b (word y true)) b =
      some (store s.mem b (word (Y2.headD (L, false)).1 true))) ∧ _
    have hb7 : b + 16 ≤ y := hb1.2.2.2.2.2.2.1
    have hy := block_at (X := X ++ [(b, true)]) (b := (y, true)) (Y := Y2) hm.2 (by simp)
    have hy2 : GET_NEXT (store s.mem b (word y true)) y = (Y2.headD (L, false)).1 := hy.2.1
    have hy7 : y + 16 ≤ (Y2.headD (L, false)).1 := hy.2.2.2.2.2.2.1
    have hy8 : (Y2.headD (L, false)).1 % 8 = 0 := hy.2.2.2.2.2.2.2.1
    have hy9 : (Y2.headD (L, false)).1 ≤ L := hy.2.2.2.2.2.2.2.2.1
    have hflag : (Y2.headD (L, false)).2 = false := hnY.1 rfl
    have hg := h.wf.geo
    rw [Adj_split] at hg
    have hgb : b % 8 = 0 := hg.2.1.1
    have hfr : ∀ x, x < b ∨ (Y2.headD (L, false)).1 ≤ x →
        store s.mem b (word (Y2.headD (L, false)).1 true) x = s.mem x := by
      intro x hx
      have hne : x ≠ b := by omega
      exact store_other _ _ hne
    have hgeo : GeoP (b, true) (Y2.headD (L, false)) := by
      unfold GeoP
      refine ⟨hgb, ?_, hy8, ?_⟩
      · show b + 16 ≤ (Y2.headD (L, false)).1
        omega
      · omega
    have hw : WF A L (store s.mem b (word (Y2.headD (L, false)).1 true))
        (X ++ (b, true) :: ([] ++ Y2)) :=
      @WF_replace _ _ s.mem _ X [(y, true)] [] Y2 (b, false) (b, true) h.wf rfl hfr
        (links_one (store_same _ _ _)) ⟨hgeo, trivial⟩
    have hb2 := block_at hw rfl
    have hn2 : GET_NEXT (store s.mem b (word (Y2.headD (L, false)).1 true)) b =
      (Y2.headD (L, false)).1 := hb2.2.1
    have hf2 : GET_FREE (store s.mem b (word (Y2.headD (L, false)).1 true))
      (Y2.headD (L, false)).1 = (Y2.headD (L, false)).2.toNat := hb2.2.2.2.2.1
    refine ⟨fun fuel hf => ?_, hw, hflag, hnY.2⟩
    obtain ⟨f, rfl⟩ : ∃ f, fuel = f + 1 + 1 := ⟨fuel - 2, by omega⟩
    have hn1y : GET_NEXT (store s.mem b (word y true)) b = y := hn1
    have hf1y : GET_FREE (store s.mem b (word y true)) y = 1 := hf1
    rw [freeForward_merge (f + 1) (by rw [hn1y, hf1y]; exact Nat.one_ne_zero)
      (by rw [hn1y]; omega)]
    rw [hn1y, hy2]
    have hset : SET_NEXT (store s.mem b (word y true)) b (Y2.headD (L, false)).1 =
        store s.mem b (word (Y2.headD (L, false)).1 true) := by
      rw [SET_NEXT_word (store_same _ _ _) (by omega) hy8 (by omega), store_store]
    rw [hset]
    apply freeForward_stop
    rw [hn2, hf2, hflag]; rfl

/-- Function `simple_free` along its main path, given the results of its loops. -/
theorem simple_free_eq {fuel : Nat} {s : Allocator} {ptr block prev : Nat} {m2 : Nat → Nat}
    (hp : ptr ≠ 0) (hf : s.first ≠ 0)
    (h1 : findLoop s.mem s.first ptr fuel s.first = some block) (hb : block ≠ 0)
    (h2 : GET_FREE s.mem block = 0)
    (h3 : freeForward fuel (SET_FREE s.mem block true) block = some m2)
    (h4 : findPrev m2 s.first block fuel s.first = some prev) :
    simple_free fuel s ptr =
      some (if prev ≠ block ∧ GET_FREE m2 prev ≠ 0 then
          { mem := SET_NEXT m2 prev (GET_NEXT m2 block), first := s.first, current := prev }
        else { mem := m2, first := s.first, current := block }) := by
  unfold simple_free
  simp only [hp, hf, or_self, if_false, h1, hb, h2, ne_eq, not_true_eq_false, h3, h4]
  split <;> rfl

/-- Function `simple_free` when the block found is absent or already free. -/
theorem simple_free_skip {fuel : Nat} {s : Allocator} {ptr block : Nat}
    (h1 : findLoop s.mem s.first ptr fuel s.first = some block)
    (h2 : block = 0 ∨ GET_FREE s.mem block ≠ 0) :
    simple_free fuel s ptr = some s := by
  unfold simple_free
  by_cases h0 : ptr = 0 ∨ s.first = 0
  · simp only [h0, if_true]
  · simp only [h0, if_false, h1]
    rcases h2 with h2 | h2
    · simp only [h2, if_true]
    · by_cases hb : block = 0
      · simp only [hb, if_true]
      · simp only [hb, if_false, h2, ne_eq, not_false_eq_true, if_true]

theorem noadj_snoc_used (X1 : List (Nat × Bool)) (q : Nat) (t u : Nat × Bool)
    (h : Adj NoAdjP (X1 ++ [(q, false)]) t) : Adj NoAdjP (X1 ++ [(q, false)]) u := by
  rw [Adj_append] at h ⊢
  exact ⟨h.1, fun hf => Bool.noConfusion hf, trivial⟩

/-- A release that finds the predecessor in use: the block stays in the ring. -/
theorem Inv_free_keep {A L : Nat} {s : Allocator} {X Y : List (Nat × Bool)} {b : Nat}
    (h : Inv A L s (X ++ (b, false) :: Y)) (hX : X = [] ∨ ∃ X1 q, X = X1 ++ [(q, false)]) :
    Inv A L { mem := store s.mem b (word ((dropFree Y).headD (L, false)).1 true),
              first := s.first, current := b } (X ++ (b, true) :: dropFree Y) := by
  have hfw := forward_spec h
  refine ⟨hfw.2.1, ?_, h.first_eq, ?_⟩
  · have hn := h.noadj
    rw [Adj_split] at hn
    rw [Adj_split]
    refine ⟨?_, fun _ => hfw.2.2.1, hfw.2.2.2⟩
    rcases hX with e | ⟨X1, q, e⟩
    · rw [e]; trivial
    · rw [e] at hn ⊢
      exact noadj_snoc_used X1 q _ _ hn.1
  · show b ∈ ringOf _ _
    rw [mem_ring_append]
    right
    unfold ringOf
    rw [List.map_cons, List.cons_append]
    exact List.mem_cons_self _ _

/-- A release that finds a free predecessor: the block is spliced out. -/
theorem Inv_free_merge {A L : Nat} {s : Allocator} {X1 Y : List (Nat × Bool)} {q b : Nat}
    (h : Inv A L s (X1 ++ [(q, true)] ++ (b, false) :: Y)) :
    Inv A L { mem := store (store s.mem b (word ((dropFree Y).headD (L, false)).1 true)) q
                (word ((dropFree Y).headD (L, false)).1 true),
              first := s.first, current := q } (X1 ++ (q, true) :: dropFree Y) := by
  have hfw := forward_spec h
  have hw2 := hfw.2.1
  have e2 : X1 ++ [(q, true)] ++ (b, true) :: dropFree Y =
      X1 ++ (q, true) :: ([(b, true)] ++ dropFree Y) := by simp
  rw [e2] at hw2
  have hq := block_at hw2 rfl
  have hq6 : q % 8 = 0 := hq.2.2.2.2.2.1
  have hq7 : q + 16 ≤ b := hq.2.2.2.2.2.2.1
  have hb := block_at hfw.2.1 rfl
  have hb7 : b + 16 ≤ ((dropFree Y).headD (L, false)).1 := hb.2.2.2.2.2.2.1
  have hb8 : ((dropFree Y).headD (L, false)).1 % 8 = 0 := hb.2.2.2.2.2.2.2.1
  have hb9 : ((dropFree Y).headD (L, false)).1 ≤ L := hb.2.2.2.2.2.2.2.2.1
  have hL := h.wf.hL
  have hfr : ∀ x, x < q ∨ ((dropFree Y).headD (L, false)).1 ≤ x →
      store (store s.mem b (word ((dropFree Y).headD (L, false)).1 true)) q
        (word ((dropFree Y).headD (L, false)).1 true) x =
      store s.mem b (word ((dropFree Y).headD (L, false)).1 true) x := by
    intro x hx
    have hne : x ≠ q := by omega
    exact store_other _ _ hne
  have hgeo : GeoP (q, true) ((dropFree Y).headD (L, false)) := by
    unfold GeoP
    refine ⟨hq6, ?_, hb8, ?_⟩
    · show q + 16 ≤ ((dropFree Y).headD (L, false)).1
      omega
    · omega
  have hw : WF A L _ (X1 ++ (q, true) :: ([] ++ dropFree Y)) :=
    @WF_replace _ _ _ _ X1 [(b, true)] [] (dropFree Y) (q, true) (q, true) hw2 rfl hfr
      (links_one (store_same _ _ _)) ⟨hgeo, trivial⟩
  refine ⟨hw, ?_, h.first_eq, ?_⟩
  · have hn := h.noadj
    rw [List.append_assoc, Adj_append] at hn
    rw [Adj_split]
    exact ⟨hn.1, fun _ => hfw.2.2.1, hfw.2.2.2⟩
  · show q ∈ ringOf _ _
    rw [mem_ring_append]
    right
    unfold ringOf
    rw [List.map_cons, List.cons_append]
    exact List.mem_cons_self _ _

theorem mem_ring_block {L : Nat} (X Y : List (Nat × Bool)) (b : Nat × Bool) :
    b.1 ∈ ringOf (X ++ b :: Y) L := by
  rw [mem_ring_append]
  right
  unfold ringOf
  rw [List.map_cons, List.cons_append]
  exact List.mem_cons_self _ _

/-- The lookup of `simple_free` finds the block whose payload is released. -/
theorem find_block {A L : Nat} {m : Nat → Nat} {X Y : List (Nat × Bool)} {b : Nat × Bool}
    (h : WF A L m (X ++ b :: Y)) (fuel : Nat) (hf : (X ++ b :: Y).length + 1 ≤ fuel) :
    findLoop m A (b.1 + 8) fuel A = some b.1 := by
  rcases findLoop_spec h (b.1 + 8) with ⟨hno, -⟩ | ⟨x, -, hx, hrun⟩
  · exact absurd rfl (hno b.1 (mem_ring_block X Y b))
  · have e : x = b.1 := by omega
    have := hrun fuel hf
    rw [e] at this; exact this

theorem free_loops {A L : Nat} {s : Allocator} {X Y : List (Nat × Bool)} {b : Nat}
    (h : Inv A L s (X ++ (b, false) :: Y)) (fuel : Nat)
    (hf : (X ++ (b, false) :: Y).length + 2 ≤ fuel) :
    b + 8 ≠ 0 ∧ s.first ≠ 0 ∧ findLoop s.mem s.first (b + 8) fuel s.first = some b ∧ b ≠ 0 ∧
      GET_FREE s.mem b = 0 ∧
      freeForward fuel (SET_FREE s.mem b true) b =
        some (store s.mem b (word ((dropFree Y).headD (L, false)).1 true)) := by
  have hA := h.wf.hA
  have hb := block_at h.wf rfl
  have hbA : A ≤ b := hb.2.2.2.2.2.2.2.2.2
  have hfl : GET_FREE s.mem b = 0 := hb.2.2.1
  refine ⟨by omega, by rw [h.first_eq]; omega, ?_, by omega, hfl,
    (forward_spec h).1 fuel (by omega)⟩
  rw [h.first_eq]
  exact find_block h.wf fuel (by omega)

theorem length_dropFree_le (Y : List (Nat × Bool)) : (dropFree Y).length ≤ Y.length := by
  rcases dropFree_cases Y with ⟨e, -, -⟩ | ⟨y, Y2, eY, e⟩
  · rw [e]
  · rw [e, eY]; simp

/-- Function `simple_free` on an in-use block whose predecessor is in use. -/
theorem free_keep_run {A L : Nat} {s : Allocator} {X Y : List (Nat × Bool)} {b : Nat}
    (h : Inv A L s (X ++ (b, false) :: Y)) (hX : X = [] ∨ ∃ X1 q, X = X1 ++ [(q, false)])
    (fuel : Nat) (hf : (X ++ (b, false) :: Y).length + 2 ≤ fuel) :
    simple_free fuel s (b + 8) =
      some { mem := store s.mem b (word ((dropFree Y).headD (L, false)).1 true),
             first := s.first, current := b } := by
  have hl := free_loops h fuel hf
  have hw := (forward_spec h).2.1
  have hlen := length_dropFree_le Y
  have hf2 : (X ++ (b, true) :: dropFree Y).length + 1 ≤ fuel := by
    simp only [List.length_append, List.length_cons] at hf ⊢; omega
  have hblock : (ringOf (X ++ (b, true) :: dropFree Y) L).getD X.length A = b :=
    ring_getD_block A X (dropFree Y) (b, true)
  rcases hX with e | ⟨X1, q, e⟩
  · have hprev := findPrev_spec hw X.length (X ++ (b, true) :: dropFree Y).length
      (Nat.lt_succ_self _) (by rw [Nat.mod_self, e]; rfl) fuel hf2
    rw [hblock, ring_getD_last, ← h.first_eq] at hprev
    rw [simple_free_eq hl.1 hl.2.1 hl.2.2.1 hl.2.2.2.1 hl.2.2.2.2.1 hl.2.2.2.2.2 hprev]
    have hs : GET_FREE (store s.mem b (word ((dropFree Y).headD (L, false)).1 true)) L = 0 :=
      (sent_decode hw).2
    simp only [hs, ne_eq, not_true_eq_false, and_false, if_false]
  · have hlt : X1.length + 1 < (X ++ (b, true) :: dropFree Y).length + 1 := by
      rw [e]; simp only [List.length_append, List.length_cons, List.length_nil]; omega
    have hprev := findPrev_spec hw X.length X1.length (by omega)
      (by rw [Nat.mod_eq_of_lt hlt, e]; simp) fuel hf2
    have e2 : X ++ (b, true) :: dropFree Y = X1 ++ (q, false) :: ((b, true) :: dropFree Y) := by
      rw [e]; simp
    have hq : (ringOf (X ++ (b, true) :: dropFree Y) L).getD X1.length A = q := by
      rw [e2]; exact ring_getD_block A X1 _ (q, false)
    rw [hblock, hq, ← h.first_eq] at hprev
    rw [simple_free_eq hl.1 hl.2.1 hl.2.2.1 hl.2.2.2.1 hl.2.2.2.2.1 hl.2.2.2.2.2 hprev]
    have hw2 := hw
    rw [e2] at hw2
    have hs : GET_FREE (store s.mem b (word ((dropFree Y).headD (L, false)).1 true)) q = 0 :=
      (block_at hw2 rfl).2.2.1
    simp only [hs, ne_eq, not_true_eq_false, and_false, if_false]

/-- Function `simple_free` on an in-use block whose predecessor is free. -/
theorem free_merge_run {A L : Nat} {s : Allocator} {X1 Y : List (Nat × Bool)} {q b : Nat}
    (h : Inv A L s (X1 ++ [(q, true)] ++ (b, false) :: Y))
    (fuel : Nat) (hf : (X1 ++ [(q, true)] ++ (b, false) :: Y).length + 2 ≤ fuel) :
    simple_free fuel s (b + 8) =
      some { mem := store (store s.mem b (word ((dropFree Y).headD (L, false)).1 true)) q
                (word ((dropFree Y).headD (L, false)).1 true),
             first := s.first, current := q } := by
  have hl := free_loops h fuel hf
  have hw := (forward_spec h).2.1
  have hlen := length_dropFree_le Y
  have hf2 : (X1 ++ [(q, true)] ++ (b, true) :: dropFree Y).length + 1 ≤ fuel := by
    simp only [List.length_append, List.length_cons] at hf ⊢; omega
  have hblock : (ringOf (X1 ++ [(q, true)] ++ (b, true) :: dropFree Y) L).getD
      (X1 ++ [(q, true)]).length A = b :=
    ring_getD_block A (X1 ++ [(q, true)]) (dropFree Y) (b, true)
  have hlt : X1.length + 1 < (X1 ++ [(q, true)] ++ (b, true) :: dropFree Y).length + 1 := by
    simp only [List.length_append, List.length_cons, List.length_nil]; omega
  have hprev := findPrev_spec hw (X1 ++ [(q, true)]).length X1.length (by omega)
    (by rw [Nat.mod_eq_of_lt hlt]; simp) fuel hf2
  have e2 : X1 ++ [(q, true)] ++ (b, true) :: dropFree Y =
      X1 ++ (q, true) :: ((b, true) :: dropFree Y) := by simp
  have hq : (ringOf (X1 ++ [(q, true)] ++ (b, true) :: dropFree Y) L).getD X1.length A = q := by
    rw [e2]; exact ring_getD_block A X1 _ (q, true)
  rw [hblock, hq, ← h.first_eq] at hprev
  rw [simple_free_eq hl.1 hl.2.1 hl.2.2.1 hl.2.2.2.1 hl.2.2.2.2.1 hl.2.2.2.2.2 hprev]
  have hw2 := hw
  rw [e2] at hw2
  have hqb := block_at hw2 rfl
  have hs : GET_FREE (store s.mem b (word ((dropFree Y).headD (L, false)).1 true)) q = 1 :=
    hqb.2.2.1
  have hq1 : store s.mem b (word ((dropFree Y).headD (L, false)).1 true) q = word b true :=
    hqb.1
  have hq7 : q + 16 ≤ b := hqb.2.2.2.2.2.2.1
  have hq8 : b % 8 = 0 := hqb.2.2.2.2.2.2.2.1
  have hbb := block_at hw rfl
  have hn : GET_NEXT (store s.mem b (word ((dropFree Y).headD (L, false)).1 true)) b =
      ((dropFree Y).headD (L, false)).1 := hbb.2.1
  have hb8 : ((dropFree Y).headD (L, false)).1 % 8 = 0 := hbb.2.2.2.2.2.2.2.1
  have hb9 : ((dropFree Y).headD (L, false)).1 ≤ L := hbb.2.2.2.2.2.2.2.2.1
  have hL := h.wf.hL
  have hne : q ≠ b := by omega
  simp only [hs, ne_eq, hne, not_false_eq_true, Nat.one_ne_zero, and_self, if_true]
  rw [hn, SET_NEXT_word hq1 hq8 hb8 (by omega)]

/-! ## More fuel never changes a result -/

theorem coalesceLoop_mono : ∀ (fuel : Nat) (m : Nat → Nat) (c : Nat) (r : Nat → Nat),
    coalesceLoop fuel m c = some r → coalesceLoop (fuel + 1) m c = some r
  | 0, _, _, _, h => by simp [coalesceLoop] at h
  | fuel + 1, m, c, r, h => by
    rw [coalesceLoop] at h ⊢
    split
    · next hc => rw [if_pos hc] at h; exact coalesceLoop_mono fuel _ c r h
    · next hc => rw [if_neg hc] at h; exact h

theorem searchLoop_mono (a start : Nat) : ∀ (fuel : Nat) (m : Nat → Nat) (c : Nat)
    (r : Nat × (Nat → Nat) × Nat),
    searchLoop a start fuel m c = some r → searchLoop a start (fuel + 1) m c = some r
  | 0, _, _, _, h => by simp [searchLoop] at h
  | fuel + 1, m, c, r, h => by
    rw [searchLoop] at h ⊢
    by_cases hfree : GET_FREE m c ≠ 0
    · rw [if_pos hfree] at h ⊢
      cases hco : coalesceLoop fuel m c with
      | none => rw [hco] at h; simp at h
      | some m1 =>
        rw [hco] at h
        rw [coalesceLoop_mono fuel m c m1 hco]
        simp only at h ⊢
        by_cases hs : SIZE m1 c ≥ a
        · rw [if_pos hs] at h ⊢; exact h
        · rw [if_neg hs] at h ⊢
          by_cases hn : GET_NEXT m1 c ≠ start
          · rw [if_pos hn] at h ⊢; exact searchLoop_mono a start fuel m1 _ r h
          · rw [if_neg hn] at h ⊢; exact h
    · rw [if_neg hfree] at h ⊢
      by_cases hn : GET_NEXT m c ≠ start
      · rw [if_pos hn] at h ⊢; exact searchLoop_mono a start fuel m _ r h
      · rw [if_neg hn] at h ⊢; exact h

theorem findLoop_mono (m : Nat → Nat) (first ptr : Nat) : ∀ (fuel head r : Nat),
    findLoop m first ptr fuel head = some r → findLoop m first ptr (fuel + 1) head = some r
  | 0, _, _, h => by simp [findLoop] at h
  | fuel + 1, head, r, h => by
    rw [findLoop] at h ⊢
    by_cases hu : user_block head = ptr
    · rw [if_pos hu] at h ⊢; exact h
    · rw [if_neg hu] at h ⊢
      by_cases hn : GET_NEXT m head ≠ first
      · rw [if_pos hn] at h ⊢; exact findLoop_mono m first ptr fuel _ r h
      · rw [if_neg hn] at h ⊢; exact h

theorem freeForward_mono : ∀ (fuel : Nat) (m : Nat → Nat) (b : Nat) (r : Nat → Nat),
    freeForward fuel m b = some r → freeForward (fuel + 1) m b = some r
  | 0, _, _, _, h => by simp [freeForward] at h
  | fuel + 1, m, b, r, h => by
    rw [freeForward] at h ⊢
    by_cases hf : GET_FREE m (GET_NEXT m b) ≠ 0
    · rw [if_pos hf] at h ⊢
      by_cases hb : GET_NEXT m b = b
      · rw [if_pos hb] at h ⊢; exact h
      · rw [if_neg hb] at h ⊢; exact freeForward_mono fuel _ b r h
    · rw [if_neg hf] at h ⊢; exact h

theorem findPrev_mono (m : Nat → Nat) (first block : Nat) : ∀ (fuel prev r : Nat),
    findPrev m first block fuel prev = some r → findPrev m first block (fuel + 1) prev = some r
  | 0, _, _, h => by simp [findPrev] at h
  | fuel + 1, prev, r, h => by
    rw [findPrev] at h ⊢
    by_cases hn : GET_NEXT m prev ≠ block
    · rw [if_pos hn] at h ⊢
      by_cases hb : GET_NEXT m prev = first ∧ GET_NEXT m (GET_NEXT m prev) ≠ block
      · rw [if_pos hb] at h ⊢; exact h
      · rw [if_neg hb] at h ⊢; exact findPrev_mono m first block fuel _ r h
    · rw [if_neg hn] at h ⊢; exact h

theorem malloc_body_mono (fuel : Nat) (s1 : Allocator) (size : Nat) (r : Nat × Allocator)
    (h : (if s1.first = 0 then some (0, s1)
      else
        match searchLoop (alignedSize size) s1.current fuel s1.mem s1.current with
        | none => none
        | some (r, m, c) => some (r, { mem := m, first := s1.first, current := c })) = some r) :
    (if s1.first = 0 then some (0, s1)
      else
        match searchLoop (alignedSize size) s1.current (fuel + 1) s1.mem s1.current with
        | none => none
        | some (r, m, c) => some (r, { mem := m, first := s1.first, current := c })) = some r := by
  by_cases h0 : s1.first = 0
  · rw [if_pos h0] at h ⊢; exact h
  · rw [if_neg h0] at h ⊢
    cases hs : searchLoop (alignedSize size) s1.current fuel s1.mem s1.current with
    | none => rw [hs] at h; simp at h
    | some x =>
      rw [hs] at h
      rw [searchLoop_mono _ _ fuel _ _ x hs]
      exact h

theorem simple_malloc_mono (ms me : Nat) (fuel : Nat) (s : Allocator) (size : Nat)
    (r : Nat × Allocator) (h : simple_malloc ms me fuel s size = some r) :
    simple_malloc ms me (fuel + 1) s size = some r :=
  malloc_body_mono fuel _ size r h

theorem simple_free_mono (fuel : Nat) (s : Allocator) (ptr : Nat) (r : Allocator)
    (h : simple_free fuel s ptr = some r) : simple_free (fuel + 1) s ptr = some r := by
  unfold simple_free at h ⊢
  split
  · next h0 => rw [if_pos h0] at h; exact h
  · next h0 =>
    rw [if_neg h0] at h
    cases h1 : findLoop s.mem s.first ptr fuel s.first with
    | none => rw [h1] at h; simp at h
    | some block =>
      rw [h1] at h
      rw [findLoop_mono _ _ _ fuel _ block h1]
      simp only at h ⊢
      by_cases hb : block = 0
      · rw [if_pos hb] at h ⊢; exact h
      · rw [if_neg hb] at h ⊢
        by_cases hf : GET_FREE s.mem block ≠ 0
        · rw [if_pos hf] at h ⊢; exact h
        · rw [if_neg hf] at h ⊢
          cases h2 : freeForward fuel (SET_FREE s.mem block true) block with
          | none => rw [h2] at h; simp at h
          | some m2 =>
            rw [h2] at h
            rw [freeForward_mono fuel _ block m2 h2]
            simp only at h ⊢
            cases h3 : findPrev m2 s.first block fuel s.first with
            | none => rw [h3] at h; simp at h
            | some prev =>
              rw [h3] at h
              rw [findPrev_mono _ _ _ fuel _ prev h3]
              exact h

theorem simple_malloc_mono_le (ms me : Nat) {fuel : Nat} (s : Allocator) (size : Nat)
    {r : Nat × Allocator} (h : simple_malloc ms me fuel s size = some r) :
    ∀ k, simple_malloc ms me (fuel + k) s size = some r
  | 0 => h
  | k + 1 => simple_malloc_mono ms me (fuel + k) s size r (simple_malloc_mono_le ms me s size h k)

theorem simple_free_mono_le {fuel : Nat} (s : Allocator) (ptr : Nat)
    {r : Allocator} (h : simple_free fuel s ptr = some r) :
    ∀ k, simple_free (fuel + k) s ptr = some r
  | 0 => h
  | k + 1 => simple_free_mono (fuel + k) s ptr r (simple_free_mono_le s ptr h k)

/-- A result obtained with some fuel is the result obtained with any larger fuel. -/
theorem malloc_result_unique (ms me : Nat) {fuel N : Nat} {s : Allocator} {size : Nat}
    {r r1 : Nat × Allocator} (h : simple_malloc ms me fuel s size = some r)
    (h1 : ∀ f, N ≤ f → simple_malloc ms me f s size = some r1) : r = r1 := by
  have e1 := simple_malloc_mono_le ms me s size h N
  have e2 := h1 (fuel + N) (by omega)
  rw [e1] at e2
  exact Option.some.inj e2

theorem free_result_unique {fuel N : Nat} {s : Allocator} {ptr : Nat}
    {r r1 : Allocator} (h : simple_free fuel s ptr = some r)
    (h1 : ∀ f, N ≤ f → simple_free f s ptr = some r1) : r = r1 := by
  have e1 := simple_free_mono_le s ptr h N
  have e2 := h1 (fuel + N) (by omega)
  rw [e1] at e2
  exact Option.some.inj e2

/-! ## Bootstrap -/

theorem region_facts {ms me : Nat} (hms : ms + 32 ≤ 2 ^ 64) (hroom : roomCheck ms me) :
    aligned_memory_start ms % 8 = 0 ∧ aligned_memory_start ms + 16 ≤ lastHeader me ∧
      lastHeader me % 8 = 0 ∧ lastHeader me + 8 < 2 ^ 64 ∧
      lastHeader me + 8 = aligned_memory_end me := by
  unfold roomCheck at hroom
  unfold lastHeader
  rw [aligned_memory_start_eq ms (by omega)] at hroom ⊢
  rw [aligned_memory_end_eq] at hroom ⊢
  unfold HEADER MIN_SIZE at *
  omega

theorem simple_init_eq {ms me : Nat} {s : Allocator} (h0 : s.first = 0)
    (hroom : roomCheck ms me) :
    simple_init ms me s =
      { mem := SET_FREE (store (SET_FREE (store s.mem (aligned_memory_start ms) (lastHeader me))
            (aligned_memory_start ms) true) (lastHeader me) (aligned_memory_start ms))
          (lastHeader me) false,
        first := aligned_memory_start ms, current := aligned_memory_start ms } := by
  unfold simple_init
  rw [if_pos h0, if_pos hroom]

theorem simple_init_small {ms me : Nat} {s : Allocator} (h0 : s.first = 0)
    (hroom : ¬ roomCheck ms me) :
    simple_init ms me s = { mem := s.mem, first := s.first, current := s.first } := by
  unfold simple_init
  rw [if_pos h0, if_neg hroom]

theorem simple_init_done {ms me : Nat} {s : Allocator} (h0 : s.first ≠ 0) :
    simple_init ms me s = s := by
  unfold simple_init
  rw [if_neg h0]

/-- The four header writes of `simple_init` (lines 62-67). -/
theorem init_mem (m : Nat → Nat) {A L : Nat} (hA : A % 8 = 0 ∧ 0 < A)
    (hL : L % 8 = 0 ∧ A + 16 ≤ L ∧ L + 8 < 2 ^ 64) :
    SET_FREE (store (SET_FREE (store m A L) A true) L A) L false =
      store (store m A (word L true)) L (word A false) := by
  have h1 : store m A L A = word L false := by rw [store_same]; simp [word]
  rw [SET_FREE_word true h1 hL.1 (by omega), store_store]
  have h2 : store (store m A (word L true)) L A L = word A false := by
    rw [store_same]; simp [word]
  rw [SET_FREE_word false h2 hA.1 (by omega), store_store]

theorem init_WF (m : Nat → Nat) {A L : Nat} (hA : A % 8 = 0 ∧ 0 < A)
    (hL : L % 8 = 0 ∧ A + 16 ≤ L ∧ L + 8 < 2 ^ 64) :
    WF A L (store (store m A (word L true)) L (word A false)) [(A, true)] := by
  have hne : A ≠ L := by omega
  refine ⟨rfl, ?_, ?_, store_same _ _ _, hA, hL⟩
  · refine links_one ?_
    rw [store_other _ _ hne]
    exact store_same _ _ _
  · refine ⟨?_, trivial⟩
    unfold GeoP
    refine ⟨hA.1, ?_, hL.1, ?_⟩
    · show A + 16 ≤ L
      exact hL.2.1
    · show L < 2 ^ 64
      omega

theorem init_Inv (m : Nat → Nat) {A L : Nat} (hA : A % 8 = 0 ∧ 0 < A)
    (hL : L % 8 = 0 ∧ A + 16 ≤ L ∧ L + 8 < 2 ^ 64) :
    Inv A L { mem := store (store m A (word L true)) L (word A false), first := A,
              current := A } [(A, true)] := by
  refine ⟨init_WF m hA hL, ⟨fun _ => rfl, trivial⟩, rfl, ?_⟩
  show A ∈ ringOf [(A, true)] L
  unfold ringOf
  exact List.mem_cons_self _ _

/-- A successful bootstrap establishes the invariant with one free block. -/
theorem simple_init_Inv {ms me : Nat} {s : Allocator} (hms : ms + 32 ≤ 2 ^ 64)
    (h0 : s.first = 0) (hroom : roomCheck ms me) (hA : aligned_memory_start ms ≠ 0) :
    Inv (aligned_memory_start ms) (lastHeader me) (simple_init ms me s)
      [(aligned_memory_start ms, true)] := by
  have hr := region_facts hms hroom
  rw [simple_init_eq h0 hroom]
  generalize aligned_memory_start ms = A at hr hA ⊢
  generalize lastHeader me = L at hr ⊢
  have hA2 : A % 8 = 0 ∧ 0 < A := ⟨hr.1, Nat.pos_of_ne_zero hA⟩
  have hL2 : L % 8 = 0 ∧ A + 16 ≤ L ∧ L + 8 < 2 ^ 64 := ⟨hr.2.2.1, hr.2.1, hr.2.2.2.1⟩
  rw [init_mem s.mem hA2 hL2]
  exact init_Inv s.mem hA2 hL2

/-! ## Whole calls on an initialised allocator -/

theorem simple_malloc_eq (ms me : Nat) {fuel : Nat} {s : Allocator} {size r c : Nat}
    {m : Nat → Nat} (h0 : s.first ≠ 0)
    (hs : searchLoop (alignedSize size) s.current fuel s.mem s.current = some (r, m, c)) :
    simple_malloc ms me fuel s size = some (r, { mem := m, first := s.first, current := c }) := by
  unfold simple_malloc
  simp only [if_neg h0]
  rw [hs]

theorem Inv_first_ne {A L : Nat} {s : Allocator} {B : List (Nat × Bool)} (h : Inv A L s B) :
    s.first ≠ 0 := by
  have := h.wf.hA
  rw [h.first_eq]; omega

theorem Inv_take {A L : Nat} {s : Allocator} {X Y : List (Nat × Bool)} {b a : Nat}
    (h : Inv A L s (X ++ (b, true) :: Y)) (ha : a % 8 = 0) (ha8 : 8 ≤ a)
    (hfit : a ≤ (Y.headD (L, false)).1 - (b + 8)) :
    Inv A L (takeState s b (Y.headD (L, false)).1 a) (takeBlocks X Y b (Y.headD (L, false)).1 a) := by
  unfold takeState takeBlocks
  by_cases hsmall : (Y.headD (L, false)).1 - (b + 8) - a < 16
  · rw [if_pos hsmall, if_pos hsmall]; exact Inv_whole h
  · rw [if_neg hsmall, if_neg hsmall]; exact Inv_split h ha ha8 (by omega)

/-- Function `simple_malloc` on an initialised allocator: either no block of
the ring fits and the call fails without any change, or the first fitting
block met from the cursor is taken. -/
theorem malloc_run (ms me : Nat) {A L : Nat} {s : Allocator} {B : List (Nat × Bool)}
    (h : Inv A L s B) (size : Nat) :
    ((∀ j, j < B.length + 1 → ¬ Fits s.mem (alignedSize size) (nth s.mem j s.current)) ∧
      ∀ fuel, B.length + 2 ≤ fuel → simple_malloc ms me fuel s size = some (0, s)) ∨
    ∃ k X Y b, k < B.length + 1 ∧ b = nth s.mem k s.current ∧
      Fits s.mem (alignedSize size) b ∧
      (∀ j, j < k → ¬ Fits s.mem (alignedSize size) (nth s.mem j s.current)) ∧
      B = X ++ (b, true) :: Y ∧ alignedSize size ≤ (Y.headD (L, false)).1 - (b + 8) ∧
      ∀ fuel, B.length + 2 ≤ fuel → simple_malloc ms me fuel s size =
        some (b + 8, takeState s b (Y.headD (L, false)).1 (alignedSize size)) := by
  have h0 := Inv_first_ne h
  rcases search_spec h (alignedSize size) (alignedSize_props size).1 with
    ⟨hno, hrun⟩ | ⟨k, X, Y, b, hk, hb, hfit, hmin, e, hsz, hcase⟩
  · left
    refine ⟨hno, fun fuel hf => ?_⟩
    rw [simple_malloc_eq ms me h0 (hrun fuel hf)]
  · right
    refine ⟨k, X, Y, b, hk, hb, hfit, hmin, e, hsz, fun fuel hf => ?_⟩
    unfold takeState
    rcases hcase with ⟨hsmall, hrun⟩ | ⟨hbig, hrun⟩
    · rw [simple_malloc_eq ms me h0 (hrun fuel hf), if_pos hsmall]
    · rw [simple_malloc_eq ms me h0 (hrun fuel hf), if_neg (by omega)]

/-- Function `simple_free` changes nothing when no in-use header of the ring has
its payload at `ptr`. -/
theorem free_noop {A L : Nat} {s : Allocator} {B : List (Nat × Bool)} (h : Inv A L s B)
    (ptr : Nat) (hp : ∀ x ∈ ringOf B L, x + 8 = ptr → GET_FREE s.mem x ≠ 0) :
    ∀ fuel, B.length + 1 ≤ fuel → simple_free fuel s ptr = some s := by
  intro fuel hf
  rcases findLoop_spec h.wf ptr with ⟨-, hrun⟩ | ⟨x, hx, hxp, hrun⟩
  · have h1 := hrun fuel hf
    rw [← h.first_eq] at h1
    exact simple_free_skip h1 (Or.inl rfl)
  · have h1 := hrun fuel hf
    rw [← h.first_eq] at h1
    exact simple_free_skip h1 (Or.inr (hp x hx hxp))

theorem free_uninit {s : Allocator} (h0 : s.first = 0) (fuel ptr : Nat) :
    simple_free fuel s ptr = some s := by
  unfold simple_free
  rw [if_pos (Or.inr h0)]

theorem free_null (s : Allocator) (fuel : Nat) : simple_free fuel s 0 = some s := by
  unfold simple_free
  rw [if_pos (Or.inl rfl)]

/-! ## The invariant of valid runs -/

theorem mem_used_take (X Y : List (Nat × Bool)) (b nx a c : Nat) :
    (c, false) ∈ takeBlocks X Y b nx a ↔ (c, false) ∈ X ++ (b, true) :: Y ∨ c = b := by
  unfold takeBlocks
  split <;> simp <;> tauto

theorem mem_dropFree (Y : List (Nat × Bool)) (c : Nat) :
    (c, false) ∈ dropFree Y ↔ (c, false) ∈ Y := by
  rcases dropFree_cases Y with ⟨e, -, -⟩ | ⟨y, Y2, eY, e⟩
  · rw [e]
  · rw [e, eY]; simp

theorem Live_not_zero {B : List (Nat × Bool)} {V : List Nat} (h : Live B V) : 0 ∉ V := by
  intro h0
  obtain ⟨b, -, e⟩ := (h 0).1 h0
  omega

theorem filter_ne_self {V : List Nat} {p : Nat} (h : p ∉ V) :
    V.filter (fun x => x ≠ p) = V := by
  rw [List.filter_eq_self]
  intro x hx
  have : x ≠ p := fun e => h (e ▸ hx)
  simpa using this

theorem mem_filter_ne {V : List Nat} {p x : Nat} :
    x ∈ V.filter (fun y => y ≠ p) ↔ x ∈ V ∧ x ≠ p := by
  rw [List.mem_filter]; simp

/-- One `simple_malloc` call keeps the invariant. -/
theorem malloc_step (ms me : Nat) {A L : Nat} {s s1 : Allocator} {B : List (Nat × Bool)}
    {V : List Nat} {fuel size p : Nat} (h : Inv A L s B) (hV : Live B V)
    (hrun : simple_malloc ms me fuel s size = some (p, s1)) :
    (p = 0 ∨ ValidPtr A L p) ∧ ∃ B1, Inv A L s1 B1 ∧ Live B1 (if p = 0 then V else p :: V) := by
  rcases malloc_run ms me h size with ⟨-, hspec⟩ | ⟨k, X, Y, b, -, -, -, -, e, hsz, hspec⟩
  · have := malloc_result_unique ms me hrun hspec
    have hp : p = 0 := congrArg Prod.fst this
    have hs : s1 = s := congrArg Prod.snd this
    rw [hp, hs]
    exact ⟨Or.inl rfl, B, h, by rw [if_pos rfl]; exact hV⟩
  · have := malloc_result_unique ms me hrun hspec
    have hp : p = b + 8 := congrArg Prod.fst this
    have hs : s1 = takeState s b (Y.headD (L, false)).1 (alignedSize size) :=
      congrArg Prod.snd this
    subst e
    have hb := block_at h.wf rfl
    have hb6 : b % 8 = 0 := hb.2.2.2.2.2.1
    have hb7 : b + 16 ≤ (Y.headD (L, false)).1 := hb.2.2.2.2.2.2.1
    have hb9 : (Y.headD (L, false)).1 ≤ L := hb.2.2.2.2.2.2.2.2.1
    have hbA : A ≤ b := hb.2.2.2.2.2.2.2.2.2
    have hap := alignedSize_props size
    have hne : p ≠ 0 := by omega
    refine ⟨Or.inr ⟨by omega, by omega, by omega⟩,
      takeBlocks X Y b (Y.headD (L, false)).1 (alignedSize size), ?_, ?_⟩
    · rw [hs]; exact Inv_take h hap.1 hap.2.1 hsz
    · rw [if_neg hne]
      intro x
      rw [List.mem_cons, hV x]
      constructor
      · rintro (e | ⟨c, hc, e⟩)
        · exact ⟨b, (mem_used_take _ _ _ _ _ _).2 (Or.inr rfl), by omega⟩
        · exact ⟨c, (mem_used_take _ _ _ _ _ _).2 (Or.inl hc), e⟩
      · rintro ⟨c, hc, e⟩
        rcases (mem_used_take _ _ _ _ _ _).1 hc with h1 | h1
        · exact Or.inr ⟨c, h1, e⟩
        · left; omega

theorem snoc_cases (X : List (Nat × Bool)) :
    (X = [] ∨ ∃ X1 q, X = X1 ++ [(q, false)]) ∨ ∃ X1 q, X = X1 ++ [(q, true)] := by
  rcases List.eq_nil_or_concat X with e | ⟨X1, c, e⟩
  · exact Or.inl (Or.inl e)
  · obtain ⟨q, g⟩ := c
    cases g
    · exact Or.inl (Or.inr ⟨X1, q, by rw [e]; simp⟩)
    · exact Or.inr ⟨X1, q, by rw [e]; simp⟩

/-- Function `simple_free` on the payload of an in-use block: the call returns,
the invariant is kept, and the block list and the new state are one of two shapes. -/
theorem free_run {A L : Nat} {s : Allocator} {X Y : List (Nat × Bool)} {b : Nat}
    (h : Inv A L s (X ++ (b, false) :: Y)) :
    ∃ s1 B1, (∀ fuel, (X ++ (b, false) :: Y).length + 2 ≤ fuel →
        simple_free fuel s (b + 8) = some s1) ∧ Inv A L s1 B1 ∧
      (((X = [] ∨ ∃ X1 q, X = X1 ++ [(q, false)]) ∧ B1 = X ++ (b, true) :: dropFree Y ∧
          s1 = { mem := store s.mem b (word ((dropFree Y).headD (L, false)).1 true),
                 first := s.first, current := b }) ∨
        ∃ X1 q, X = X1 ++ [(q, true)] ∧ B1 = X1 ++ (q, true) :: dropFree Y ∧
          s1 = { mem := store (store s.mem b (word ((dropFree Y).headD (L, false)).1 true))
                    q (word ((dropFree Y).headD (L, false)).1 true),
                 first := s.first, current := q }) := by
  rcases snoc_cases X with hX | ⟨X1, q, e⟩
  · exact ⟨_, _, fun fuel hf => free_keep_run h hX fuel hf, Inv_free_keep h hX,
      Or.inl ⟨hX, rfl, rfl⟩⟩
  · subst e
    exact ⟨_, _, fun fuel hf => free_merge_run h fuel hf, Inv_free_merge h,
      Or.inr ⟨X1, q, rfl, rfl, rfl⟩⟩

/-- The in-use blocks after a release are the other in-use blocks. -/
theorem used_after_free {X Y : List (Nat × Bool)} {b : Nat} {t : Nat × Bool}
    (hg : Adj GeoP (X ++ (b, false) :: Y) t) (B1 : List (Nat × Bool))
    (hB : B1 = X ++ (b, true) :: dropFree Y ∨
      ∃ X1 q, X = X1 ++ [(q, true)] ∧ B1 = X1 ++ (q, true) :: dropFree Y) (c : Nat) :
    (c, false) ∈ B1 ↔ (c, false) ∈ X ++ (b, false) :: Y ∧ c ≠ b := by
  have hsep := geo_sep X Y (b, false) t hg
  have hX : (c, false) ∈ X → c ≠ b := fun hc => by
    have := hsep.1 _ hc
    simp only at this; omega
  have hY : (c, false) ∈ Y → c ≠ b := fun hc => by
    have := hsep.2.1 _ hc
    simp only at this; omega
  rcases hB with e | ⟨X1, q, eX, e⟩
  · rw [e]
    simp only [List.mem_append, List.mem_cons, Prod.mk.injEq, mem_dropFree, Bool.false_eq_true,
      and_false, false_or, and_true]
    constructor
    · rintro (h1 | h1)
      · exact ⟨Or.inl h1, hX h1⟩
      · exact ⟨Or.inr (Or.inr h1), hY h1⟩
    · rintro ⟨h1 | h1 | h1, hne⟩
      · exact Or.inl h1
      · exact absurd h1 hne
      · exact Or.inr h1
  · rw [e]
    have hX1 : (c, false) ∈ X ↔ (c, false) ∈ X1 := by rw [eX]; simp
    simp only [List.mem_append, List.mem_cons, Prod.mk.injEq, mem_dropFree, Bool.false_eq_true,
      and_false, false_or, and_true]
    constructor
    · rintro (h1 | h1)
      · exact ⟨Or.inl (hX1.2 h1), hX (hX1.2 h1)⟩
      · exact ⟨Or.inr (Or.inr h1), hY h1⟩
    · rintro ⟨h1 | h1 | h1, hne⟩
      · exact Or.inl (hX1.1 h1)
      · exact absurd h1 hne
      · exact Or.inr h1

/-- One `simple_free` call on a returned address keeps the invariant. -/
theorem free_step {A L : Nat} {s s1 : Allocator} {B : List (Nat × Bool)}
    {V : List Nat} {fuel p : Nat} (h : Inv A L s B) (hV : Live B V)
    (hp : p = 0 ∨ ValidPtr A L p) (hrun : simple_free fuel s p = some s1) :
    ∃ B1, Inv A L s1 B1 ∧ Live B1 (V.filter (fun x => x ≠ p)) := by
  rcases hp with hp | hp
  · subst hp
    have hs : s1 = s := by
      have := free_null s fuel
      rw [hrun] at this; exact Option.some.inj this
    rw [hs, filter_ne_self (Live_not_zero hV)]
    exact ⟨B, h, hV⟩
  · obtain ⟨hp8, hpA, hpL⟩ := hp
    by_cases hm : (p - 8, false) ∈ B
    · obtain ⟨X, Y, e⟩ := List.append_of_mem hm
      subst e
      have hpe : p = (p - 8) + 8 := by omega
      obtain ⟨s2, B1, hspec, hinv, hshape⟩ := free_run h
      rw [← hpe] at hspec
      have hs : s1 = s2 := free_result_unique hrun hspec
      rw [hs]
      refine ⟨B1, hinv, fun x => ?_⟩
      have hB : B1 = X ++ (p - 8, true) :: dropFree Y ∨
          ∃ X1 q, X = X1 ++ [(q, true)] ∧ B1 = X1 ++ (q, true) :: dropFree Y := by
        rcases hshape with ⟨-, e, -⟩ | ⟨X1, q, eX, e, -⟩
        · exact Or.inl e
        · exact Or.inr ⟨X1, q, eX, e⟩
      rw [mem_filter_ne, hV x]
      constructor
      · rintro ⟨⟨c, hc, e⟩, hne⟩
        exact ⟨c, (used_after_free h.wf.geo B1 hB c).2 ⟨hc, by omega⟩, e⟩
      · rintro ⟨c, hc, e⟩
        have := (used_after_free h.wf.geo B1 hB c).1 hc
        exact ⟨⟨c, this.1, e⟩, by omega⟩
    · have hnot : p ∉ V := by
        intro hin
        obtain ⟨c, hc, e⟩ := (hV p).1 hin
        have : c = p - 8 := by omega
        rw [this] at hc
        exact hm hc
      have hnoop := free_noop h p (fun x hx e => by
        rcases mem_ring_cases hx with e1 | ⟨X, Y, f, e1⟩
        · omega
        · have hb := block_at h.wf e1
          have hfl : GET_FREE s.mem x = f.toNat := hb.2.2.1
          cases f
          · exfalso
            apply hm
            have : x = p - 8 := by omega
            rw [← this, e1]
            simp
          · rw [hfl]; exact Nat.one_ne_zero)
      have hs : s1 = s := free_result_unique hrun hnoop
      rw [hs, filter_ne_self hnot]
      exact ⟨B, h, hV⟩

theorem malloc_uninit_fail (ms me : Nat) {s : Allocator} (fuel size : Nat) (h0 : s.first = 0)
    (h1 : (simple_init ms me s).first = 0) :
    simple_malloc ms me fuel s size = some (0, simple_init ms me s) := by
  unfold simple_malloc
  simp only [if_pos h0, if_pos h1]

theorem malloc_uninit_init (ms me : Nat) {s : Allocator} (fuel size : Nat) (h0 : s.first = 0)
    (h1 : (simple_init ms me s).first ≠ 0) :
    simple_malloc ms me fuel s size = simple_malloc ms me fuel (simple_init ms me s) size := by
  unfold simple_malloc
  simp only [if_pos h0, if_neg h1]

theorem Live_init (A : Nat) : Live [(A, true)] [] := by
  intro p
  simp

/-- Function `simple_init` on an uninitialised allocator either leaves it
uninitialised or establishes the invariant with a single free block. -/
theorem init_cases {ms me : Nat} (hms : ms + 32 ≤ 2 ^ 64) {s : Allocator} (h0 : s.first = 0) :
    (simple_init ms me s).first = 0 ∨
      Inv (aligned_memory_start ms) (lastHeader me) (simple_init ms me s)
        [(aligned_memory_start ms, true)] := by
  by_cases hroom : roomCheck ms me
  · by_cases hA : aligned_memory_start ms = 0
    · left; rw [simple_init_eq h0 hroom]; exact hA
    · right; exact simple_init_Inv hms h0 hroom hA
  · left; rw [simple_init_small h0 hroom]; exact h0

theorem init_step {ms me : Nat} (hms : ms + 32 ≤ 2 ^ 64) {s : Allocator} {V : List Nat}
    (h : (s.first = 0 ∧ V = []) ∨
      ∃ B, Inv (aligned_memory_start ms) (lastHeader me) s B ∧ Live B V) :
    ((simple_init ms me s).first = 0 ∧ V = []) ∨
      ∃ B, Inv (aligned_memory_start ms) (lastHeader me) (simple_init ms me s) B ∧ Live B V := by
  rcases h with ⟨h0, hV⟩ | ⟨B, hB, hV⟩
  · rcases @init_cases ms me hms s h0 with h1 | h1
    · exact Or.inl ⟨h1, hV⟩
    · right; rw [hV]; exact ⟨_, h1, Live_init _⟩
  · right; rw [simple_init_done (Inv_first_ne hB)]; exact ⟨B, hB, hV⟩

/-- Every state of a valid run satisfies the invariant. -/
theorem reach_inv {ms me : Nat} (hms : ms + 32 ≤ 2 ^ 64) {s : Allocator} {R V : List Nat}
    (h : Reach ms me s R V) : RInv (aligned_memory_start ms) (lastHeader me) s R V := by
  induction h with
  | boot m => exact ⟨fun p hp => (by cases hp), Or.inl ⟨rfl, rfl⟩⟩
  | init _ ih => exact ⟨ih.1, init_step hms ih.2⟩
  | @malloc s s1 R V fuel size p _ _ hrun ih =>
    have hR : ∀ q, (q = 0 ∨ ValidPtr (aligned_memory_start ms) (lastHeader me) q) →
        ∀ x ∈ q :: R, x = 0 ∨ ValidPtr (aligned_memory_start ms) (lastHeader me) x := by
      intro q hq x hx
      rcases List.mem_cons.1 hx with e | hm
      · rw [e]; exact hq
      · exact ih.1 x hm
    rcases ih.2 with ⟨h0, hV⟩ | ⟨B, hB, hV⟩
    · rcases @init_cases ms me hms s h0 with h1 | h1
      · have := malloc_uninit_fail ms me fuel size h0 h1
        rw [hrun] at this
        have e := Option.some.inj this
        have hp : p = 0 := congrArg Prod.fst e
        have hs : s1 = simple_init ms me s := congrArg Prod.snd e
        rw [hp, hs, if_pos rfl]
        exact ⟨hR 0 (Or.inl rfl), Or.inl ⟨h1, hV⟩⟩
      · rw [malloc_uninit_init ms me fuel size h0 (Inv_first_ne h1)] at hrun
        have hl : Live [(aligned_memory_start ms, true)] V := by rw [hV]; exact Live_init _
        obtain ⟨hp, B1, hB1, hV1⟩ := malloc_step ms me h1 hl hrun
        exact ⟨hR p hp, Or.inr ⟨B1, hB1, hV1⟩⟩
    · obtain ⟨hp, B1, hB1, hV1⟩ := malloc_step ms me hB hV hrun
      exact ⟨hR p hp, Or.inr ⟨B1, hB1, hV1⟩⟩
  | @free s s1 R V fuel p _ hp hrun ih =>
    refine ⟨ih.1, ?_⟩
    rcases ih.2 with ⟨h0, hV⟩ | ⟨B, hB, hV⟩
    · have := free_uninit h0 fuel p
      rw [hrun] at this
      have hs : s1 = s := Option.some.inj this
      rw [hs, hV]
      exact Or.inl ⟨h0, rfl⟩
    · obtain ⟨B1, hB1, hV1⟩ := free_step hB hV (ih.1 p hp) hrun
      exact Or.inr ⟨B1, hB1, hV1⟩

/-! ## Consequences for valid runs -/

/-- With a region that fails the room test the allocator stays uninitialised. -/
theorem reach_small {ms me : Nat} (hroom : ¬ roomCheck ms me) {s : Allocator} {R V : List Nat}
    (h : Reach ms me s R V) : s.first = 0 := by
  induction h with
  | boot m => rfl
  | init _ ih => rw [simple_init_small ih hroom]; exact ih
  | @malloc s s1 R V fuel size p _ _ hrun ih =>
    have h1 : (simple_init ms me s).first = 0 := by
      rw [simple_init_small ih hroom]; exact ih
    have := malloc_uninit_fail ms me fuel size ih h1
    rw [hrun] at this
    have hs : s1 = simple_init ms me s := congrArg Prod.snd (Option.some.inj this)
    rw [hs]; exact h1
  | @free s s1 R V fuel p _ _ hrun ih =>
    have := free_uninit ih fuel p
    rw [hrun] at this
    rw [Option.some.inj this]; exact ih

/-- An initialised allocator of a valid run holds a well-formed ring. -/
theorem reach_Inv {ms me : Nat} (hms : ms + 32 ≤ 2 ^ 64) {s : Allocator} {R V : List Nat}
    (h : Reach ms me s R V) (h0 : s.first ≠ 0) :
    ∃ B, Inv (aligned_memory_start ms) (lastHeader me) s B ∧ Live B V := by
  rcases (reach_inv hms h).2 with ⟨h1, -⟩ | hB
  · exact absurd h1 h0
  · exact hB

theorem reach_region {ms me : Nat} (hms : ms + 32 ≤ 2 ^ 64) {s : Allocator} {R V : List Nat}
    (h : Reach ms me s R V) (h0 : s.first ≠ 0) :
    lastHeader me + 8 = aligned_memory_end me := by
  by_cases hroom : roomCheck ms me
  · exact (region_facts hms hroom).2.2.2.2
  · exact absurd (reach_small hroom h) h0

theorem walk_path (m : Nat → Nat) : ∀ (X : List Nat) (x t : Nat),
    Adj (NextP m) (x :: X) t → walk m (X.length + 1) x = x :: X ∧ nth m (X.length + 1) x = t
  | [], x, t, h => by
    have h1 : GET_NEXT m x = t := h.1
    exact ⟨rfl, h1⟩
  | y :: Y, x, t, h => by
    have h1 : GET_NEXT m x = y := h.1
    have ih := walk_path m Y y t h.2
    constructor
    · show x :: walk m (Y.length + 1) (GET_NEXT m x) = x :: y :: Y
      rw [h1, ih.1]
    · show nth m (Y.length + 1) (GET_NEXT m x) = t
      rw [h1, ih.2]

theorem walk_length (m : Nat → Nat) : ∀ (k p : Nat), (walk m k p).length = k
  | 0, _ => rfl
  | k + 1, p => by
    show (walk m k (GET_NEXT m p)).length + 1 = k + 1
    rw [walk_length m k]

/-- The walk from `first` over all headers is the abstract ring. -/
theorem walk_ring {A L : Nat} {m : Nat → Nat} {B : List (Nat × Bool)} (h : WF A L m B) :
    walk m (B.length + 1) A = ringOf B L ∧ walk m B.length A = B.map Prod.fst ∧
      nth m B.length A = L := by
  have hp := ring_path h
  have hd := h.hd
  have hL := h.hL
  cases B with
  | nil => simp at hd; omega
  | cons b rest =>
    have hb : b.1 = A := by simpa using hd
    unfold ringOf at hp ⊢
    have hp2 := (Adj_append (P := NextP m) ((b :: rest).map Prod.fst) [L] A).1 hp
    rw [List.map_cons, hb] at hp2 ⊢
    rw [List.map_cons, List.cons_append, hb] at hp
    have h1 := walk_path m (rest.map Prod.fst ++ [L]) A A hp
    rw [List.length_append, List.length_map, List.length_singleton] at h1
    have h2 := walk_path m (rest.map Prod.fst) A L hp2.1
    rw [List.length_map] at h2
    exact ⟨h1.1, h2.1, h2.2⟩

theorem noadj_pred {X Y : List (Nat × Bool)} {b : Nat} {t : Nat × Bool}
    (h : Adj NoAdjP (X ++ (b, true) :: Y) t) : X = [] ∨ ∃ X1 q, X = X1 ++ [(q, false)] := by
  rcases snoc_cases X with hX | ⟨X1, q, e⟩
  · exact hX
  · exfalso
    rw [e, List.append_assoc, Adj_append] at h
    have h1 : NoAdjP (q, true) (b, true) := h.2.1
    exact Bool.noConfusion (h1 rfl)

theorem dropFree_of_used {Y : List (Nat × Bool)} {t : Nat × Bool} (ht : t.2 = false)
    (h : (Y.headD t).2 = false) : dropFree Y = Y ∧ (Y.headD t).2 = false := by
  refine ⟨?_, h⟩
  rcases dropFree_cases Y with ⟨e, -, -⟩ | ⟨y, Y2, eY, -⟩
  · exact e
  · rw [eY] at h; exact Bool.noConfusion h

/-- A `simple_malloc` call on an initialised allocator that returns a block:
the block it takes and the state it leaves. -/
theorem malloc_hit_inv (ms me : Nat) {A L : Nat} {s0 s1 : Allocator} {B : List (Nat × Bool)}
    {fuel size p : Nat} (hB : Inv A L s0 B)
    (hrun : simple_malloc ms me fuel s0 size = some (p, s1)) (hp : p ≠ 0) :
    ∃ X Y b k, B = X ++ (b, true) :: Y ∧ p = b + 8 ∧
      k < B.length + 1 ∧ b = nth s0.mem k s0.current ∧
      Fits s0.mem (alignedSize size) b ∧
      (∀ j, j < k → ¬ Fits s0.mem (alignedSize size) (nth s0.mem j s0.current)) ∧
      alignedSize size ≤ (Y.headD (L, false)).1 - (b + 8) ∧
      s1 = takeState s0 b (Y.headD (L, false)).1 (alignedSize size) ∧
      ∀ f, B.length + 2 ≤ f → simple_malloc ms me f s0 size = some (p, s1) := by
  rcases malloc_run ms me hB size with ⟨-, hspec⟩ | ⟨k, X, Y, b, hk, hb, hfit, hmin, e, hsz, hspec⟩
  · have := malloc_result_unique ms me hrun hspec
    exact absurd (congrArg Prod.fst this) hp
  · have := malloc_result_unique ms me hrun hspec
    have hpe : p = b + 8 := congrArg Prod.fst this
    have hse : s1 = takeState s0 b (Y.headD (L, false)).1 (alignedSize size) :=
      congrArg Prod.snd this
    exact ⟨X, Y, b, k, e, hpe, hk, hb, hfit, hmin, hsz, hse,
      fun f hf => by rw [hspec f hf, hpe, hse]⟩

/-- The state searched by a `simple_malloc` call of a valid run that returns a
block (the state itself, or the bootstrapped state when the call bootstraps),
and the block it takes. -/
theorem malloc_hit {ms me : Nat} (hms : ms + 32 ≤ 2 ^ 64) {s s1 : Allocator} {R V : List Nat}
    {fuel size p : Nat} (hr : Reach ms me s R V)
    (hrun : simple_malloc ms me fuel s size = some (p, s1)) (hp : p ≠ 0) :
    ∃ s0 X Y b k, (s0 = s ∨ (s.first = 0 ∧ s0 = simple_init ms me s)) ∧
      Inv (aligned_memory_start ms) (lastHeader me) s0 (X ++ (b, true) :: Y) ∧
      Live (X ++ (b, true) :: Y) V ∧ p = b + 8 ∧
      k < (X ++ (b, true) :: Y).length + 1 ∧ b = nth s0.mem k s0.current ∧
      Fits s0.mem (alignedSize size) b ∧
      (∀ j, j < k → ¬ Fits s0.mem (alignedSize size) (nth s0.mem j s0.current)) ∧
      alignedSize size ≤ (Y.headD (lastHeader me, false)).1 - (b + 8) ∧
      s1 = takeState s0 b (Y.headD (lastHeader me, false)).1 (alignedSize size) ∧
      ∀ f, (X ++ (b, true) :: Y).length + 2 ≤ f → simple_malloc ms me f s size = some (p, s1) := by
  rcases (reach_inv hms hr).2 with ⟨h0, hV⟩ | ⟨B, hB, hV⟩
  · rcases @init_cases ms me hms s h0 with h1 | h1
    · have := malloc_uninit_fail ms me fuel size h0 h1
      rw [hrun] at this
      exact absurd (congrArg Prod.fst (Option.some.inj this)) hp
    · have hl : Live [(aligned_memory_start ms, true)] V := by rw [hV]; exact Live_init _
      have hi := fun f => malloc_uninit_init ms me f size h0 (Inv_first_ne h1)
      rw [hi fuel] at hrun
      obtain ⟨X, Y, b, k, e, hpe, hk, hb, hfit, hmin, hsz, hse, hspec⟩ :=
        malloc_hit_inv ms me h1 hrun hp
      rw [e] at h1 hl hk hspec
      exact ⟨_, X, Y, b, k, Or.inr ⟨h0, rfl⟩, h1, hl, hpe, hk, hb, hfit, hmin, hsz, hse,
        fun f hf => by rw [hi f]; exact hspec f hf⟩
  · obtain ⟨X, Y, b, k, e, hpe, hk, hb, hfit, hmin, hsz, hse, hspec⟩ :=
      malloc_hit_inv ms me hB hrun hp
    subst e
    exact ⟨s, X, Y, b, k, Or.inl rfl, hB, hV, hpe, hk, hb, hfit, hmin, hsz, hse, hspec⟩

/-- Releasing the block just taken restores the block list and leaves the
cursor on the block. -/
theorem free_after_take {A L : Nat} {s0 : Allocator} {X Y : List (Nat × Bool)} {b a : Nat}
    (h : Inv A L s0 (X ++ (b, true) :: Y)) (ha : a % 8 = 0) (ha8 : 8 ≤ a)
    (hfit : a ≤ (Y.headD (L, false)).1 - (b + 8)) :
    ∃ s2, (∀ fuel, (X ++ (b, true) :: Y).length + 3 ≤ fuel →
        simple_free fuel (takeState s0 b (Y.headD (L, false)).1 a) (b + 8) = some s2) ∧
      Inv A L s2 (X ++ (b, true) :: Y) ∧ s2.current = b := by
  have hn := h.noadj
  have hX := noadj_pred hn
  rw [Adj_split] at hn
  have hY := dropFree_of_used (t := (L, false)) rfl (hn.2.1 rfl)
  unfold takeState
  by_cases hsmall : (Y.headD (L, false)).1 - (b + 8) - a < 16
  · rw [if_pos hsmall]
    have hw := Inv_whole h
    refine ⟨_, fun fuel hf => free_keep_run hw hX fuel ?_, ?_, rfl⟩
    · simp only [List.length_append, List.length_cons] at hf ⊢; omega
    · have := Inv_free_keep hw hX
      have e : X ++ (b, true) :: dropFree Y = X ++ (b, true) :: Y := by rw [hY.1]
      rw [e] at this
      exact this
  · rw [if_neg hsmall]
    have hsp := Inv_split h ha ha8 (by omega)
    refine ⟨_, fun fuel hf => free_keep_run hsp hX fuel ?_, ?_, rfl⟩
    · simp only [List.length_append, List.length_cons] at hf ⊢; omega
    · exact Inv_free_keep hsp hX

/-- A request served by the block under the cursor. -/
theorem malloc_at_cursor (ms me : Nat) {A L : Nat} {s : Allocator} {X Y : List (Nat × Bool)}
    {b : Nat} (h : Inv A L s (X ++ (b, true) :: Y)) (hc : s.current = b) (size : Nat)
    (hfit : alignedSize size ≤ (Y.headD (L, false)).1 - (b + 8)) :
    ∀ fuel, (X ++ (b, true) :: Y).length + 2 ≤ fuel → simple_malloc ms me fuel s size =
      some (b + 8, takeState s b (Y.headD (L, false)).1 (alignedSize size)) := by
  have hb := block_at h.wf rfl
  have hn1 : GET_NEXT s.mem b = (Y.headD (L, false)).1 := hb.2.1
  have hf1 : GET_FREE s.mem b = 1 := hb.2.2.1
  have hs1 : SIZE s.mem b = (Y.headD (L, false)).1 - (b + 8) := hb.2.2.2.1
  have hfits : Fits s.mem (alignedSize size) (nth s.mem 0 s.current) := by
    show Fits s.mem (alignedSize size) s.current
    rw [hc]
    exact ⟨by rw [hf1]; exact Nat.one_ne_zero, by rw [hs1]; exact hfit⟩
  rcases malloc_run ms me h size with ⟨hno, -⟩ | ⟨k, X1, Y1, b1, hk, hb1, -, hmin, e, -, hspec⟩
  · exact absurd hfits (hno 0 (Nat.succ_pos _))
  · have hk0 : k = 0 := by
      by_contra hne
      exact hmin 0 (Nat.pos_of_ne_zero hne) hfits
    rw [hk0] at hb1
    have hbb : b1 = b := by rw [hb1]; exact hc
    rw [hbb] at e hspec
    have hb2 := block_at h.wf e
    have hn2 : GET_NEXT s.mem b = (Y1.headD (L, false)).1 := hb2.2.1
    have : (Y1.headD (L, false)).1 = (Y.headD (L, false)).1 := by rw [← hn2, hn1]
    rw [this] at hspec
    exact hspec

theorem head_dropFree_ge {Y : List (Nat × Bool)} {t : Nat × Bool} (hg : Adj GeoP Y t) :
    (Y.headD t).1 ≤ ((dropFree Y).headD t).1 := by
  rcases dropFree_cases Y with ⟨e, -, -⟩ | ⟨y, Y2, eY, e⟩
  · rw [e]
  · rw [e, eY]
    rw [eY] at hg
    have h1 : GeoP (y, true) (Y2.headD t) := hg.1
    have : y + 16 ≤ (Y2.headD t).1 := h1.2.1
    show y ≤ (Y2.headD t).1
    omega

/-- What a release of the in-use block `b` leaves behind: the call returns, the
invariant holds, the cursor is on a free block of the ring that starts at `b`
or at the free predecessor that absorbed `b`, and that block reaches at least
to the old end of `b`. -/
theorem free_post {A L : Nat} {s : Allocator} {X Y : List (Nat × Bool)} {b : Nat}
    (h : Inv A L s (X ++ (b, false) :: Y)) :
    ∃ s1 B1, (∀ fuel, (X ++ (b, false) :: Y).length + 2 ≤ fuel →
        simple_free fuel s (b + 8) = some s1) ∧ Inv A L s1 B1 ∧
      (∀ c, (c, false) ∈ B1 ↔ (c, false) ∈ X ++ (b, false) :: Y ∧ c ≠ b) ∧
      B1.length ≤ (X ++ (b, false) :: Y).length ∧
      GET_FREE s1.mem s1.current = 1 ∧ s1.current ≤ b ∧
      GET_NEXT s.mem b ≤ GET_NEXT s1.mem s1.current ∧
      (s1.current = b ∨ (GET_FREE s.mem s1.current = 1 ∧ GET_NEXT s.mem s1.current = b)) := by
  obtain ⟨s1, B1, hrun, hinv, hshape⟩ := free_run h
  have hb := block_at h.wf rfl
  have hnb : GET_NEXT s.mem b = (Y.headD (L, false)).1 := hb.2.1
  have hg := h.wf.geo
  rw [Adj_split] at hg
  have hdrop := head_dropFree_ge hg.2.2
  have hlen := length_dropFree_le Y
  have hB : B1 = X ++ (b, true) :: dropFree Y ∨
      ∃ X1 q, X = X1 ++ [(q, true)] ∧ B1 = X1 ++ (q, true) :: dropFree Y := by
    rcases hshape with ⟨-, e, -⟩ | ⟨X1, q, eX, e, -⟩
    · exact Or.inl e
    · exact Or.inr ⟨X1, q, eX, e⟩
  refine ⟨s1, B1, hrun, hinv, used_after_free h.wf.geo B1 hB, ?_, ?_⟩
  · rcases hshape with ⟨-, e, -⟩ | ⟨X1, q, eX, e, -⟩
    · rw [e]; simp only [List.length_append, List.length_cons]; omega
    · rw [e, eX]; simp only [List.length_append, List.length_cons, List.length_nil]; omega
  · rcases hshape with ⟨-, e, es⟩ | ⟨X1, q, eX, e, es⟩
    · rw [e] at hinv
      have hb1 := block_at hinv.wf rfl
      have hc : s1.current = b := by rw [es]
      have hf1 : GET_FREE s1.mem b = 1 := hb1.2.2.1
      have hn1 : GET_NEXT s1.mem b = ((dropFree Y).headD (L, false)).1 := hb1.2.1
      rw [hc, hf1, hn1, hnb]
      exact ⟨rfl, Nat.le_refl _, hdrop, Or.inl rfl⟩
    · rw [e] at hinv
      have hq1 := block_at hinv.wf rfl
      have hc : s1.current = q := by rw [es]
      have hf1 : GET_FREE s1.mem q = 1 := hq1.2.2.1
      have hn1 : GET_NEXT s1.mem q = ((dropFree Y).headD (L, false)).1 := hq1.2.1
      have h0 := h.wf
      have e0 : X ++ (b, false) :: Y = X1 ++ (q, true) :: ((b, false) :: Y) := by rw [eX]; simp
      have hq0 := block_at h0 e0
      have hf0 : GET_FREE s.mem q = 1 := hq0.2.2.1
      have hn0 : GET_NEXT s.mem q = b := hq0.2.1
      have hqb : q + 16 ≤ b := hq0.2.2.2.2.2.2.1
      rw [hc, hf1, hn1, hnb, hf0, hn0]
      exact ⟨rfl, by omega, hdrop, Or.inr ⟨rfl, rfl⟩⟩

/-- A live address of a valid run is the payload of an in-use block of the ring. -/
theorem live_block {ms me : Nat} (hms : ms + 32 ≤ 2 ^ 64) {s : Allocator} {R V : List Nat}
    {p : Nat} (hr : Reach ms me s R V) (hp : p ∈ V) :
    ∃ X Y b, Inv (aligned_memory_start ms) (lastHeader me) s (X ++ (b, false) :: Y) ∧
      Live (X ++ (b, false) :: Y) V ∧ p = b + 8 := by
  rcases (reach_inv hms hr).2 with ⟨-, hV⟩ | ⟨B, hB, hV⟩
  · rw [hV] at hp; cases hp
  · obtain ⟨b, hb, e⟩ := (hV p).1 hp
    obtain ⟨X, Y, eB⟩ := List.append_of_mem hb
    subst eB
    exact ⟨X, Y, b, hB, hV, e⟩

/-- Every header of the ring is met on the walk from `first`. -/
theorem ring_reached {A L : Nat} {s : Allocator} {B : List (Nat × Bool)} (h : Inv A L s B)
    {x : Nat} (hx : x ∈ ringOf B L) : ∃ k, k < B.length + 1 ∧ nth s.mem k s.first = x := by
  obtain ⟨i, hi, e⟩ := ring_mem_getD A hx
  refine ⟨i, hi, ?_⟩
  rw [h.first_eq, nth_first h.wf i hi, e]

/-! ## The ring as seen from `first` -/

theorem split_at {α : Type} (B : List α) (j : Nat) (hj : j < B.length) :
    ∃ X b Y, B = X ++ b :: Y ∧ X.length = j :=
  ⟨B.take j, B[j], B.drop (j + 1), by
    rw [← List.drop_eq_getElem_cons hj, List.take_append_drop], by
    rw [List.length_take]; omega⟩

/-- The headers of the ring in the order of the walk from `first`. -/
theorem ring_facts {A L : Nat} {s : Allocator} {B : List (Nat × Bool)} (h : Inv A L s B) :
    walk s.mem (B.length + 1) s.first = ringOf B L ∧
    walk s.mem B.length s.first = B.map Prod.fst ∧
    nth s.mem B.length s.first = L ∧ nth s.mem (B.length + 1) s.first = s.first ∧
    ∀ j, j < B.length → ∃ X f Y, B = X ++ (nth s.mem j s.first, f) :: Y ∧ X.length = j := by
  have hw := walk_ring h.wf
  rw [h.first_eq]
  refine ⟨hw.1, hw.2.1, hw.2.2, ?_, fun j hj => ?_⟩
  · rw [nth_succ_right, hw.2.2]; exact (sent_decode h.wf).1
  · obtain ⟨X, b, Y, e, hX⟩ := split_at B j hj
    refine ⟨X, b.2, Y, ?_, hX⟩
    rw [nth_first h.wf j (by omega), e, ← hX, ring_getD_block]

/-- The sizes of the blocks add up to the distance they span. -/
theorem sizes_sum (m : Nat → Nat) : ∀ (X : List (Nat × Bool)) (t : Nat × Bool),
    Adj (LinkP m) X t → Adj GeoP X t →
    (X.map (fun b => SIZE m b.1 + HEADER)).sum + (X.headD t).1 = t.1
  | [], _, _, _ => by simp
  | b :: rest, t, hl, hg => by
    have ih := sizes_sum m rest t hl.2 hg.2
    have hd := decode_block hl.1 hg.1
    have hs : SIZE m b.1 = (rest.headD t).1 - (b.1 + 8) := hd.2.2
    have hge : b.1 + 16 ≤ (rest.headD t).1 := hg.1.2.1
    rw [List.map_cons, List.sum_cons, hs]
    show (rest.headD t).1 - (b.1 + 8) + HEADER + _ + b.1 = t.1
    unfold HEADER at ih ⊢
    omega

/-- With nothing live every block is free, so the ring is the bootstrap layout. -/
theorem all_free_single {A L : Nat} {s : Allocator} {B : List (Nat × Bool)} (h : Inv A L s B)
    (hV : Live B []) : B = [(A, true)] := by
  have hfree : ∀ c f, (c, f) ∈ B → f = true := by
    intro c f hc
    cases f
    · exfalso
      have := (hV (c + 8)).2 ⟨c, hc, rfl⟩
      cases this
    · rfl
  have hd := h.wf.hd
  have hL := h.wf.hL
  have hn := h.noadj
  cases B with
  | nil => simp at hd; omega
  | cons b rest =>
    obtain ⟨b1, f1⟩ := b
    have hb1 : b1 = A := by simpa using hd
    have hf1 := hfree b1 f1 (List.mem_cons_self _ _)
    cases rest with
    | nil => rw [hb1, hf1]
    | cons c rest2 =>
      exfalso
      obtain ⟨c1, g1⟩ := c
      have hg1 := hfree c1 g1 (List.mem_cons_of_mem _ (List.mem_cons_self _ _))
      have h1 : NoAdjP (b1, f1) (c1, g1) := hn.1
      have := h1 hf1
      rw [hg1] at this
      exact Bool.noConfusion this

/-! ## The concrete runs are valid runs -/

theorem reach_runC : Reach 8 48 runC [32, 16] [32, 16] :=
  Reach.malloc
    (Reach.malloc (Reach.boot zeroMem) (by decide)
      (show simple_malloc 8 48 10 (boot zeroMem) 8 =
        some (16, stateOf (boot zeroMem) (simple_malloc 8 48 10 (boot zeroMem) 8)) from rfl))
    (by decide)
    (show simple_malloc 8 48 10
        (stateOf (boot zeroMem) (simple_malloc 8 48 10 (boot zeroMem) 8)) 8 =
      some (32, runC) from rfl)

theorem reach_runD : Reach 8 48 runD [32, 16] [] :=
  Reach.free
    (Reach.free reach_runC (by decide)
      (show simple_free 10 runC 16 = some ((simple_free 10 runC 16).getD runC) from rfl))
    (by decide)
    (show simple_free 10 ((simple_free 10 runC 16).getD runC) 32 = some runD from rfl)

/-- On a ring with one free block of exactly 8 bytes the first request of 8
bytes takes it and the second fails. -/
theorem minimal_ring (ms me : Nat) {A : Nat} {s0 : Allocator}
    (h : Inv A (A + 16) s0 [(A, true)]) (hc : s0.current = A) :
    ∃ s1 s2, ∀ fuel, 3 ≤ fuel → simple_malloc ms me fuel s0 8 = some (A + 8, s1) ∧
      simple_malloc ms me fuel s1 8 = some (0, s2) := by
  have ha : alignedSize 8 = 8 := by decide
  have hfit : alignedSize 8 ≤ (([] : List (Nat × Bool)).headD (A + 16, false)).1 - (A + 8) := by
    rw [ha]; show 8 ≤ A + 16 - (A + 8); omega
  have h1 := malloc_at_cursor ms me (X := []) (Y := []) h hc 8 hfit
  have hinv := Inv_take (X := []) (Y := []) (a := 8) h (by decide) (by decide)
    (by show 8 ≤ A + 16 - (A + 8); omega)
  have hB : takeBlocks [] [] A (([] : List (Nat × Bool)).headD (A + 16, false)).1 8 =
      [(A, false)] := by
    unfold takeBlocks
    have : (([] : List (Nat × Bool)).headD (A + 16, false)).1 - (A + 8) - 8 < 16 := by
      show A + 16 - (A + 8) - 8 < 16; omega
    rw [if_pos this]; rfl
  rw [hB] at hinv
  rw [ha] at h1
  refine ⟨takeState s0 A (A + 16) 8, takeState s0 A (A + 16) 8,
    fun fuel hf => ⟨h1 fuel hf, ?_⟩⟩
  rcases malloc_run ms me hinv 8 with ⟨-, hspec⟩ | ⟨k, X, Y, b, -, -, -, -, e, -, -⟩
  · exact hspec fuel hf
  · exfalso
    have hm : (b, true) ∈ [(A, false)] := by rw [e]; simp
    simp at hm

/-- A release of a returned address that is not the payload of an in-use
block changes nothing. -/
theorem free_not_live {A L : Nat} {s : Allocator} {B : List (Nat × Bool)} {p : Nat}
    (h : Inv A L s B) (hp : p = 0 ∨ ValidPtr A L p) (hm : (p - 8, false) ∉ B) :
    ∀ fuel, B.length + 1 ≤ fuel → simple_free fuel s p = some s := by
  rcases hp with hp | ⟨hp8, hpA, hpL⟩
  · intro fuel _; rw [hp]; exact free_null s fuel
  · exact free_noop h p (fun x hx e => by
      rcases mem_ring_cases hx with e1 | ⟨X, Y, f, e1⟩
      · omega
      · have hb := block_at h.wf e1
        have hfl : GET_FREE s.mem x = f.toNat := hb.2.2.1
        cases f
        · exfalso
          apply hm
          have : x = p - 8 := by omega
          rw [← this, e1]
          simp
        · rw [hfl]; exact Nat.one_ne_zero)

/-- Every release of a returned address returns. -/
theorem free_total {A L : Nat} {s : Allocator} {B : List (Nat × Bool)} {p : Nat}
    (h : Inv A L s B) (hp : p = 0 ∨ ValidPtr A L p) :
    ∃ s1, ∀ fuel, B.length + 2 ≤ fuel → simple_free fuel s p = some s1 := by
  by_cases hm : (p - 8, false) ∈ B
  · have hpe : p = (p - 8) + 8 := by
      rcases hp with hp | ⟨-, hpA, -⟩
      · exfalso
        obtain ⟨X, Y, e⟩ := List.append_of_mem hm
        have hb := block_at h.wf e
        have h6 : A ≤ p - 8 := hb.2.2.2.2.2.2.2.2.2
        have := h.wf.hA
        omega
      · omega
    obtain ⟨X, Y, e⟩ := List.append_of_mem hm
    subst e
    obtain ⟨s1, -, hrun, -⟩ := free_run h
    rw [← hpe] at hrun
    exact ⟨s1, hrun⟩
  · exact ⟨s, fun fuel hf => free_not_live h hp hm fuel (by omega)⟩

/-- Every request on an initialised allocator returns. -/
theorem malloc_total (ms me : Nat) {A L : Nat} {s : Allocator} {B : List (Nat × Bool)}
    (h : Inv A L s B) (size : Nat) :
    ∃ r, ∀ fuel, B.length + 2 ≤ fuel → simple_malloc ms me fuel s size = some r := by
  rcases malloc_run ms me h size with ⟨-, hspec⟩ | ⟨k, X, Y, b, -, -, -, -, -, -, hspec⟩
  · exact ⟨_, hspec⟩
  · exact ⟨_, hspec⟩

/-! ## In-use blocks -/

theorem inuse_iff {A L : Nat} {s : Allocator} {B : List (Nat × Bool)} (h : Inv A L s B)
    (x : Nat) : InUse L s x ↔ (x, false) ∈ B := by
  have hfirst : s.first ∈ ringOf B L := by
    rw [← (ring_facts h).1]; exact List.mem_cons_self _ _
  have hcyc := ring_cycle h.wf hfirst
  constructor
  · rintro ⟨⟨k, hk⟩, hne, hfree⟩
    have hx : x ∈ ringOf B L := by rw [← hk]; exact hcyc.2.2.1 k
    rcases mem_ring_cases hx with e | ⟨X, Y, f, e⟩
    · exact absurd e hne
    · have hb := block_at h.wf e
      have hfl : GET_FREE s.mem x = f.toNat := hb.2.2.1
      cases f
      · rw [e]; simp
      · rw [hfl] at hfree; exact absurd hfree Nat.one_ne_zero
  · intro hm
    obtain ⟨X, Y, e⟩ := List.append_of_mem hm
    have hb := block_at h.wf e
    have hfl : GET_FREE s.mem x = 0 := hb.2.2.1
    have h7 : x + 16 ≤ (Y.headD (L, false)).1 := hb.2.2.2.2.2.2.1
    have h9 : (Y.headD (L, false)).1 ≤ L := hb.2.2.2.2.2.2.2.2.1
    have hx : x ∈ ringOf B L := by rw [e]; exact mem_ring_block X Y (x, false)
    obtain ⟨k, -, hk⟩ := ring_reached h hx
    exact ⟨⟨k, hk⟩, by omega, hfl⟩

/-- A block with another flag than `b` lies entirely below `b` or from the end of `b` on. -/
theorem used_sep {X Y : List (Nat × Bool)} {b x : Nat} {f g : Bool} {t : Nat × Bool}
    (hg : Adj GeoP (X ++ (b, f) :: Y) t) (hx : (x, g) ∈ X ++ (b, f) :: Y) (hne : g ≠ f) :
    x + 16 ≤ b ∨ (Y.headD t).1 ≤ x := by
  have hsep := geo_sep X Y (b, f) t hg
  rw [Adj_split] at hg
  rcases List.mem_append.1 hx with h1 | h1
  · exact Or.inl (hsep.1 _ h1)
  · rcases List.mem_cons.1 h1 with h2 | h2
    · exfalso
      have : g = f := congrArg Prod.snd h2
      exact hne this
    · exact Or.inr (geo_bounds Y t hg.2.2 _ h2).1

/-- A request leaves the words of all blocks that were in use as they are. -/
theorem take_frame {A L : Nat} {s : Allocator} {X Y : List (Nat × Bool)} {b a x : Nat}
    (h : Inv A L s (X ++ (b, true) :: Y))
    (hfit : a ≤ (Y.headD (L, false)).1 - (b + 8)) (hx : (x, false) ∈ X ++ (b, true) :: Y) :
    (takeState s b (Y.headD (L, false)).1 a).mem x = s.mem x := by
  have hsep := used_sep h.wf.geo hx (by simp)
  have hb := block_at h.wf rfl
  have hb7 : b + 16 ≤ (Y.headD (L, false)).1 := hb.2.2.2.2.2.2.1
  have hne : x ≠ b := by omega
  unfold takeState
  by_cases hsmall : (Y.headD (L, false)).1 - (b + 8) - a < 16
  · rw [if_pos hsmall]
    exact store_other _ _ hne
  · rw [if_neg hsmall]
    have hne2 : x ≠ b + 8 + a := by omega
    show store (store s.mem (b + 8 + a) _) b _ x = s.mem x
    rw [store_other _ _ hne, store_other _ _ hne2]

/-- A release leaves the words of all other in-use blocks as they are. -/
theorem free_frame {A L : Nat} {s s1 : Allocator} {X Y B1 : List (Nat × Bool)} {b x : Nat}
    (h : Inv A L s (X ++ (b, false) :: Y))
    (hshape : ((X = [] ∨ ∃ X1 q, X = X1 ++ [(q, false)]) ∧ B1 = X ++ (b, true) :: dropFree Y ∧
          s1 = { mem := store s.mem b (word ((dropFree Y).headD (L, false)).1 true),
                 first := s.first, current := b }) ∨
        ∃ X1 q, X = X1 ++ [(q, true)] ∧ B1 = X1 ++ (q, true) :: dropFree Y ∧
          s1 = { mem := store (store s.mem b (word ((dropFree Y).headD (L, false)).1 true))
                    q (word ((dropFree Y).headD (L, false)).1 true),
                 first := s.first, current := q })
    (hx : (x, false) ∈ X ++ (b, false) :: Y) (hne : x ≠ b) : s1.mem x = s.mem x := by
  rcases hshape with ⟨-, -, es⟩ | ⟨X1, q, eX, -, es⟩
  · rw [es]
    exact store_other _ _ hne
  · rw [es]
    have e0 : X ++ (b, false) :: Y = X1 ++ (q, true) :: ((b, false) :: Y) := by rw [eX]; simp
    have hg := h.wf.geo
    rw [e0] at hg hx
    have hsep := used_sep hg hx (by simp)
    have hq := (geo_sep X1 ((b, false) :: Y) (q, true) (L, false) hg).2.2.2
    have hq2 : q + 16 ≤ b := hq
    have hsep2 : x + 16 ≤ q ∨ b ≤ x := hsep
    have hne2 : x ≠ q := by omega
    show store (store s.mem b _) q _ x = s.mem x
    rw [store_other _ _ hne2, store_other _ _ hne]

theorem freeBlock_of_mem {A L : Nat} {s : Allocator} {B : List (Nat × Bool)} (h : Inv A L s B)
    {x : Nat} (hm : (x, true) ∈ B) : FreeBlock s x := by
  obtain ⟨X, Y, e⟩ := List.append_of_mem hm
  have hb := block_at h.wf e
  have hfl : GET_FREE s.mem x = 1 := hb.2.2.1
  have hx : x ∈ ringOf B L := by rw [e]; exact mem_ring_block X Y (x, true)
  obtain ⟨k, -, hk⟩ := ring_reached h hx
  exact ⟨⟨k, hk⟩, by rw [hfl]; exact Nat.one_ne_zero⟩

/-- The frame of a request that takes the free block `b`. -/
theorem take_framed {A L : Nat} {s : Allocator} {X Y : List (Nat × Bool)} {b a : Nat}
    (h : Inv A L s (X ++ (b, true) :: Y)) (ha : a % 8 = 0) (ha8 : 8 ≤ a)
    (hfit : a ≤ (Y.headD (L, false)).1 - (b + 8)) :
    ¬ InUse L s b ∧ InUse L (takeState s b (Y.headD (L, false)).1 a) b ∧
    (∀ x, InUse L (takeState s b (Y.headD (L, false)).1 a) x ↔ InUse L s x ∨ x = b) ∧
    (∀ x, InUse L s x → (takeState s b (Y.headD (L, false)).1 a).mem x = s.mem x) ∧
    (∀ x, (takeState s b (Y.headD (L, false)).1 a).mem x ≠ s.mem x →
      x = b ∨ FreeBlock (takeState s b (Y.headD (L, false)).1 a) x) := by
  have h1 := Inv_take h ha ha8 hfit
  have hb := block_at h.wf rfl
  have hfl : GET_FREE s.mem b = 1 := hb.2.2.1
  have hiff : ∀ x, InUse L (takeState s b (Y.headD (L, false)).1 a) x ↔ InUse L s x ∨ x = b :=
    fun x => by rw [inuse_iff h1, inuse_iff h, mem_used_take]
  refine ⟨fun hu => ?_, (hiff b).2 (Or.inr rfl), hiff, fun x hx => ?_, fun x hx => ?_⟩
  · have := hu.2.2
    rw [hfl] at this
    exact absurd this Nat.one_ne_zero
  · exact take_frame h hfit ((inuse_iff h x).1 hx)
  · by_cases hxb : x = b
    · exact Or.inl hxb
    · right
      by_cases hsmall : (Y.headD (L, false)).1 - (b + 8) - a < 16
      · exfalso
        apply hx
        unfold takeState
        rw [if_pos hsmall]
        exact store_other _ _ hxb
      · have hx2 : x = b + 8 + a := by
          by_contra hne
          apply hx
          unfold takeState
          rw [if_neg hsmall]
          show store (store s.mem (b + 8 + a) _) b _ x = s.mem x
          rw [store_other _ _ hxb, store_other _ _ hne]
        apply freeBlock_of_mem h1
        unfold takeBlocks
        rw [if_neg hsmall, hx2]
        simp

/-- The frame of a release of the in-use block `b`. -/
theorem free_framed {A L : Nat} {s : Allocator} {X Y : List (Nat × Bool)} {b : Nat}
    (h : Inv A L s (X ++ (b, false) :: Y)) :
    ∃ s1, (∀ fuel, (X ++ (b, false) :: Y).length + 2 ≤ fuel →
        simple_free fuel s (b + 8) = some s1) ∧
      InUse L s b ∧ (∀ x, InUse L s1 x ↔ InUse L s x ∧ x ≠ b) ∧
      (∀ x, InUse L s x → x ≠ b → s1.mem x = s.mem x) ∧
      (∀ x, s1.mem x ≠ s.mem x → x = b ∨ FreeBlock s1 x) := by
  obtain ⟨s1, B1, hrun, hinv, hshape⟩ := free_run h
  have hB1 : B1 = X ++ (b, true) :: dropFree Y ∨
      ∃ X1 q, X = X1 ++ [(q, true)] ∧ B1 = X1 ++ (q, true) :: dropFree Y := by
    rcases hshape with ⟨-, e, -⟩ | ⟨X1, q, eX, e, -⟩
    · exact Or.inl e
    · exact Or.inr ⟨X1, q, eX, e⟩
  refine ⟨s1, hrun, (inuse_iff h b).2 (by simp), fun x => ?_, fun x hx hne => ?_,
    fun x hx => ?_⟩
  · rw [inuse_iff hinv, inuse_iff h]
    exact used_after_free h.wf.geo B1 hB1 x
  · exact free_frame h hshape ((inuse_iff h x).1 hx) hne
  · by_cases hxb : x = b
    · exact Or.inl hxb
    · right
      rcases hshape with ⟨-, -, es⟩ | ⟨X1, q, eX, eB, es⟩
      · exfalso
        apply hx
        rw [es]
        exact store_other _ _ hxb
      · have hx2 : x = q := by
          by_contra hne
          apply hx
          rw [es]
          show store (store s.mem b _) q _ x = s.mem x
          rw [store_other _ _ hne, store_other _ _ hxb]
        apply freeBlock_of_mem hinv
        rw [eB, hx2]
        simp

theorem header_eq {m m1 : Nat → Nat} {x : Nat} (h : m1 x = m x) :
    m1 x = m x ∧ SIZE m1 x = SIZE m x ∧ GET_FREE m1 x = GET_FREE m x := by
  refine ⟨h, ?_, ?_⟩
  · unfold SIZE GET_NEXT; rw [h]
  · unfold GET_FREE; rw [h]

/-! ## The coalescing loop of `simple_malloc` -/

/-- On a walk none of whose free headers has a free successor, the search loop
and the search loop without the coalescing loop return the same. -/
theorem searchLoop_no_coalesce {a start : Nat} {m : Nat → Nat} :
    ∀ (fuel c : Nat) (r : Nat × (Nat → Nat) × Nat),
      (∀ j, GET_FREE m (nth m j c) ≠ 0 → GET_FREE m (GET_NEXT m (nth m j c)) = 0) →
      searchLoop a start fuel m c = some r → searchLoopNoCoalesce a start fuel m c = some r
  | 0, _, _, _, h => by simp [searchLoop] at h
  | fuel + 1, c, r, hq, h => by
    have hq1 : ∀ j, GET_FREE m (nth m j (GET_NEXT m c)) ≠ 0 →
        GET_FREE m (GET_NEXT m (nth m j (GET_NEXT m c))) = 0 := fun j hj => hq (j + 1) hj
    rw [searchLoop] at h
    rw [searchLoopNoCoalesce]
    by_cases hfree : GET_FREE m c ≠ 0
    · rw [if_pos hfree] at h
      rw [if_pos hfree]
      cases fuel with
      | zero => simp [coalesceLoop] at h
      | succ f =>
        have hq0 : GET_FREE m (GET_NEXT m c) = 0 := hq 0 hfree
        rw [coalesceLoop_quiet f hq0] at h
        simp only at h
        by_cases hsz : SIZE m c ≥ a
        · rw [if_pos hsz] at h
          rw [if_pos hsz]
          exact h
        · rw [if_neg hsz] at h
          rw [if_neg hsz]
          by_cases hst : GET_NEXT m c ≠ start
          · simp only [if_pos hst] at h ⊢
            exact searchLoop_no_coalesce (f + 1) _ r hq1 h
          · simp only [if_neg hst] at h ⊢
            exact h
    · rw [if_neg hfree] at h
      rw [if_neg hfree]
      by_cases hst : GET_NEXT m c ≠ start
      · simp only [if_pos hst] at h ⊢
        exact searchLoop_no_coalesce fuel _ r hq1 h
      · simp only [if_neg hst] at h ⊢
        exact h

theorem malloc_no_coalesce (ms me : Nat) {A L : Nat} {s : Allocator} {B : List (Nat × Bool)}
    (h : Inv A L s B) {fuel size : Nat} {r : Nat × Allocator}
    (hrun : simple_malloc ms me fuel s size = some r) :
    simple_malloc_no_coalesce ms me fuel s size = some r := by
  have h0 := Inv_first_ne h
  have hcyc := ring_cycle h.wf h.cur
  have hq : ∀ j, GET_FREE s.mem (nth s.mem j s.current) ≠ 0 →
      GET_FREE s.mem (GET_NEXT s.mem (nth s.mem j s.current)) = 0 :=
    fun j hj => ring_quiet h (hcyc.2.2.1 j) hj
  unfold simple_malloc at hrun
  unfold simple_malloc_no_coalesce
  simp only [if_neg h0] at hrun ⊢
  cases hs : searchLoop (alignedSize size) s.current fuel s.mem s.current with
  | none => rw [hs] at hrun; cases hrun
  | some r1 =>
    rw [hs] at hrun
    rw [searchLoop_no_coalesce fuel s.current r1 hq hs]
    exact hrun

theorem no_coalesce_uninit_fail (ms me : Nat) {s : Allocator} (fuel size : Nat)
    (h0 : s.first = 0) (h1 : (simple_init ms me s).first = 0) :
    simple_malloc_no_coalesce ms me fuel s size = some (0, simple_init ms me s) := by
  unfold simple_malloc_no_coalesce
  simp only [if_pos h0, if_pos h1]

theorem no_coalesce_uninit_init (ms me : Nat) {s : Allocator} (fuel size : Nat)
    (h0 : s.first = 0) (h1 : (simple_init ms me s).first ≠ 0) :
    simple_malloc_no_coalesce ms me fuel s size =
      simple_malloc_no_coalesce ms me fuel (simple_init ms me s) size := by
  unfold simple_malloc_no_coalesce
  simp only [if_pos h0, if_neg h1]

/-! ## Claims -/

/-- C1 (defect in the code): `simple_malloc` is documented to allocate at least
`size` bytes.  On a fresh allocator over the region `[8, 48)` the request
`size = 2 ^ 64 - 1` is rounded by `(size + 7) & ~7` to `0`, clamped to
`MIN_SIZE`, and the call returns the non-`NULL` address `16` of a block whose
derived size is `8`, far below the requested size. -/
theorem malloc_overflow_short_block :
    (simple_malloc 8 48 10 (boot zeroMem) (2 ^ 64 - 1)).map
        (fun r => (r.1, SIZE r.2.mem (r.1 - HEADER))) = some (16, 8) ∧
      alignedSize (2 ^ 64 - 1) = 8 ∧ ¬ (2 ^ 64 - 1 ≤ 8) := by
  decide

/-- C2 (defect in the code, the one of C1): after `simple_malloc(8)`,
`simple_malloc(8)`, `simple_free(16)` on the region `[8, 72)` the block with
header `24` is in use (it is the live allocation `32`), and
`simple_malloc(2 ^ 64 - 1)` returns `16` with a block of 8 bytes: the span
`[16, 16 + max(align8(size), 8))` of the request contains the header `24` of
that other in-use block. -/
theorem malloc_overflow_span_overlap :
    (simple_malloc 8 72 10 runA (2 ^ 64 - 1)).map
        (fun r => (r.1, GET_FREE r.2.mem 24, SIZE r.2.mem (r.1 - HEADER))) = some (16, 0, 8) ∧
      (16 ≤ 24 ∧ 24 < 16 + max (align8 (2 ^ 64 - 1)) 8) := by
  decide

/-- C4 (defect in the code): the dummy end header is documented as always
allocated.  On the bootstrapped allocator over `[8, 48)` its header is at `40`
and in use; `48`, the address just after it, is never returned by
`simple_malloc`, yet `simple_free(48)` finds that header and marks it free:
the call is not a no-op. -/
theorem free_sentinel_payload_changes_state :
    Reach 8 48 runB [] [] ∧ lastHeader 48 = 40 ∧ GET_FREE runB.mem 40 = 0 ∧
      (simple_free 10 runB 48).map (fun t => (GET_FREE t.mem 40, GET_NEXT t.mem 40)) =
        some (1, 40) :=
  ⟨Reach.init (Reach.boot zeroMem), by decide, by decide, by decide⟩

/-- C3: round trip.  In every state of a valid run, if `simple_malloc(size)`
returns a non-`NULL` address `p`, then `simple_free(p)` followed at once by
`simple_malloc(size)` both return, and the second request returns `p` again. -/
theorem malloc_free_malloc_same {ms me : Nat} (hms : ms + 32 ≤ 2 ^ 64) {s s1 : Allocator}
    {R V : List Nat} {fuel size p : Nat} (hr : Reach ms me s R V)
    (hrun : simple_malloc ms me fuel s size = some (p, s1)) (hp : p ≠ 0) :
    ∃ N s2 s3, ∀ f, N ≤ f →
      simple_free f s1 p = some s2 ∧ simple_malloc ms me f s2 size = some (p, s3) := by
  obtain ⟨s0, X, Y, b, k, -, hB, -, hpe, -, -, -, -, hsz, hs1, -⟩ := malloc_hit hms hr hrun hp
  have hap := alignedSize_props size
  obtain ⟨s2, hfree, hB2, hc2⟩ := free_after_take hB hap.1 hap.2.1 hsz
  have hm := malloc_at_cursor ms me hB2 hc2 size hsz
  refine ⟨(X ++ (b, true) :: Y).length + 3, s2,
    takeState s2 b (Y.headD (lastHeader me, false)).1 (alignedSize size), fun f hf => ⟨?_, ?_⟩⟩
  · rw [hs1, hpe]; exact hfree f hf
  · rw [hpe]; exact hm f (by omega)

/-- Witness for C3: `allocate(4)`, `release`, `allocate(4)` on a fresh allocator over `[8, 48)`. -/
theorem malloc_free_malloc_same_witness :
    ∃ N s2 s3, ∀ f, N ≤ f →
      simple_free f (stateOf (boot zeroMem) (simple_malloc 8 48 10 (boot zeroMem) 4)) 16 = some s2 ∧
        simple_malloc 8 48 f s2 4 = some (16, s3) :=
  malloc_free_malloc_same (by decide) (Reach.boot zeroMem)
    (show simple_malloc 8 48 10 (boot zeroMem) 4 =
      some (16, stateOf (boot zeroMem) (simple_malloc 8 48 10 (boot zeroMem) 4)) from rfl)
    (by decide)

/-- C5: double release.  For every live payload address `p` of a valid run,
`simple_free(p)` returns a state `s1`, a second `simple_free(p)` returns and
leaves `s1` exactly as it is, and in `s1` the cursor is on a free header of the
ring whose block contains `p` (the header of `p` itself, or the free
predecessor into which it was spliced). -/
theorem double_free_noop {ms me : Nat} (hms : ms + 32 ≤ 2 ^ 64) {s : Allocator}
    {R V : List Nat} {p : Nat} (hr : Reach ms me s R V) (hp : p ∈ V) :
    ∃ N s1, (∀ f, N ≤ f → simple_free f s p = some s1 ∧ simple_free f s1 p = some s1) ∧
      (∃ k, nth s1.mem k s1.first = s1.current) ∧ GET_FREE s1.mem s1.current ≠ 0 ∧
      s1.current + HEADER ≤ p ∧ p < GET_NEXT s1.mem s1.current := by
  obtain ⟨X, Y, b, hB, -, hpe⟩ := live_block hms hr hp
  obtain ⟨s1, B1, hrun, hinv, hused, hlen, hf, hle, hn, -⟩ := free_post hB
  have hb := block_at hB.wf rfl
  have hnb : GET_NEXT s.mem b = (Y.headD (lastHeader me, false)).1 := hb.2.1
  have hb7 : b + 16 ≤ (Y.headD (lastHeader me, false)).1 := hb.2.2.2.2.2.2.1
  have hb9 : (Y.headD (lastHeader me, false)).1 ≤ lastHeader me := hb.2.2.2.2.2.2.2.2.1
  have hnoop := free_noop hinv p (fun x hx e => by
    rcases mem_ring_cases hx with e1 | ⟨X2, Y2, f, e1⟩
    · omega
    · have hb2 := block_at hinv.wf e1
      have hfl : GET_FREE s1.mem x = f.toNat := hb2.2.2.1
      cases f
      · exfalso
        have hm : (x, false) ∈ B1 := by rw [e1]; simp
        exact ((hused x).1 hm).2 (by omega)
      · rw [hfl]; exact Nat.one_ne_zero)
  obtain ⟨k, -, hk⟩ := ring_reached hinv hinv.cur
  refine ⟨(X ++ (b, false) :: Y).length + 2, s1, fun f hf2 => ⟨?_, ?_⟩, ⟨k, hk⟩, ?_, ?_, ?_⟩
  · rw [hpe]; exact hrun f hf2
  · exact hnoop f (by omega)
  · rw [hf]; exact Nat.one_ne_zero
  · unfold HEADER; omega
  · omega

/-- Witness for C5: the address `16` returned by `simple_malloc(4)` on a fresh
allocator over `[8, 48)` is live. -/
theorem double_free_noop_witness :
    ∃ N s1, (∀ f, N ≤ f →
        simple_free f (stateOf (boot zeroMem) (simple_malloc 8 48 10 (boot zeroMem) 4)) 16 = some s1 ∧
          simple_free f s1 16 = some s1) ∧
      (∃ k, nth s1.mem k s1.first = s1.current) ∧ GET_FREE s1.mem s1.current ≠ 0 ∧
      s1.current + HEADER ≤ 16 ∧ 16 < GET_NEXT s1.mem s1.current :=
  double_free_noop (by decide)
    (Reach.malloc (Reach.boot zeroMem) (by decide)
      (show simple_malloc 8 48 10 (boot zeroMem) 4 =
        some (16, stateOf (boot zeroMem) (simple_malloc 8 48 10 (boot zeroMem) 4)) from rfl))
    (by decide)

/-- C6: region too small.  For a region that starts at a non-null address and
does not reach into the last 32 bytes of the address space, `simple_init` sets
`first` exactly when `alignUp8(memory_start) + 2 * sizeof(BlockHeader) + 8 ≤
alignDown8(memory_end)`.  When the test fails, in every state of every run
`first` is `NULL`, `simple_init` writes no header and leaves `first` `NULL`,
and every `simple_malloc` call returns `NULL`, writes nothing and leaves
`first` `NULL`. -/
theorem region_too_small {ms me : Nat} (hms : ms + 32 ≤ 2 ^ 64) (h0 : 0 < ms)
    (hme : me < 2 ^ 64) :
    (∀ s : Allocator, s.first = 0 →
      ((simple_init ms me s).first ≠ 0 ↔ align8 ms + 2 * HEADER + MIN_SIZE ≤ me / 8 * 8)) ∧
    (¬ (align8 ms + 2 * HEADER + MIN_SIZE ≤ me / 8 * 8) →
      ∀ (s : Allocator) (R V : List Nat), Reach ms me s R V →
        s.first = 0 ∧ (simple_init ms me s).mem = s.mem ∧ (simple_init ms me s).first = 0 ∧
        ∀ fuel size, ∃ s1, simple_malloc ms me fuel s size = some (0, s1) ∧
          s1.first = 0 ∧ s1.mem = s.mem) := by
  have hroom : roomCheck ms me ↔ align8 ms + 2 * HEADER + MIN_SIZE ≤ me / 8 * 8 := by
    unfold roomCheck align8
    rw [aligned_memory_start_eq ms (by omega), aligned_memory_end_eq]
    unfold HEADER MIN_SIZE
    constructor <;> intro h <;> omega
  have hA : aligned_memory_start ms ≠ 0 := by
    rw [aligned_memory_start_eq ms (by omega)]; omega
  constructor
  · intro s hs
    rw [← hroom]
    constructor
    · intro h1
      by_contra hno
      rw [simple_init_small hs hno] at h1
      exact h1 hs
    · intro h1
      rw [simple_init_eq hs h1]
      exact hA
  · intro hno s R V hr
    have hno2 : ¬ roomCheck ms me := fun h => hno (hroom.1 h)
    have hs := reach_small hno2 hr
    have hi : simple_init ms me s = { mem := s.mem, first := s.first, current := s.first } :=
      simple_init_small hs hno2
    have hif : (simple_init ms me s).first = 0 := by rw [hi]; exact hs
    refine ⟨hs, by rw [hi], hif, fun fuel size => ⟨simple_init ms me s, ?_, hif, by rw [hi]⟩⟩
    exact malloc_uninit_fail ms me fuel size hs hif

/-- Witness for C6: the region `[8, 24)` is too small, the region `[8, 32)` is not. -/
theorem region_too_small_witness :
    ((simple_init 8 32 (boot zeroMem)).first ≠ 0 ↔ align8 8 + 2 * HEADER + MIN_SIZE ≤ 32 / 8 * 8) ∧
    (∃ s1, simple_malloc 8 24 5 (boot zeroMem) 8 = some (0, s1) ∧
      s1.first = 0 ∧ s1.mem = (boot zeroMem).mem) :=
  ⟨(region_too_small (by decide) (by decide) (by decide)).1 (boot zeroMem) rfl,
    ((region_too_small (by decide) (by decide) (by decide)).2 (by decide)
      (boot zeroMem) [] [] (Reach.boot zeroMem)).2.2.2 5 8⟩

/-- C7: the next-fit search is exact.  In every initialised state of a valid
run the successor links from the cursor `current` close a simple cycle of `n`
headers that contains `first`; `simple_malloc(size)` returns, it returns `NULL`
exactly when no header of that cycle is free with a derived size of at least
the rounded request, and otherwise it returns the payload of the first such
header met on the walk from `current`. -/
theorem next_fit_exact {ms me : Nat} (hms : ms + 32 ≤ 2 ^ 64) {s : Allocator}
    {R V : List Nat} (hr : Reach ms me s R V) (h0 : s.first ≠ 0) (size : Nat) :
    ∃ n r s1,
      (nth s.mem n s.current = s.current ∧
        (∀ j, 0 < j → j < n → nth s.mem j s.current ≠ s.current) ∧
        ∃ j, j < n ∧ nth s.mem j s.current = s.first) ∧
      (∀ fuel, n + 1 ≤ fuel → simple_malloc ms me fuel s size = some (r, s1)) ∧
      (r = 0 ↔ ∀ j, j < n → ¬ Fits s.mem (alignedSize size) (nth s.mem j s.current)) ∧
      (r ≠ 0 → ∃ k, k < n ∧ r = user_block (nth s.mem k s.current) ∧
        Fits s.mem (alignedSize size) (nth s.mem k s.current) ∧
        ∀ j, j < k → ¬ Fits s.mem (alignedSize size) (nth s.mem j s.current)) := by
  obtain ⟨B, hB, -⟩ := reach_Inv hms hr h0
  have hcyc := ring_cycle hB.wf hB.cur
  have hfirst : s.first ∈ ringOf B (lastHeader me) := by
    have := ring_getD_mem (aligned_memory_start ms) (lastHeader me) (B := B) (i := 0)
      (Nat.succ_pos _)
    rw [ring_head hB.wf] at this
    rw [hB.first_eq]; exact this
  have hcl := hcyc.2.2.2 _ hfirst
  rcases malloc_run ms me hB size with ⟨hno, hspec⟩ | ⟨k, X, Y, b, hk, hb, hfit, hmin, e, hsz, hspec⟩
  · refine ⟨B.length + 1, 0, s, ⟨hcyc.1, hcyc.2.1, hcl⟩, hspec, ?_, fun h => absurd rfl h⟩
    exact ⟨fun _ => hno, fun _ => rfl⟩
  · have hub := (ring_user_block hB.wf (hcyc.2.2.1 k)).1
    rw [← hb] at hub
    refine ⟨B.length + 1, b + 8, _, ⟨hcyc.1, hcyc.2.1, hcl⟩, hspec, ?_, fun _ => ?_⟩
    · constructor
      · intro h; omega
      · intro h; exact absurd hfit (hb ▸ h k hk)
    · refine ⟨k, hk, ?_, hb ▸ hfit, hmin⟩
      rw [← hb, hub]

/-- Witness for C7: the bootstrapped allocator over `[8, 48)` and a request of 8 bytes. -/
theorem next_fit_exact_witness :
    ∃ n r s1,
      (nth runB.mem n runB.current = runB.current ∧
        (∀ j, 0 < j → j < n → nth runB.mem j runB.current ≠ runB.current) ∧
        ∃ j, j < n ∧ nth runB.mem j runB.current = runB.first) ∧
      (∀ fuel, n + 1 ≤ fuel → simple_malloc 8 48 fuel runB 8 = some (r, s1)) ∧
      (r = 0 ↔ ∀ j, j < n → ¬ Fits runB.mem (alignedSize 8) (nth runB.mem j runB.current)) ∧
      (r ≠ 0 → ∃ k, k < n ∧ r = user_block (nth runB.mem k runB.current) ∧
        Fits runB.mem (alignedSize 8) (nth runB.mem k runB.current) ∧
        ∀ j, j < k → ¬ Fits runB.mem (alignedSize 8) (nth runB.mem j runB.current)) :=
  next_fit_exact (by decide) (Reach.init (Reach.boot zeroMem)) (by decide) 8

/-- C8: ring well-formedness.  In every initialised state of a valid run the
walk along the successor links from `first` visits pairwise distinct headers,
the last of them is the dummy end header, whose successor is `first`, and the
cursor `current` is one of the headers visited. -/
theorem ring_simple_cycle {ms me : Nat} (hms : ms + 32 ≤ 2 ^ 64) {s : Allocator}
    {R V : List Nat} (hr : Reach ms me s R V) (h0 : s.first ≠ 0) :
    ∃ n, (walk s.mem (n + 1) s.first).Nodup ∧
      (walk s.mem (n + 1) s.first).getLast? = some (lastHeader me) ∧
      GET_NEXT s.mem (lastHeader me) = s.first ∧ s.current ∈ walk s.mem (n + 1) s.first := by
  obtain ⟨B, hB, -⟩ := reach_Inv hms hr h0
  have hf := ring_facts hB
  refine ⟨B.length, ?_, ?_, ?_, ?_⟩
  · rw [hf.1]; exact ring_nodup hB.wf
  · rw [hf.1]; unfold ringOf; exact List.getLast?_concat _
  · rw [hB.first_eq]; exact (sent_decode hB.wf).1
  · rw [hf.1]; exact hB.cur

/-- Witness for C8: the bootstrapped allocator over `[8, 48)`. -/
theorem ring_simple_cycle_witness :
    ∃ n, (walk runB.mem (n + 1) runB.first).Nodup ∧
      (walk runB.mem (n + 1) runB.first).getLast? = some (lastHeader 48) ∧
      GET_NEXT runB.mem (lastHeader 48) = runB.first ∧
      runB.current ∈ walk runB.mem (n + 1) runB.first :=
  ring_simple_cycle (by decide) (Reach.init (Reach.boot zeroMem)) (by decide)

/-- C9: tiling.  In every initialised state of a valid run, with `n` the number
of headers in front of the dummy end header on the walk from `first`: the
headers are at strictly increasing addresses, each of the `n` blocks ends
(header plus derived size) exactly where the next header starts, `first` is the
aligned region start, the dummy end header ends at the aligned region end, and
the derived sizes plus one header each, plus the dummy header, add up to the
length of the aligned region. -/
theorem ring_tiles_region {ms me : Nat} (hms : ms + 32 ≤ 2 ^ 64) {s : Allocator}
    {R V : List Nat} (hr : Reach ms me s R V) (h0 : s.first ≠ 0) :
    ∃ n, nth s.mem n s.first = lastHeader me ∧ nth s.mem (n + 1) s.first = s.first ∧
      (walk s.mem (n + 1) s.first).Pairwise (fun x y => x < y) ∧
      (∀ j, j < n → nth s.mem j s.first + HEADER + SIZE s.mem (nth s.mem j s.first) =
        nth s.mem (j + 1) s.first) ∧
      s.first = aligned_memory_start ms ∧ lastHeader me + HEADER = aligned_memory_end me ∧
      ((walk s.mem n s.first).map (fun x => SIZE s.mem x + HEADER)).sum + HEADER =
        aligned_memory_end me - aligned_memory_start ms := by
  obtain ⟨B, hB, -⟩ := reach_Inv hms hr h0
  have hf := ring_facts hB
  have hreg := reach_region hms hr h0
  refine ⟨B.length, hf.2.2.1, hf.2.2.2.1, ?_, fun j hj => ?_, hB.first_eq, hreg, ?_⟩
  · rw [hf.1]; exact ring_sorted B _ hB.wf.geo
  · obtain ⟨X, f, Y, e, -⟩ := hf.2.2.2.2 j hj
    have hb := block_at hB.wf e
    have hn : GET_NEXT s.mem (nth s.mem j s.first) = (Y.headD (lastHeader me, false)).1 := hb.2.1
    have hs : SIZE s.mem (nth s.mem j s.first) =
        (Y.headD (lastHeader me, false)).1 - (nth s.mem j s.first + 8) := hb.2.2.2.1
    have hge : nth s.mem j s.first + 16 ≤ (Y.headD (lastHeader me, false)).1 :=
      hb.2.2.2.2.2.2.1
    rw [nth_succ_right, hn, hs]
    unfold HEADER; omega
  · rw [hf.2.1, List.map_map]
    have hsum := sizes_sum s.mem B (lastHeader me, false) hB.wf.links hB.wf.geo
    have hd : (B.headD (lastHeader me, false)).1 = aligned_memory_start ms := hB.wf.hd
    rw [hd] at hsum
    have hsum2 : (B.map ((fun x => SIZE s.mem x + HEADER) ∘ Prod.fst)).sum +
        aligned_memory_start ms = lastHeader me := hsum
    rw [← hreg]
    unfold HEADER at hsum2 ⊢
    omega

/-- Witness for C9: the bootstrapped allocator over `[8, 48)`. -/
theorem ring_tiles_region_witness :
    ∃ n, nth runB.mem n runB.first = lastHeader 48 ∧ nth runB.mem (n + 1) runB.first = runB.first ∧
      (walk runB.mem (n + 1) runB.first).Pairwise (fun x y => x < y) ∧
      (∀ j, j < n → nth runB.mem j runB.first + HEADER + SIZE runB.mem (nth runB.mem j runB.first) =
        nth runB.mem (j + 1) runB.first) ∧
      runB.first = aligned_memory_start 8 ∧ lastHeader 48 + HEADER = aligned_memory_end 48 ∧
      ((walk runB.mem n runB.first).map (fun x => SIZE runB.mem x + HEADER)).sum + HEADER =
        aligned_memory_end 48 - aligned_memory_start 8 :=
  ring_tiles_region (by decide) (Reach.init (Reach.boot zeroMem)) (by decide)

/-- C10: block sizes.  In every initialised state of a valid run each of the
`n` headers in front of the dummy end header on the walk from `first` has a
derived size that is a multiple of 8 and at least `MIN_SIZE`, and the dummy end
header, which closes the ring, is marked in use. -/
theorem block_sizes_aligned {ms me : Nat} (hms : ms + 32 ≤ 2 ^ 64) {s : Allocator}
    {R V : List Nat} (hr : Reach ms me s R V) (h0 : s.first ≠ 0) :
    ∃ n, nth s.mem n s.first = lastHeader me ∧ nth s.mem (n + 1) s.first = s.first ∧
      (∀ j, j < n → SIZE s.mem (nth s.mem j s.first) % 8 = 0 ∧
        MIN_SIZE ≤ SIZE s.mem (nth s.mem j s.first)) ∧
      GET_FREE s.mem (lastHeader me) = 0 := by
  obtain ⟨B, hB, -⟩ := reach_Inv hms hr h0
  have hf := ring_facts hB
  refine ⟨B.length, hf.2.2.1, hf.2.2.2.1, fun j hj => ?_, (sent_decode hB.wf).2⟩
  obtain ⟨X, f, Y, e, -⟩ := hf.2.2.2.2 j hj
  have hb := block_at hB.wf e
  have hs : SIZE s.mem (nth s.mem j s.first) =
      (Y.headD (lastHeader me, false)).1 - (nth s.mem j s.first + 8) := hb.2.2.2.1
  have h6 : nth s.mem j s.first % 8 = 0 := hb.2.2.2.2.2.1
  have hge : nth s.mem j s.first + 16 ≤ (Y.headD (lastHeader me, false)).1 :=
    hb.2.2.2.2.2.2.1
  have h8 : (Y.headD (lastHeader me, false)).1 % 8 = 0 := hb.2.2.2.2.2.2.2.1
  rw [hs]
  unfold MIN_SIZE
  omega

/-- Witness for C10: the bootstrapped allocator over `[8, 48)`. -/
theorem block_sizes_aligned_witness :
    ∃ n, nth runB.mem n runB.first = lastHeader 48 ∧ nth runB.mem (n + 1) runB.first = runB.first ∧
      (∀ j, j < n → SIZE runB.mem (nth runB.mem j runB.first) % 8 = 0 ∧
        MIN_SIZE ≤ SIZE runB.mem (nth runB.mem j runB.first)) ∧
      GET_FREE runB.mem (lastHeader 48) = 0 :=
  block_sizes_aligned (by decide) (Reach.init (Reach.boot zeroMem)) (by decide)

/-- C11: no adjacent free blocks.  In every initialised state of a valid run
(so after every `simple_free` and every `simple_malloc`), with `n + 1` the
number of headers of the ring, no header on the walk from `first` is free
together with its ring successor. -/
theorem no_adjacent_free {ms me : Nat} (hms : ms + 32 ≤ 2 ^ 64) {s : Allocator}
    {R V : List Nat} (hr : Reach ms me s R V) (h0 : s.first ≠ 0) :
    ∃ n, nth s.mem n s.first = lastHeader me ∧ nth s.mem (n + 1) s.first = s.first ∧
      ∀ j, ¬ (GET_FREE s.mem (nth s.mem j s.first) ≠ 0 ∧
        GET_FREE s.mem (GET_NEXT s.mem (nth s.mem j s.first)) ≠ 0) := by
  obtain ⟨B, hB, -⟩ := reach_Inv hms hr h0
  have hf := ring_facts hB
  have hfirst : s.first ∈ ringOf B (lastHeader me) := by
    rw [← hf.1]; exact List.mem_cons_self _ _
  have hcyc := ring_cycle hB.wf hfirst
  refine ⟨B.length, hf.2.2.1, hf.2.2.2.1, fun j hj => ?_⟩
  exact hj.2 (ring_quiet hB (hcyc.2.2.1 j) hj.1)

/-- Witness for C11: the state after the two releases of the coalescing scenario. -/
theorem no_adjacent_free_witness :
    ∃ n, nth runD.mem n runD.first = lastHeader 48 ∧ nth runD.mem (n + 1) runD.first = runD.first ∧
      ∀ j, ¬ (GET_FREE runD.mem (nth runD.mem j runD.first) ≠ 0 ∧
        GET_FREE runD.mem (GET_NEXT runD.mem (nth runD.mem j runD.first)) ≠ 0) :=
  no_adjacent_free (by decide) reach_runD (by decide)

/-- C12: full coalescing.  In every initialised state of a valid run in which
no returned address is live any more, the ring is the bootstrap layout: the
header at `first` is free, its successor is the dummy end header, and its
derived size plus the two headers is the length of the aligned region. -/
theorem all_released_one_block {ms me : Nat} (hms : ms + 32 ≤ 2 ^ 64) {s : Allocator}
    {R V : List Nat} (hr : Reach ms me s R V) (h0 : s.first ≠ 0) (hV : V = []) :
    GET_FREE s.mem s.first ≠ 0 ∧ GET_NEXT s.mem s.first = lastHeader me ∧
      SIZE s.mem s.first + 2 * HEADER = aligned_memory_end me - aligned_memory_start ms := by
  obtain ⟨B, hB, hL⟩ := reach_Inv hms hr h0
  rw [hV] at hL
  have hreg := reach_region hms hr h0
  have e := all_free_single hB hL
  have hb := block_at (X := []) (Y := []) hB.wf e
  have hf : GET_FREE s.mem (aligned_memory_start ms) = 1 := hb.2.2.1
  have hn : GET_NEXT s.mem (aligned_memory_start ms) = lastHeader me := hb.2.1
  have hs : SIZE s.mem (aligned_memory_start ms) =
      lastHeader me - (aligned_memory_start ms + 8) := hb.2.2.2.1
  have hge : aligned_memory_start ms + 16 ≤ lastHeader me := hb.2.2.2.2.2.2.1
  rw [hB.first_eq, hf, hn, hs, ← hreg]
  refine ⟨Nat.one_ne_zero, rfl, ?_⟩
  unfold HEADER; omega

/-- Witness for C12: `allocate(8)`, `allocate(8)`, `release(16)`, `release(32)`
on a fresh allocator over `[8, 48)`, a region of 5 headers' worth: the single
free block has the derived size `24 = 8 + 8 + 8`. -/
theorem all_released_one_block_witness :
    (GET_FREE runD.mem runD.first ≠ 0 ∧ GET_NEXT runD.mem runD.first = lastHeader 48 ∧
      SIZE runD.mem runD.first + 2 * HEADER = aligned_memory_end 48 - aligned_memory_start 8) ∧
    SIZE runD.mem runD.first = 24 :=
  ⟨all_released_one_block (by decide) reach_runD (by decide) rfl, by decide⟩

/-- C13: minimal region.  For every 8-byte aligned, non-null `memory_start`
(below the last 32 bytes of the address space) and
`memory_end = memory_start + 2 * sizeof(BlockHeader) + 8`, bootstrap succeeds,
the first `simple_malloc(8)` returns `memory_start + sizeof(BlockHeader)`, and a
second `simple_malloc(8)` without a release returns `NULL`. -/
theorem minimal_region_two_requests {ms : Nat} (h8 : ms % 8 = 0) (h0 : 0 < ms)
    (hms : ms + 32 ≤ 2 ^ 64) (m : Nat → Nat) :
    (simple_init ms (ms + 2 * HEADER + 8) (boot m)).first ≠ 0 ∧
    ∃ s1 s2, ∀ fuel, 3 ≤ fuel →
      simple_malloc ms (ms + 2 * HEADER + 8) fuel (boot m) 8 = some (ms + HEADER, s1) ∧
      simple_malloc ms (ms + 2 * HEADER + 8) fuel s1 8 = some (0, s2) := by
  have hA : aligned_memory_start ms = ms := by
    rw [aligned_memory_start_eq ms (by omega)]; omega
  have hE : aligned_memory_end (ms + 2 * HEADER + 8) = ms + 24 := by
    rw [aligned_memory_end_eq]; unfold HEADER; omega
  have hL : lastHeader (ms + 2 * HEADER + 8) = ms + 16 := by
    unfold lastHeader; rw [hE]; unfold HEADER; omega
  have hroom : roomCheck ms (ms + 2 * HEADER + 8) := by
    unfold roomCheck; rw [hA, hE]; unfold HEADER MIN_SIZE; omega
  have hinv := simple_init_Inv (s := boot m) hms rfl hroom (by rw [hA]; omega)
  have hcur : (simple_init ms (ms + 2 * HEADER + 8) (boot m)).current = aligned_memory_start ms := by
    rw [simple_init_eq rfl hroom]
  have hfirst := Inv_first_ne hinv
  have hi : ∀ fuel, simple_malloc ms (ms + 2 * HEADER + 8) fuel (boot m) 8 =
      simple_malloc ms (ms + 2 * HEADER + 8) fuel
        (simple_init ms (ms + 2 * HEADER + 8) (boot m)) 8 :=
    fun f => malloc_uninit_init ms _ f 8 rfl hfirst
  generalize simple_init ms (ms + 2 * HEADER + 8) (boot m) = s0 at hinv hcur hfirst hi ⊢
  rw [hA, hL] at hinv
  rw [hA] at hcur
  refine ⟨hfirst, ?_⟩
  have hH : ms + HEADER = ms + 8 := rfl
  rw [hH]
  obtain ⟨s1, s2, hk⟩ := minimal_ring ms (ms + 2 * HEADER + 8) hinv hcur
  exact ⟨s1, s2, fun fuel hf => ⟨by rw [hi]; exact (hk fuel hf).1, (hk fuel hf).2⟩⟩

/-- Witness for C13: the region `[8, 32)`. -/
theorem minimal_region_two_requests_witness :
    (simple_init 8 (8 + 2 * HEADER + 8) (boot zeroMem)).first ≠ 0 ∧
    ∃ s1 s2, ∀ fuel, 3 ≤ fuel →
      simple_malloc 8 (8 + 2 * HEADER + 8) fuel (boot zeroMem) 8 = some (8 + HEADER, s1) ∧
      simple_malloc 8 (8 + 2 * HEADER + 8) fuel s1 8 = some (0, s2) :=
  minimal_region_two_requests (by decide) (by decide) (by decide) zeroMem

/-- C14: release postcondition.  For every live payload address `p` of a valid
run, whose block has the derived size `SIZE(p - sizeof(BlockHeader))`,
`simple_free(p)` returns a state in which the cursor `current` is a free header
of the ring, the payload of that block (from just after the header up to its
successor) contains the whole span `[p, p + size)`, and the header is the one
of `p` itself or the header that was free and the ring predecessor of `p`
before the call. -/
theorem free_cursor_on_freed_block {ms me : Nat} (hms : ms + 32 ≤ 2 ^ 64) {s : Allocator}
    {R V : List Nat} {p : Nat} (hr : Reach ms me s R V) (hp : p ∈ V) :
    ∃ N s1, (∀ f, N ≤ f → simple_free f s p = some s1) ∧
      (∃ k, nth s1.mem k s1.first = s1.current) ∧ GET_FREE s1.mem s1.current ≠ 0 ∧
      s1.current + HEADER ≤ p ∧
      p + SIZE s.mem (p - HEADER) ≤ GET_NEXT s1.mem s1.current ∧
      (s1.current = p - HEADER ∨
        (GET_FREE s.mem s1.current ≠ 0 ∧ GET_NEXT s.mem s1.current = p - HEADER)) := by
  obtain ⟨X, Y, b, hB, -, hpe⟩ := live_block hms hr hp
  obtain ⟨s1, B1, hrun, hinv, -, -, hf, hle, hn, hor⟩ := free_post hB
  have hb := block_at hB.wf rfl
  have hnb : GET_NEXT s.mem b = (Y.headD (lastHeader me, false)).1 := hb.2.1
  have hsb : SIZE s.mem b = (Y.headD (lastHeader me, false)).1 - (b + 8) := hb.2.2.2.1
  have hb7 : b + 16 ≤ (Y.headD (lastHeader me, false)).1 := hb.2.2.2.2.2.2.1
  obtain ⟨k, -, hk⟩ := ring_reached hinv hinv.cur
  have hpb : p - HEADER = b := by unfold HEADER; omega
  refine ⟨(X ++ (b, false) :: Y).length + 2, s1, fun f hf2 => ?_, ⟨k, hk⟩, ?_, ?_, ?_, ?_⟩
  · rw [hpe]; exact hrun f hf2
  · rw [hf]; exact Nat.one_ne_zero
  · unfold HEADER; omega
  · rw [hpb, hsb]; omega
  · rw [hpb]
    rcases hor with h1 | ⟨h1, h2⟩
    · exact Or.inl h1
    · exact Or.inr ⟨by rw [h1]; exact Nat.one_ne_zero, h2⟩

/-- Witness for C14: releasing the live address `32` of the coalescing scenario. -/
theorem free_cursor_on_freed_block_witness :
    ∃ N s1, (∀ f, N ≤ f → simple_free f runC 32 = some s1) ∧
      (∃ k, nth s1.mem k s1.first = s1.current) ∧ GET_FREE s1.mem s1.current ≠ 0 ∧
      s1.current + HEADER ≤ 32 ∧
      32 + SIZE runC.mem (32 - HEADER) ≤ GET_NEXT s1.mem s1.current ∧
      (s1.current = 32 - HEADER ∨
        (GET_FREE runC.mem s1.current ≠ 0 ∧ GET_NEXT runC.mem s1.current = 32 - HEADER)) :=
  free_cursor_on_freed_block (by decide) reach_runC (by decide)

/-- C15: termination.  In every state of a valid run every call returns.  On an
uninitialised allocator `simple_free` returns at once and `simple_malloc`
returns within the two headers laid out by the bootstrap.  On an initialised
allocator whose ring has `n` headers (the walk from `first` visits `n` distinct
headers and is back at `first`), fuel `n + 1`, that is at most `n` rounds of
each loop, is enough for every `simple_malloc(size)` and for every
`simple_free(p)` on a returned address. -/
theorem calls_terminate {ms me : Nat} (hms : ms + 32 ≤ 2 ^ 64) {s : Allocator}
    {R V : List Nat} (hr : Reach ms me s R V) :
    (s.first = 0 →
      (∀ size, ∃ r, ∀ fuel, 3 ≤ fuel → simple_malloc ms me fuel s size = some r) ∧
      ∀ p fuel, simple_free fuel s p = some s) ∧
    (s.first ≠ 0 → ∃ n, (walk s.mem n s.first).Nodup ∧ nth s.mem n s.first = s.first ∧
      (∀ size, ∃ r, ∀ fuel, n + 1 ≤ fuel → simple_malloc ms me fuel s size = some r) ∧
      ∀ p, p ∈ R → ∃ s1, ∀ fuel, n + 1 ≤ fuel → simple_free fuel s p = some s1) := by
  constructor
  · intro h0
    refine ⟨fun size => ?_, fun p fuel => free_uninit h0 fuel p⟩
    rcases @init_cases ms me hms s h0 with h1 | h1
    · exact ⟨_, fun fuel _ => malloc_uninit_fail ms me fuel size h0 h1⟩
    · obtain ⟨r, hrun⟩ := malloc_total ms me h1 size
      exact ⟨r, fun fuel hf => by
        rw [malloc_uninit_init ms me fuel size h0 (Inv_first_ne h1)]
        exact hrun fuel hf⟩
  · intro h0
    obtain ⟨B, hB, -⟩ := reach_Inv hms hr h0
    have hf := ring_facts hB
    have hR := (reach_inv hms hr).1
    refine ⟨B.length + 1, ?_, hf.2.2.2.1, fun size => malloc_total ms me hB size,
      fun p hp => free_total hB (hR p hp)⟩
    rw [hf.1]; exact ring_nodup hB.wf

/-- Witness for C15: the state of the coalescing scenario with two live blocks. -/
theorem calls_terminate_witness :
    (runC.first = 0 →
      (∀ size, ∃ r, ∀ fuel, 3 ≤ fuel → simple_malloc 8 48 fuel runC size = some r) ∧
      ∀ p fuel, simple_free fuel runC p = some runC) ∧
    (runC.first ≠ 0 → ∃ n, (walk runC.mem n runC.first).Nodup ∧
      nth runC.mem n runC.first = runC.first ∧
      (∀ size, ∃ r, ∀ fuel, n + 1 ≤ fuel → simple_malloc 8 48 fuel runC size = some r) ∧
      ∀ p, p ∈ [32, 16] → ∃ s1, ∀ fuel, n + 1 ≤ fuel → simple_free fuel runC p = some s1) :=
  calls_terminate (by decide) reach_runC

/-- C16, as stated, fails: on the commands `a a c a b` the driver does not
print `0,2;`, neither when the stream holds just the five command letters nor
when it holds the blanks as well (a blank ends the loop). -/
theorem driver_output_not_0_2 :
    (main (fun _ => true) ['a', 'a', 'c', 'a', 'b']).1 ≠ "0,2;\n" ∧
      (main (fun _ => true) ['a', ' ', 'a', ' ', 'c', ' ', 'a', ' ', 'b']).1 ≠ "0,2;\n" := by
  decide

/-- C16 (amended): when the first allocation of the driver succeeds, the
command stream `a`, `a`, `c`, `a`, `b` makes `main` print exactly `0,3;`
followed by a newline and return 0: the third `a` records the counter value 3. -/
theorem driver_output_0_3 (alloc : Nat → Bool) (h : alloc (8 * 4) = true) :
    main alloc ['a', 'a', 'c', 'a', 'b'] = ("0,3;\n", 0) := by
  unfold main
  rw [if_pos h]
  rfl

/-- Witness for C16 (amended): every allocation succeeds. -/
theorem driver_output_0_3_witness :
    main (fun _ => true) ['a', 'a', 'c', 'a', 'b'] = ("0,3;\n", 0) :=
  driver_output_0_3 (fun _ => true) rfl

/-- C18: a failed allocation is atomic.  In every state of a valid run on which
the bootstrap has been run (`simple_init` has no effect on it any more), a
`simple_malloc` call that returns `NULL` returns the state it started from: same
memory, same `first`, same `current`. -/
theorem failed_malloc_atomic {ms me : Nat} (hms : ms + 32 ≤ 2 ^ 64) {s s1 : Allocator}
    {R V : List Nat} {fuel size : Nat} (hr : Reach ms me s R V)
    (hb : simple_init ms me s = s)
    (hrun : simple_malloc ms me fuel s size = some (0, s1)) : s1 = s := by
  rcases (reach_inv hms hr).2 with ⟨h0, -⟩ | ⟨B, hB, -⟩
  · have h1 : (simple_init ms me s).first = 0 := by rw [hb]; exact h0
    have := malloc_uninit_fail ms me fuel size h0 h1
    rw [hrun] at this
    have hs : s1 = simple_init ms me s := congrArg Prod.snd (Option.some.inj this)
    rw [hs, hb]
  · rcases malloc_run ms me hB size with ⟨-, hspec⟩ | ⟨k, X, Y, b, -, -, -, -, -, -, hspec⟩
    · exact congrArg Prod.snd (malloc_result_unique ms me hrun hspec)
    · have := congrArg Prod.fst (malloc_result_unique ms me hrun hspec)
      have h2 : (0 : Nat) = b + 8 := this
      omega

/-- Witness for C18: with both blocks of the region `[8, 48)` in use a further
request fails. -/
theorem failed_malloc_atomic_witness :
    stateOf runC (simple_malloc 8 48 10 runC 8) = runC :=
  failed_malloc_atomic (by decide) reach_runC (simple_init_done (by decide))
    (show simple_malloc 8 48 10 runC 8 = some (0, stateOf runC (simple_malloc 8 48 10 runC 8))
      from rfl)

/-- C17: split or take whole.  When a `simple_malloc(size)` call of a valid run
returns a non-`NULL` address `p`, then with `b = p - sizeof(BlockHeader)`, `S`
the derived size of `b` in the state searched and `a` the rounded request:
`p` is the payload of `b`, and `b` was free with `a ≤ S`.  If `S - a` is below
`sizeof(BlockHeader) + MIN_SIZE`, the block keeps its size `S ≤ a + 8` and its
successor, is marked in use, and the cursor is its successor.  Otherwise `b`
gets the size `a` and is in use, its successor is the new header
`b + sizeof(BlockHeader) + a`, which is free, has the old successor of `b` and
the size `S - a - sizeof(BlockHeader)`, and the cursor is the new header. -/
theorem split_or_take_whole {ms me : Nat} (hms : ms + 32 ≤ 2 ^ 64) {s s1 : Allocator}
    {R V : List Nat} {fuel size p : Nat} (hr : Reach ms me s R V)
    (hrun : simple_malloc ms me fuel s size = some (p, s1)) (hp : p ≠ 0) :
    p = user_block (p - HEADER) ∧ GET_FREE (searched ms me s).mem (p - HEADER) ≠ 0 ∧
    alignedSize size ≤ SIZE (searched ms me s).mem (p - HEADER) ∧
    (SIZE (searched ms me s).mem (p - HEADER) - alignedSize size < HEADER + MIN_SIZE →
      SIZE s1.mem (p - HEADER) = SIZE (searched ms me s).mem (p - HEADER) ∧
      SIZE (searched ms me s).mem (p - HEADER) ≤ alignedSize size + 8 ∧
      GET_FREE s1.mem (p - HEADER) = 0 ∧
      GET_NEXT s1.mem (p - HEADER) = GET_NEXT (searched ms me s).mem (p - HEADER) ∧
      s1.current = GET_NEXT (searched ms me s).mem (p - HEADER)) ∧
    (¬ SIZE (searched ms me s).mem (p - HEADER) - alignedSize size < HEADER + MIN_SIZE →
      SIZE s1.mem (p - HEADER) = alignedSize size ∧ GET_FREE s1.mem (p - HEADER) = 0 ∧
      GET_NEXT s1.mem (p - HEADER) = p - HEADER + HEADER + alignedSize size ∧
      GET_FREE s1.mem (p - HEADER + HEADER + alignedSize size) ≠ 0 ∧
      GET_NEXT s1.mem (p - HEADER + HEADER + alignedSize size) =
        GET_NEXT (searched ms me s).mem (p - HEADER) ∧
      SIZE s1.mem (p - HEADER + HEADER + alignedSize size) =
        SIZE (searched ms me s).mem (p - HEADER) - alignedSize size - HEADER ∧
      s1.current = p - HEADER + HEADER + alignedSize size) := by
  obtain ⟨s0, X, Y, b, k, hs0, hB, -, hpe, -, -, -, -, hsz, hs1, -⟩ := malloc_hit hms hr hrun hp
  have hsearch : searched ms me s = s0 := by
    unfold searched
    rcases hs0 with e | ⟨h0, e⟩
    · rw [e] at hB; rw [if_neg (Inv_first_ne hB), e]
    · rw [if_pos h0, e]
  have hpb : p - HEADER = b := by unfold HEADER; omega
  have hap := alignedSize_props size
  rw [hsearch, hpb]
  generalize alignedSize size = a at hsz hs1 hap ⊢
  generalize aligned_memory_start ms = A at hB
  generalize lastHeader me = L at hB hsz hs1
  have hb := block_at hB.wf rfl
  have hn0 : GET_NEXT s0.mem b = (Y.headD (L, false)).1 := hb.2.1
  have hf0 : GET_FREE s0.mem b = 1 := hb.2.2.1
  have hz0 : SIZE s0.mem b = (Y.headD (L, false)).1 - (b + 8) := hb.2.2.2.1
  have hb6 : b % 8 = 0 := hb.2.2.2.2.2.1
  have hb7 : b + 16 ≤ (Y.headD (L, false)).1 := hb.2.2.2.2.2.2.1
  have hb8 : (Y.headD (L, false)).1 % 8 = 0 := hb.2.2.2.2.2.2.2.1
  have hub := (ring_user_block hB.wf (mem_ring_block X Y (b, true))).1
  have hub2 : user_block b = b + 8 := hub
  rw [hn0, hf0, hz0, hub2]
  refine ⟨hpe, Nat.one_ne_zero, hsz, fun hsmall => ?_, fun hbig => ?_⟩
  · have hsm : (Y.headD (L, false)).1 - (b + 8) - a < 16 := hsmall
    have hw := Inv_whole hB
    have e1 : s1 = Allocator.mk (store s0.mem b (word (Y.headD (L, false)).1 false))
        s0.first (Y.headD (L, false)).1 := by
      rw [hs1]; unfold takeState; rw [if_pos hsm]
    rw [← e1] at hw
    have hb1 := block_at hw.wf rfl
    have hn1 : GET_NEXT s1.mem b = (Y.headD (L, false)).1 := hb1.2.1
    have hf1 : GET_FREE s1.mem b = 0 := hb1.2.2.1
    have hz1 : SIZE s1.mem b = (Y.headD (L, false)).1 - (b + 8) := hb1.2.2.2.1
    have hc1 : s1.current = (Y.headD (L, false)).1 := by rw [e1]
    rw [hn1, hf1, hz1, hc1]
    exact ⟨rfl, by omega, rfl, rfl, rfl⟩
  · have hbg : ¬ (Y.headD (L, false)).1 - (b + 8) - a < 16 := hbig
    have hsp := Inv_split hB hap.1 hap.2.1 (by omega)
    have e1 : s1 = Allocator.mk (store (store s0.mem (b + 8 + a)
          (word (Y.headD (L, false)).1 true)) b (word (b + 8 + a) false))
        s0.first (b + 8 + a) := by
      rw [hs1]; unfold takeState; rw [if_neg hbg]
    rw [← e1] at hsp
    have hb1 := block_at hsp.wf rfl
    have hn1 : GET_NEXT s1.mem b = b + 8 + a := hb1.2.1
    have hf1 : GET_FREE s1.mem b = 0 := hb1.2.2.1
    have hz1 : SIZE s1.mem b = b + 8 + a - (b + 8) := hb1.2.2.2.1
    have e2 : X ++ (b, false) :: (b + 8 + a, true) :: Y =
        (X ++ [(b, false)]) ++ (b + 8 + a, true) :: Y := by simp
    have hb2 := block_at hsp.wf e2
    have hn2 : GET_NEXT s1.mem (b + 8 + a) = (Y.headD (L, false)).1 := hb2.2.1
    have hf2 : GET_FREE s1.mem (b + 8 + a) = 1 := hb2.2.2.1
    have hz2 : SIZE s1.mem (b + 8 + a) = (Y.headD (L, false)).1 - (b + 8 + a + 8) :=
      hb2.2.2.2.1
    have hc1 : s1.current = b + 8 + a := by rw [e1]
    have hH : b + HEADER + a = b + 8 + a := rfl
    rw [hH, hn1, hf1, hz1, hn2, hf2, hz2, hc1]
    refine ⟨by omega, rfl, rfl, Nat.one_ne_zero, rfl, ?_, rfl⟩
    unfold HEADER; omega

/-- Witness for C17: the first request of 8 bytes on the region `[8, 48)` splits the free block. -/
theorem split_or_take_whole_witness :
    16 = user_block (16 - HEADER) ∧ GET_FREE (searched 8 48 (boot zeroMem)).mem (16 - HEADER) ≠ 0 :=
  have h := split_or_take_whole (by decide) (Reach.boot zeroMem)
    (show simple_malloc 8 48 10 (boot zeroMem) 8 =
      some (16, stateOf (boot zeroMem) (simple_malloc 8 48 10 (boot zeroMem) 8)) from rfl)
    (by decide)
  ⟨h.1, h.2.1⟩

/-- C19: live allocations are framed.  For every state `s` of a valid run, with
"in use" meaning: met on the walk from `first`, not the dummy end header, free
flag clear.  A `simple_malloc` call that returns a non-`NULL` address `p`
(compared with the state it searched, which is `s` after the bootstrap when
`s` is fresh): the block `p - sizeof(BlockHeader)` was not in use and is in use
afterwards, the in-use blocks afterwards are the old ones and that block, every
old in-use block keeps its header word, hence its derived size and its flag,
and every header word that changed is the one of the returned block or of a
free block of the resulting ring.  A `simple_free(p)` call on a live address
`p` returns; the block `p - sizeof(BlockHeader)` was in use, the in-use blocks
afterwards are the old ones without that block, every other in-use block keeps
its header word, derived size and flag, and every header word that changed is
the one of the released block or of a free block of the resulting ring. -/
theorem allocations_framed {ms me : Nat} (hms : ms + 32 ≤ 2 ^ 64) {s : Allocator}
    {R V : List Nat} (hr : Reach ms me s R V) :
    (∀ fuel size p s1, simple_malloc ms me fuel s size = some (p, s1) → p ≠ 0 →
      ¬ InUse (lastHeader me) (searched ms me s) (p - HEADER) ∧
      InUse (lastHeader me) s1 (p - HEADER) ∧
      (∀ x, InUse (lastHeader me) s1 x ↔
        InUse (lastHeader me) (searched ms me s) x ∨ x = p - HEADER) ∧
      (∀ x, InUse (lastHeader me) (searched ms me s) x →
        s1.mem x = (searched ms me s).mem x ∧ SIZE s1.mem x = SIZE (searched ms me s).mem x ∧
        GET_FREE s1.mem x = GET_FREE (searched ms me s).mem x) ∧
      (∀ x, s1.mem x ≠ (searched ms me s).mem x → x = p - HEADER ∨ FreeBlock s1 x)) ∧
    (∀ p, p ∈ V → ∃ s1, (∃ N, ∀ fuel, N ≤ fuel → simple_free fuel s p = some s1) ∧
      InUse (lastHeader me) s (p - HEADER) ∧
      (∀ x, InUse (lastHeader me) s1 x ↔ InUse (lastHeader me) s x ∧ x ≠ p - HEADER) ∧
      (∀ x, InUse (lastHeader me) s x → x ≠ p - HEADER →
        s1.mem x = s.mem x ∧ SIZE s1.mem x = SIZE s.mem x ∧
        GET_FREE s1.mem x = GET_FREE s.mem x) ∧
      (∀ x, s1.mem x ≠ s.mem x → x = p - HEADER ∨ FreeBlock s1 x)) := by
  constructor
  · intro fuel size p s1 hrun hp
    obtain ⟨s0, X, Y, b, k, hs0, hB, -, hpe, -, -, -, -, hsz, hs1, -⟩ :=
      malloc_hit hms hr hrun hp
    have hsearch : searched ms me s = s0 := by
      unfold searched
      rcases hs0 with e | ⟨h0, e⟩
      · rw [e] at hB; rw [if_neg (Inv_first_ne hB), e]
      · rw [if_pos h0, e]
    have hpb : p - HEADER = b := by unfold HEADER; omega
    have hap := alignedSize_props size
    rw [hsearch, hpb]
    generalize alignedSize size = a at hsz hs1 hap
    generalize aligned_memory_start ms = A at hB
    generalize lastHeader me = L at hB hsz hs1 ⊢
    have hf := take_framed hB hap.1 hap.2.1 hsz
    rw [← hs1] at hf
    exact ⟨hf.1, hf.2.1, hf.2.2.1, fun x hx => header_eq (hf.2.2.2.1 x hx), hf.2.2.2.2⟩
  · intro p hp
    obtain ⟨X, Y, b, hB, -, hpe⟩ := live_block hms hr hp
    have hpb : p - HEADER = b := by unfold HEADER; omega
    rw [hpb, hpe]
    generalize aligned_memory_start ms = A at hB
    generalize lastHeader me = L at hB ⊢
    obtain ⟨s1, hrun, hu, hiff, hmem, hch⟩ := free_framed hB
    exact ⟨s1, ⟨_, hrun⟩, hu, hiff, fun x hx hne => header_eq (hmem x hx hne), hch⟩

/-- Witness for C19: the release of `16` after two requests of 8 bytes on the region `[8, 48)`. -/
theorem allocations_framed_witness :
    ∃ s1, (∃ N, ∀ fuel, N ≤ fuel → simple_free fuel runC 16 = some s1) ∧
      InUse (lastHeader 48) runC (16 - HEADER) ∧
      (∀ x, InUse (lastHeader 48) s1 x ↔ InUse (lastHeader 48) runC x ∧ x ≠ 16 - HEADER) ∧
      (∀ x, InUse (lastHeader 48) runC x → x ≠ 16 - HEADER →
        s1.mem x = runC.mem x ∧ SIZE s1.mem x = SIZE runC.mem x ∧
        GET_FREE s1.mem x = GET_FREE runC.mem x) ∧
      (∀ x, s1.mem x ≠ runC.mem x → x = 16 - HEADER ∨ FreeBlock s1 x) :=
  (allocations_framed (by decide) reach_runC).2 16 (by decide)

/-- C20: the coalescing loop of `simple_malloc` is idle on valid runs.  In every
state of a valid run and for every request, whenever `simple_malloc` returns a
result, the variant without the inner coalescing loop returns the same address
and the same state on the same fuel; and with enough fuel both return, with
the same result. -/
theorem malloc_coalescing_idle {ms me : Nat} (hms : ms + 32 ≤ 2 ^ 64) {s : Allocator}
    {R V : List Nat} (hr : Reach ms me s R V) (size : Nat) :
    (∀ fuel r, simple_malloc ms me fuel s size = some r →
      simple_malloc_no_coalesce ms me fuel s size = some r) ∧
    ∃ r N, ∀ fuel, N ≤ fuel → simple_malloc ms me fuel s size = some r ∧
      simple_malloc_no_coalesce ms me fuel s size = some r := by
  have key : ∀ fuel r, simple_malloc ms me fuel s size = some r →
      simple_malloc_no_coalesce ms me fuel s size = some r := by
    intro fuel r hrun
    rcases (reach_inv hms hr).2 with ⟨h0, -⟩ | ⟨B, hB, -⟩
    · rcases @init_cases ms me hms s h0 with h1 | h1
      · rw [malloc_uninit_fail ms me fuel size h0 h1] at hrun
        rw [no_coalesce_uninit_fail ms me fuel size h0 h1]
        exact hrun
      · rw [malloc_uninit_init ms me fuel size h0 (Inv_first_ne h1)] at hrun
        rw [no_coalesce_uninit_init ms me fuel size h0 (Inv_first_ne h1)]
        exact malloc_no_coalesce ms me h1 hrun
    · exact malloc_no_coalesce ms me hB hrun
  refine ⟨key, ?_⟩
  have htot : ∃ r N, ∀ fuel, N ≤ fuel → simple_malloc ms me fuel s size = some r := by
    rcases (reach_inv hms hr).2 with ⟨h0, -⟩ | ⟨B, hB, -⟩
    · rcases @init_cases ms me hms s h0 with h1 | h1
      · exact ⟨_, 0, fun fuel _ => malloc_uninit_fail ms me fuel size h0 h1⟩
      · obtain ⟨r, hrun⟩ := malloc_total ms me h1 size
        exact ⟨r, _, fun fuel hf => by
          rw [malloc_uninit_init ms me fuel size h0 (Inv_first_ne h1)]
          exact hrun fuel hf⟩
    · obtain ⟨r, hrun⟩ := malloc_total ms me hB size
      exact ⟨r, _, hrun⟩
  obtain ⟨r, N, hrun⟩ := htot
  exact ⟨r, N, fun fuel hf => ⟨hrun fuel hf, key fuel r (hrun fuel hf)⟩⟩

/-- Witness for C20: a request of 8 bytes in the state of the coalescing
scenario with two live blocks, and on fuel 10 both functions fail alike. -/
theorem malloc_coalescing_idle_witness :
    ((∀ fuel r, simple_malloc 8 48 fuel runC 8 = some r →
      simple_malloc_no_coalesce 8 48 fuel runC 8 = some r) ∧
    ∃ r N, ∀ fuel, N ≤ fuel → simple_malloc 8 48 fuel runC 8 = some r ∧
      simple_malloc_no_coalesce 8 48 fuel runC 8 = some r) ∧
    (simple_malloc_no_coalesce 8 48 10 runC 8).map Prod.fst = some 0 :=
  ⟨malloc_coalescing_idle (by decide) reach_runC 8, by decide⟩

end MM
